import Mathlib

/-!
# OhioLINK EAD converter: the normalizer of `app.js`

A shallow embedding of `processEad` and of the node helpers it calls
(`src/node_project/app.js`, lines 81-380).

The program edits a DOM tree in place.  Here a document is an immutable forest
(`List Node`, the children of the `Document` node) and every
`xpath.select(expr, doc).forEach(callback)` statement of `processEad` becomes a
function from forests to forests that computes the document left behind by
that statement:

* the node list is selected before any callback runs, so every selection test
  is made on the node as it was when the statement started;
* `forEach` visits the selected nodes in document order, a node before the
  nodes inside it, and no callback edits the inside of another selected node:
  it only re-hangs or detaches whole children.  So every callback sees the node
  it is called on exactly as it was when the statement started.

The DOM and XPath libraries (`xmldom`, `xpath`) are not part of the sources;
their operations follow the DOM and XPath 1.0 standards.  Documents are made of
elements, text nodes and comments.

Namespaces.  `processEad` calls `xpath.select` without a namespace resolver and
all its name tests are unprefixed, so a name test matches an element when the
element is in no namespace and has that local name.  The field `tag` of an
element holds its expanded name (`expandedName`): the local name for an element
in no namespace, the namespace name in braces followed by the local name for
an element in a namespace.  No name that `processEad` tests starts with a
brace, so no test matches an element in a namespace: in a document with a
default namespace declaration (`xmlns="urn:isbn:1-931666-22-9"`) no statement
of `processEad` selects anything.  The elements made by `createElement` are in
no namespace.

Detached children.  The array `childNodes` of the DOM library is not cleared
when the last child of an element is detached, so `childNodes[0]` of an
element that has lost all its children is the child detached last; see
`staleFirstChild`.  The fields `firstChild` and `childNodes.length` and the
XPath axes see the children that hang below the element.
-/

namespace EadConverter

/-! ## Data model -/

/-- A DOM node.  `oid` is the identity of the object: `some k` for the k-th
node object made by the parser, `none` for an object made by the normalizer
(`createElement`); two element objects of a parsed document have different
identities.  It lets a theorem follow one element through the edits, and
`staleFirstChild` finds by it the children that an element had in the input.
`tag` is the expanded name of the element (`expandedName`). -/
inductive Node where
  | element (oid : Option Nat) (tag : String) (attrs : List (String × String))
      (children : List Node)
  | text (data : String)
  | comment (data : String)
  deriving Repr

/-- What a JavaScript statement can throw here: a `TypeError` (a property read
on `undefined` or `null`), or the string thrown by `addLangcodeAttributes`. -/
inductive JsError where
  | typeError
  | thrown (message : String)
  deriving Repr, DecidableEq

mutual
/-- Decidable equality of nodes. -/
def Node.decEq : (a b : Node) → Decidable (a = b)
  | .element i t a cs, .element j u b ds =>
    if h1 : i = j then
      if h2 : t = u then
        if h3 : a = b then
          match Node.decEqList cs ds with
          | isTrue h4 => isTrue (by rw [h1, h2, h3, h4])
          | isFalse h4 => isFalse (by intro h; cases h; exact h4 rfl)
        else isFalse (by intro h; cases h; exact h3 rfl)
      else isFalse (by intro h; cases h; exact h2 rfl)
    else isFalse (by intro h; cases h; exact h1 rfl)
  | .text s, .text t =>
    if h : s = t then isTrue (by rw [h]) else isFalse (by intro e; cases e; exact h rfl)
  | .comment s, .comment t =>
    if h : s = t then isTrue (by rw [h]) else isFalse (by intro e; cases e; exact h rfl)
  | .element _ _ _ _, .text _ => isFalse (by intro h; cases h)
  | .element _ _ _ _, .comment _ => isFalse (by intro h; cases h)
  | .text _, .element _ _ _ _ => isFalse (by intro h; cases h)
  | .text _, .comment _ => isFalse (by intro h; cases h)
  | .comment _, .element _ _ _ _ => isFalse (by intro h; cases h)
  | .comment _, .text _ => isFalse (by intro h; cases h)
/-- Decidable equality of node lists. -/
def Node.decEqList : (as bs : List Node) → Decidable (as = bs)
  | [], [] => isTrue rfl
  | [], _ :: _ => isFalse (by intro h; cases h)
  | _ :: _, [] => isFalse (by intro h; cases h)
  | a :: as, b :: bs =>
    match Node.decEq a b with
    | isTrue h1 =>
      match Node.decEqList as bs with
      | isTrue h2 => isTrue (by rw [h1, h2])
      | isFalse h2 => isFalse (by intro h; cases h; exact h2 rfl)
    | isFalse h1 => isFalse (by intro h; cases h; exact h1 rfl)
end

instance : DecidableEq Node := Node.decEq

/-- Decidable equality of results. -/
def decEqResult {α : Type} [DecidableEq α] : (x y : Except JsError α) → Decidable (x = y)
  | .ok a, .ok b =>
    if h : a = b then isTrue (by rw [h]) else isFalse (by intro e; cases e; exact h rfl)
  | .error a, .error b =>
    if h : a = b then isTrue (by rw [h]) else isFalse (by intro e; cases e; exact h rfl)
  | .ok _, .error _ => isFalse (by intro h; cases h)
  | .error _, .ok _ => isFalse (by intro h; cases h)

instance {α : Type} [DecidableEq α] : DecidableEq (Except JsError α) := decEqResult

/-- The field `childNodes` (empty for text and comments). -/
def Node.children : Node → List Node
  | .element _ _ _ cs => cs
  | _ => []

/-- The identity of the object, when the parser made it. -/
def Node.oid : Node → Option Nat
  | .element i _ _ _ => i
  | _ => none

/-- The field `nodeValue`: `null` for an element, the data of a text or comment. -/
def Node.nodeValue : Node → Option String
  | .element _ _ _ _ => none
  | .text s => some s
  | .comment s => some s

/-- The expanded name of an element, as the field `tag` holds it: the local
name for an element in no namespace (`namespaceURI` is null), and the namespace
name in braces followed by the local name for an element in a namespace. -/
def expandedName (namespaceURI : Option String) (localName : String) : String :=
  match namespaceURI with
  | none => localName
  | some uri => "\x7b" ++ uri ++ "\x7d" ++ localName

/-- The XPath name test `name` (unprefixed, evaluated without namespace
resolver): an element in no namespace with that local name, that is, an element
whose expanded name is `name`. -/
def Node.isElementNamed (name : String) : Node → Bool
  | .element _ t _ _ => decide (t = name)
  | _ => false

/-- The XPath predicate `[not(node())]`: no child of any kind. -/
def Node.childless (n : Node) : Bool := n.children.isEmpty

/-- The XPath predicate `[name]`: some child element has that tag. -/
def Node.hasChild (name : String) (n : Node) : Bool :=
  n.children.any (Node.isElementNamed name)

/-- The XPath predicate `[@name]` on an attribute list. -/
def hasAttribute (name : String) (attrs : List (String × String)) : Bool :=
  attrs.any (fun kv => decide (kv.1 = name))

/-- The value of an attribute, when present (`getAttribute`). -/
def getAttribute (name : String) : List (String × String) → Option String
  | [] => none
  | (k, v) :: rest => if k = name then some v else getAttribute name rest

/-- The method `setAttribute(name, value)`: overwrite the attribute where it
stands, or add it after the others. -/
def setAttribute (name value : String) : List (String × String) → List (String × String)
  | [] => [(name, value)]
  | (k, v) :: rest =>
    if k = name then (k, value) :: rest else (k, v) :: setAttribute name value rest

/-- The method `createTextNode(data)`: the data is converted to a string, so
`null` gives the four letters "null". -/
def createTextNode : Option String → Node
  | some s => .text s
  | none => .text "null"

mutual
/-- The nodes of a subtree in document order, the node itself first
(XPath `descendant-or-self::node()`). -/
def Node.subtree : Node → List Node
  | .element i t a cs => .element i t a cs :: subtreeList cs
  | .text s => [.text s]
  | .comment s => [.comment s]
/-- The nodes of a forest in document order. -/
def subtreeList : List Node → List Node
  | [] => []
  | c :: cs => c.subtree ++ subtreeList cs
end

mutual
/-- The getter `textContent`: the data of all text nodes inside, in document
order; comments do not count. -/
def textContent : Node → String
  | .element _ _ _ cs => textContentList cs
  | .text s => s
  | .comment _ => ""
/-- Text content of a child list. -/
def textContentList : List Node → String
  | [] => ""
  | c :: cs => textContent c ++ textContentList cs
end

/-- The setter `textContent = v` on an element: all children are detached and,
unless `v` is empty, one text node is attached.  Other nodes are returned as
they are (see `syncPublicationDate`). -/
def setTextContent (v : String) : Node → Node
  | .element i t a _ => .element i t a (if v = "" then [] else [.text v])
  | n => n

/-! ## JavaScript strings -/

/-- The regular-expression class `\s` of JavaScript. -/
def isJsSpace (c : Char) : Bool :=
  let n := c.toNat
  n = 9 || n = 10 || n = 11 || n = 12 || n = 13 || n = 32 || n = 160 || n = 5760
    || (8192 ≤ n && n ≤ 8202) || n = 8232 || n = 8233 || n = 8239 || n = 8287
    || n = 12288 || n = 65279

/-- The call `s.replace(/^\s*LIT\s*/g, "")` for a literal `LIT` that starts with
a non-blank character: when the text, after its leading blanks, starts with
`LIT`, the blanks, `LIT` and all blanks that follow it are removed. -/
def replaceLeadingChars (lit s : List Char) : List Char :=
  if lit.isPrefixOf (s.dropWhile isJsSpace) then
    (((s.dropWhile isJsSpace).drop lit.length).dropWhile isJsSpace)
  else s

/-- The call `s.replace(LIT, "")` with a non-empty string pattern: the first
occurrence of `LIT`, wherever it stands, is removed. -/
def replaceFirstChars (lit : List Char) : List Char → List Char
  | [] => []
  | c :: cs =>
    if lit.isPrefixOf (c :: cs) then (c :: cs).drop lit.length
    else c :: replaceFirstChars lit cs

/-- The call `s.replace(/\s*--\s*/, "--")`: the leftmost match (blanks, two
hyphens, blanks) is replaced by two hyphens. -/
def collapseDashesChars : List Char → List Char
  | [] => []
  | c :: cs =>
    if ['-', '-'].isPrefixOf ((c :: cs).dropWhile isJsSpace) then
      '-' :: '-' :: ((((c :: cs).dropWhile isJsSpace).drop 2).dropWhile isJsSpace)
    else c :: collapseDashesChars cs

/-- See `replaceLeadingChars`. -/
def replaceLeading (lit s : String) : String := String.mk (replaceLeadingChars lit.data s.data)

/-- See `replaceFirstChars`. -/
def replaceFirst (lit s : String) : String := String.mk (replaceFirstChars lit.data s.data)

/-- See `collapseDashesChars`. -/
def collapseDashes (s : String) : String := String.mk (collapseDashesChars s.data)

/-- The method `toLowerCase` on the letters A to Z (other characters are kept;
no other character becomes one of the letters of "english"). -/
def toLowerCase (s : String) : String := String.mk (s.data.map Char.toLower)

/-- The method `Array.prototype.join(sep)` on strings. -/
def joinWith (sep : String) : List String → String
  | [] => ""
  | [s] => s
  | s :: t :: rest => s ++ sep ++ joinWith sep (t :: rest)

/-! ## XPath selections of `processEad` -/

mutual
/-- Data of the text nodes whose parent is a `language` element
(`parentIsLanguage` tells whether the parent of this node is one). -/
def languageTexts (parentIsLanguage : Bool) : Node → List String
  | .element _ t _ cs => languageTextsList (decide (t = "language")) cs
  | .text s => if parentIsLanguage then [s] else []
  | .comment _ => []
/-- The same for a child list. -/
def languageTextsList (parentIsLanguage : Bool) : List Node → List String
  | [] => []
  | c :: cs => languageTexts parentIsLanguage c ++ languageTextsList parentIsLanguage cs
end

mutual
/-- Paths of the `date` elements with a `publicationstmt` ancestor, in document
order.  A path is the list of child indices that leads from this node down to
the selected one (empty for this node itself); `under` tells whether this node
has a `publicationstmt` ancestor. -/
def pubDatePaths (under : Bool) : Node → List (List Nat)
  | .element _ t _ cs =>
    (if under && decide (t = "date") then [[]] else [])
      ++ pubDatePathsList (under || decide (t = "publicationstmt")) 0 cs
  | _ => []
/-- The same for a child list whose first node has index `k`: each path starts
with the index of the child it enters. -/
def pubDatePathsList (under : Bool) (k : Nat) : List Node → List (List Nat)
  | [] => []
  | c :: cs => (pubDatePaths under c).map (List.cons k) ++ pubDatePathsList under (k + 1) cs
end

/-- How far the path `profiledesc//creation` is matched by the ancestors of a
node: 0 none, 1 inside a `profiledesc`, 2 inside a `creation` inside a
`profiledesc`. -/
def creationLevel (level : Nat) (tag : String) : Nat :=
  if level = 0 then (if tag = "profiledesc" then 1 else 0)
  else if level = 1 then (if tag = "creation" then 2 else 1)
  else level

mutual
/-- The `date` elements selected by `//profiledesc//creation//date`, in
document order; `level` is `creationLevel` of the ancestors of this node. -/
def creationDates (level : Nat) : Node → List Node
  | .element i t a cs =>
    (if level = 2 ∧ t = "date" then [.element i t a cs] else [])
      ++ creationDatesList (creationLevel level t) cs
  | _ => []
/-- The same for a child list. -/
def creationDatesList (level : Nat) : List Node → List Node
  | [] => []
  | c :: cs => creationDates level c ++ creationDatesList level cs
end

/-! ## The callbacks (lines 182-380) -/

/-- Function `addLangcodeAttributes` (line 182). -/
def addLangcodeAttributes : Node → Except JsError Node
  | .element i t a cs =>
    match cs.head? with
    | none => .error .typeError
    | some c =>
      match c.nodeValue with
      | none => .error .typeError
      | some languageText =>
        if toLowerCase languageText = "english" then
          .ok (.element i t (setAttribute "langcode" "eng" a) cs)
        else .error (.thrown ("Unrecognized language: " ++ languageText))
  | n => .ok n

/-- Function `fixContainersWithoutIds` (line 207).  `newId` is its second
argument; `forEach` passes the index of the node in the selected list there,
so the default value "?" is never used by `processEad`. -/
def fixContainersWithoutIds (newId : String) : Node → Node
  | .element i t a cs => .element i t a (cs ++ [.text newId])
  | n => n

/-- Function `fixPhysDescNode` (line 221). -/
def fixPhysDescNode : Node → Node
  | .element i t a cs => .element i t a [.element none "extent" [] cs]
  | n => n

/-- What the array `childNodes` of an element without children holds at index
0 when line 249 reads it.  The DOM library does not clear the entry when the
last child is detached, so an element that has lost all its children still has
the last of them there: `some v`, with `v` the `nodeValue` of that detached
node (`none`, that is `null`, for an element); an element that never had a
child has nothing there (`none`, that is `undefined`).  `input` is the
document as `processEad` received it from the parser.  Before line 137 a child
of a `title` is detached by `removeNode` only (lines 93, 107 and 119), which is
called on elements, and no statement attaches a child to a `title`; so a
`title` object without children holds a detached element exactly when the same
object (`oid`) had a child in `input`.  Lines 184 and 345 read `childNodes[0]`
as well; there a detached element gives `null`, on which the next method call
throws the same TypeError as the read of `nodeValue` on `undefined`. -/
def staleFirstChild (input : List Node) (n : Node) : Option (Option String) :=
  if n.oid.isSome && (subtreeList input).any (fun m => decide (m.oid = n.oid) && !m.childless)
  then some none else none

/-- Function `normalizeDescRules` (line 238).  `stale` tells what
`titleNodes[0].childNodes[0]` is when the first title has no child (see
`staleFirstChild`); `node.childNodes[0]` of line 252 is read on a node with
children. -/
def normalizeDescRules (stale : Node → Option (Option String)) : Node → Except JsError Node
  | .element i t a cs =>
    if cs.length = 0 then .ok (.element i t a cs)
    else
      match ((subtreeList cs).filter (Node.isElementNamed "title")).head? with
      | some title =>
        match title.children.head? with
        | none =>
          match stale title with
          | none => .error .typeError
          | some v => .ok (.element i t a [createTextNode v])
        | some c => .ok (.element i t a [createTextNode c.nodeValue])
      | none =>
        match cs.head? with
        | none => .error .typeError
        | some c =>
          match c.nodeValue with
          | none => .error .typeError
          | some existingText =>
            .ok (.element i t a
              [createTextNode (some (replaceFirst "Finding aid prepared using " existingText))])
  | n => .ok n

/-- Function `normalizeLangUsage` (line 273).  `toStr` is the method `toString`
of a text node of the XML library, applied to its data: `join` calls it on
every selected text node. -/
def normalizeLangUsage (toStr : String → String) : Node → Node
  | .element i t a cs =>
    if cs.length = 0 then .element i t a cs
    else .element i t a
      [createTextNode (some (joinWith " and " ((languageTextsList false cs).map toStr)))]
  | n => n

/-- Function `normalizeAuthor` (line 297). -/
def normalizeAuthor : Node → Node
  | .element i t a cs =>
    if cs.length = 0 then .element i t a cs
    else .element i t a
      [createTextNode (some (replaceLeading "Finding aid prepared by" (textContentList cs)))]
  | n => n

/-- Function `normalizeTitleProper` (line 320). -/
def normalizeTitleProper : Node → Node
  | .element i t a cs =>
    if cs.length = 0 then .element i t a cs
    else .element i t a
      [createTextNode (some (replaceLeading "Finding aid for the" (textContentList cs)))]
  | n => n

/-- Function `normalizeSubjectTerm` (line 343). -/
def normalizeSubjectTerm : Node → Except JsError Node
  | .element i t a cs =>
    match cs with
    | [] => .error .typeError
    | c :: rest =>
      match c.nodeValue with
      | none => .error .typeError
      | some term => .ok (.element i t a (createTextNode (some (collapseDashes term)) :: rest))
  | n => .ok n

/-- Function `addParagraph` (line 360). -/
def addParagraph (text : String) : Node → Node
  | .element i t a cs => .element i t a (cs ++ [.element none "p" [] [createTextNode (some text)]])
  | n => n

/-! ## The statements `xpath.select(...).forEach(...)` -/

/-- Selector `//NAME[not(node())]`. -/
def selChildless (name : String) (n : Node) : Bool :=
  n.isElementNamed name && n.childless

/-- Selector `//NAME[not(CHILD)]`. -/
def selLacking (name child : String) (n : Node) : Bool :=
  n.isElementNamed name && !(n.hasChild child)

/-- Selector `//language[not(@langcode)]`. -/
def selLanguage : Node → Bool
  | .element _ t a _ => decide (t = "language") && !(hasAttribute "langcode" a)
  | _ => false

mutual
/-- Statement `xpath.select(sel, doc).forEach(removeNode)`, below one node:
every selected node is taken out of the child list of its parent
(`removeNode`, line 371; a selected node hangs in the document when it is
visited, so the branch without parent is not taken). -/
def forEachRemoveNode (sel : Node → Bool) : Node → Node
  | .element i t a cs => .element i t a (forEachRemoveNodeList sel cs)
  | n => n
/-- The same on a child list. -/
def forEachRemoveNodeList (sel : Node → Bool) : List Node → List Node
  | [] => []
  | c :: cs =>
    if sel c then forEachRemoveNodeList sel cs
    else forEachRemoveNode sel c :: forEachRemoveNodeList sel cs
end

mutual
/-- Statement `xpath.select(sel, doc).forEach(f)` for a callback that cannot
fail and that edits the child list of its node without reading inside the
children (`fixPhysDescNode`, `addParagraph`).  `sel` is tested on the node as
it was; the children hang in the result in their own final state. -/
def forEachInPlace (sel : Node → Bool) (f : Node → Node) : Node → Node
  | .element i t a cs =>
    if sel (.element i t a cs) then f (.element i t a (forEachInPlaceList sel f cs))
    else .element i t a (forEachInPlaceList sel f cs)
  | n => n
/-- The same on a child list. -/
def forEachInPlaceList (sel : Node → Bool) (f : Node → Node) : List Node → List Node
  | [] => []
  | c :: cs => forEachInPlace sel f c :: forEachInPlaceList sel f cs
end

mutual
/-- Statement `xpath.select("//container[not(node())]", doc)
.forEach(fixContainersWithoutIds)`: `k` is the number of selected nodes
visited so far, which `forEach` passes as second argument; the result carries
the count after this node. -/
def forEachContainer (k : Nat) : Node → Node × Nat
  | .element i t a cs =>
    if selChildless "container" (.element i t a cs) then
      (fixContainersWithoutIds (toString k) (.element i t a cs), k + 1)
    else ((.element i t a (forEachContainerList k cs).1), (forEachContainerList k cs).2)
  | n => (n, k)
/-- The same on a child list. -/
def forEachContainerList (k : Nat) : List Node → List Node × Nat
  | [] => ([], k)
  | c :: cs =>
    ((forEachContainer k c).1 :: (forEachContainerList (forEachContainer k c).2 cs).1,
      (forEachContainerList (forEachContainer k c).2 cs).2)
end

mutual
/-- Statement `xpath.select(sel, doc).forEach(f)` for a callback that can throw
and that reads of its children only the value of a first text or comment
(`normalizeSubjectTerm`, `addLangcodeAttributes`).  The callback runs on a
node before it runs on the nodes inside, so its own failure comes first; the
children hang in the result in their own final state. -/
def forEachInPlaceM (sel : Node → Bool) (f : Node → Except JsError Node) :
    Node → Except JsError Node
  | .element i t a cs =>
    match (if sel (.element i t a cs) then f (.element i t a cs) else .ok (.element i t a cs)) with
    | .error e => .error e
    | .ok _ =>
      match forEachInPlaceListM sel f cs with
      | .error e => .error e
      | .ok cs2 => if sel (.element i t a cs) then f (.element i t a cs2) else .ok (.element i t a cs2)
  | n => .ok n
/-- The same on a child list. -/
def forEachInPlaceListM (sel : Node → Bool) (f : Node → Except JsError Node) :
    List Node → Except JsError (List Node)
  | [] => .ok []
  | c :: cs =>
    match forEachInPlaceM sel f c with
    | .error e => .error e
    | .ok c2 =>
      match forEachInPlaceListM sel f cs with
      | .error e => .error e
      | .ok cs2 => .ok (c2 :: cs2)
end

mutual
/-- Statement `xpath.select(sel, doc).forEach(f)` for a callback that cannot
fail and that replaces all children of its node by one text node
(`normalizeLangUsage`, `normalizeTitleProper`, `normalizeAuthor`).  The text is
computed from the node as it was; selected nodes inside it are detached with
the old children, and what the callback does to them later does not reach the
document. -/
def forEachReplace (sel : Node → Bool) (f : Node → Node) : Node → Node
  | .element i t a cs =>
    if sel (.element i t a cs) then f (.element i t a cs)
    else .element i t a (forEachReplaceList sel f cs)
  | n => n
/-- The same on a child list. -/
def forEachReplaceList (sel : Node → Bool) (f : Node → Node) : List Node → List Node
  | [] => []
  | c :: cs => forEachReplace sel f c :: forEachReplaceList sel f cs
end

mutual
/-- Statement `xpath.select(sel, doc).forEach(f)` for a callback that replaces
all children of its node by one text node and can throw
(`normalizeDescRules`).  Selected nodes inside a selected node are detached
with the old children but are still visited, each as it was: their result is
dropped, their failure is not. -/
def forEachReplaceM (sel : Node → Bool) (f : Node → Except JsError Node) :
    Node → Except JsError Node
  | .element i t a cs =>
    if sel (.element i t a cs) then
      match f (.element i t a cs) with
      | .error e => .error e
      | .ok n2 =>
        match forEachReplaceListM sel f cs with
        | .error e => .error e
        | .ok _ => .ok n2
    else
      match forEachReplaceListM sel f cs with
      | .error e => .error e
      | .ok cs2 => .ok (.element i t a cs2)
  | n => .ok n
/-- The same on a child list. -/
def forEachReplaceListM (sel : Node → Bool) (f : Node → Except JsError Node) :
    List Node → Except JsError (List Node)
  | [] => .ok []
  | c :: cs =>
    match forEachReplaceM sel f c with
    | .error e => .error e
    | .ok c2 =>
      match forEachReplaceListM sel f cs with
      | .error e => .error e
      | .ok cs2 => .ok (c2 :: cs2)
end

/-- Apply `f` to the k-th node of a list (nothing when there is none). -/
def modifyNth (f : Node → Node) : Nat → List Node → List Node
  | _, [] => []
  | 0, c :: cs => f c :: cs
  | k + 1, c :: cs => c :: modifyNth f k cs

/-- Apply `f` to the node that a path leads to from this node (nothing when the
path leads nowhere). -/
def modifyNode (f : Node → Node) : List Nat → Node → Node
  | [], n => f n
  | k :: rest, .element i t a cs => .element i t a (modifyNth (modifyNode f rest) k cs)
  | _ :: _, n => n

/-- Apply `f` to the node that a path leads to from the document node. -/
def modifyAt (f : Node → Node) : List Nat → List Node → List Node
  | [], doc => doc
  | k :: rest, doc => modifyNth (modifyNode f rest) k doc

/-- The callback of line 169 on the selected `date` at `path`:
`badpubdate.textContent = xpath.select("//profiledesc//creation//date", doc)[0].textContent`.
The creation date is looked up in the document as it is now.  A selected date
inside a date that was already overwritten is detached: its path now leads to
no element, and the document is not changed. -/
def syncPublicationDate (doc : List Node) (path : List Nat) : Except JsError (List Node) :=
  match (creationDatesList 0 doc).head? with
  | none => .error .typeError
  | some d => .ok (modifyAt (setTextContent (textContent d)) path doc)

/-- The loop `forEach` of line 169 over the selected paths. -/
def forEachPublicationDate : List (List Nat) → List Node → Except JsError (List Node)
  | [], doc => .ok doc
  | path :: paths, doc =>
    match syncPublicationDate doc path with
    | .error e => .error e
    | .ok doc2 => forEachPublicationDate paths doc2

/-! ## `processEad` (line 81) -/

/-- The array `noteTypes` (line 99). -/
def noteTypes : List String :=
  ["bioghist", "scopecontent", "arrangement", "accessrestrict", "userestrict",
    "prefercite", "acqinfo", "custodhist", "accruals"]

/-- Line 87: physdesc elements without extent. -/
def fixPhysDescs (doc : List Node) : List Node :=
  forEachInPlaceList (selLacking "physdesc" "extent") fixPhysDescNode doc

/-- Line 93: empty paragraphs. -/
def removeEmptyParagraphs (doc : List Node) : List Node :=
  forEachRemoveNodeList (selChildless "p") doc

/-- The body of the loop of line 105 for one note tag. -/
def fixNote (doc : List Node) (nodeName : String) : List Node :=
  forEachInPlaceList (selLacking nodeName "p") (addParagraph "Not Specified")
    (forEachRemoveNodeList (selChildless nodeName) doc)

/-- The loop of line 105 over `noteTypes`. -/
def fixNotes (doc : List Node) : List Node := noteTypes.foldl fixNote doc

/-- Line 119: unitdate elements without expression. -/
def removeEmptyUnitdates (doc : List Node) : List Node :=
  forEachRemoveNodeList (selChildless "unitdate") doc

/-- Line 125: containers without identifier. -/
def fixContainers (doc : List Node) : List Node := (forEachContainerList 0 doc).1

/-- Line 168: the selected publication dates are overwritten one after the other. -/
def syncPublicationDates (doc : List Node) : Except JsError (List Node) :=
  forEachPublicationDate (pubDatePathsList false 0 doc) doc

/-- Lines 83-126 of `processEad`: the statements that cannot fail. -/
def structuralRules (doc : List Node) : List Node :=
  fixContainers (removeEmptyUnitdates (fixNotes (removeEmptyParagraphs (fixPhysDescs doc))))

/-- Lines 128-163 of `processEad`, after the statements that cannot fail: the
rules on subject, descrules, langusage, language, titleproper and author.
A thrown error ends the function: the later statements do not run. -/
def normalizeContent (toStr : String → String) (doc : List Node) :
    Except JsError (List Node) :=
  match forEachInPlaceListM (Node.isElementNamed "subject") normalizeSubjectTerm
      (structuralRules doc) with
  | .error e => .error e
  | .ok d7 =>
    match forEachReplaceListM (Node.isElementNamed "descrules")
        (normalizeDescRules (staleFirstChild doc)) d7 with
    | .error e => .error e
    | .ok d8 =>
      match forEachInPlaceListM selLanguage addLangcodeAttributes
          (forEachReplaceList (Node.isElementNamed "langusage") (normalizeLangUsage toStr) d8) with
      | .error e => .error e
      | .ok d10 =>
        .ok (forEachReplaceList (Node.isElementNamed "author") normalizeAuthor
          (forEachReplaceList (Node.isElementNamed "titleproper") normalizeTitleProper d10))

/-- Function `processEad` (line 81) on the children of the document node;
`toStr` is the method `toString` of a text node (see `normalizeLangUsage`). -/
def processEad (toStr : String → String) (doc : List Node) : Except JsError (List Node) :=
  match normalizeContent toStr doc with
  | .error e => .error e
  | .ok d12 => syncPublicationDates d12

/-! ## Further definitions used by the claims -/

/-- The statements of `processEad` before the date synchronisation of line
168, in the order of the source: rules 1 to 12 of the specification, the loop
of line 105 (rules 3 and 4, interleaved tag by tag) being one statement. -/
inductive Rule where
  | physdesc
  | paragraphs
  | notes
  | unitdates
  | containers
  | subjects
  | descrules
  | langusage
  | language
  | titleproper
  | author
  deriving Repr, DecidableEq

/-- One statement of `processEad`. -/
def applyRule (toStr : String → String) (input : List Node) :
    Rule → List Node → Except JsError (List Node)
  | .physdesc, doc => .ok (fixPhysDescs doc)
  | .paragraphs, doc => .ok (removeEmptyParagraphs doc)
  | .notes, doc => .ok (fixNotes doc)
  | .unitdates, doc => .ok (removeEmptyUnitdates doc)
  | .containers, doc => .ok (fixContainers doc)
  | .subjects, doc =>
    forEachInPlaceListM (Node.isElementNamed "subject") normalizeSubjectTerm doc
  | .descrules, doc =>
    forEachReplaceListM (Node.isElementNamed "descrules")
      (normalizeDescRules (staleFirstChild input)) doc
  | .langusage, doc =>
    .ok (forEachReplaceList (Node.isElementNamed "langusage") (normalizeLangUsage toStr) doc)
  | .language, doc => forEachInPlaceListM selLanguage addLangcodeAttributes doc
  | .titleproper, doc =>
    .ok (forEachReplaceList (Node.isElementNamed "titleproper") normalizeTitleProper doc)
  | .author, doc => .ok (forEachReplaceList (Node.isElementNamed "author") normalizeAuthor doc)

/-- Statements run one after the other; a thrown error ends the run. -/
def applyRules (toStr : String → String) (input : List Node) :
    List Rule → List Node → Except JsError (List Node)
  | [], doc => .ok doc
  | r :: rs, doc =>
    match applyRule toStr input r doc with
    | .error e => .error e
    | .ok doc2 => applyRules toStr input rs doc2

/-- The order of the statements in the source. -/
def sourceOrder : List Rule :=
  [.physdesc, .paragraphs, .notes, .unitdates, .containers, .subjects, .descrules,
    .langusage, .language, .titleproper, .author]

/-- The function `processEad` with rules 1 to 12 run in a given order, followed
by the date synchronisation. -/
def processEadInOrder (toStr : String → String) (order : List Rule) (doc : List Node) :
    Except JsError (List Node) :=
  match applyRules toStr doc order doc with
  | .error e => .error e
  | .ok d12 => syncPublicationDates d12

/-- The tags that the selectors of rules 1 to 12 name. -/
def ruleTags : List String :=
  ["physdesc", "p", "unitdate", "container", "subject", "descrules", "langusage",
    "language", "titleproper", "author"] ++ noteTypes

/-- The attribute list of an element (empty for text and comments). -/
def Node.attrs : Node → List (String × String)
  | .element _ _ a _ => a
  | _ => []

/-- How one statement of `processEad` can change the attributes of an element
with tag `t`: not at all, or, on a language element without langcode, by
`setAttribute("langcode", "eng")`. -/
def AttrStep (t : String) (a a2 : List (String × String)) : Prop :=
  a2 = a ∨ (t = "language" ∧ hasAttribute "langcode" a = false
    ∧ a2 = setAttribute "langcode" "eng" a)

/-- A child list `cs2` keeps what the child list `cs` had: a child element
with a tag outside `rs` is still matched by a child with that tag, and an
empty list stays empty. -/
def KeepChildren (rs : List String) (cs cs2 : List Node) : Prop :=
  (∀ y, y ∉ rs → cs.any (Node.isElementNamed y) = true →
      cs2.any (Node.isElementNamed y) = true)
    ∧ (cs = [] → cs2 = [])

/-- An element made by the normalizer: an `extent` or a `p` without
attributes and without parser identity. -/
def Created (m : Node) : Prop :=
  ∃ t cs, m = .element none t [] cs ∧ (t = "extent" ∨ t = "p")

/-- Every element among `outNodes` is made by the normalizer or is an element
object of `srcNodes`: same identity and tag, attributes changed by `AttrStep`
at most, and, unless its tag is in `ts`, children kept in the sense of
`KeepChildren rs`. -/
def OriginIn (ts rs : List String) (srcNodes outNodes : List Node) : Prop :=
  ∀ i t a2 cs2, Node.element i t a2 cs2 ∈ outNodes →
    Created (.element i t a2 cs2) ∨
      ∃ a cs, Node.element i t a cs ∈ srcNodes ∧ AttrStep t a a2
        ∧ (t ∉ ts → KeepChildren rs cs cs2)

/-- The relation `OriginIn` between the nodes of two documents. -/
def Origin (ts rs : List String) (src out : List Node) : Prop :=
  OriginIn ts rs (subtreeList src) (subtreeList out)

/-- What a callback may do to the element it is called on: keep identity, tag
and attributes, and hang below it only nodes that were below it or that it
has made. -/
def KeepsShell (f : Node → Node) : Prop :=
  ∀ i t a cs, ∃ cs2, f (.element i t a cs) = .element i t a cs2
    ∧ ∀ j u b ds, Node.element j u b ds ∈ subtreeList cs2 →
      Node.element j u b ds ∈ subtreeList cs ∨ Created (.element j u b ds)

/-- What a callback that can throw may do, when it returns, to a selected
element (`cs0` are the children it had when it was selected): keep identity
and tag, change the attributes by `AttrStep` at most, and hang below it only
nodes that were below it or that it has made. -/
def KeepsShellM (sel : Node → Bool) (f : Node → Except JsError Node) : Prop :=
  ∀ i t a cs cs0 r, sel (.element i t a cs0) = true → f (.element i t a cs) = .ok r →
    ∃ a2 cs2, r = .element i t a2 cs2 ∧ AttrStep t a a2
      ∧ ∀ j u b ds, Node.element j u b ds ∈ subtreeList cs2 →
        Node.element j u b ds ∈ subtreeList cs ∨ Created (.element j u b ds)

/-- The k-th node of a child list, when there is one. -/
def nth : Nat → List Node → Option Node
  | _, [] => none
  | 0, c :: _ => some c
  | k + 1, _ :: cs => nth k cs

/-- The tag of the element that a path leads to from this node; `none` when
the path leads nowhere or to a text or comment. -/
def tagAtNode : List Nat → Node → Option String
  | [], .element _ t _ _ => some t
  | [], _ => none
  | k :: rest, .element _ _ _ cs =>
    match nth k cs with
    | some c => tagAtNode rest c
    | none => none
  | _ :: _, _ => none

/-- The tag of the element that a path leads to from the document node. -/
def tagAt : List Nat → List Node → Option String
  | [], _ => none
  | k :: rest, doc =>
    match nth k doc with
    | some c => tagAtNode rest c
    | none => none

mutual
/-- The `date` elements selected by `//publicationstmt//date` (line 168) as
nodes, in document order; `under` as in `pubDatePaths`. -/
def pubDates (under : Bool) : Node → List Node
  | .element i t a cs =>
    (if under && decide (t = "date") then [.element i t a cs] else [])
      ++ pubDatesList (under || decide (t = "publicationstmt")) cs
  | _ => []
/-- The same for a child list. -/
def pubDatesList (under : Bool) : List Node → List Node
  | [] => []
  | c :: cs => pubDates under c ++ pubDatesList under cs
end

mutual
/-- Overwrite the text content of every outermost `date` element with a
`publicationstmt` ancestor by `v`; `under` as in `pubDatePaths`. -/
def setDates (v : String) (under : Bool) : Node → Node
  | .element i t a cs =>
    if under && decide (t = "date") then .element i t a (if v = "" then [] else [.text v])
    else .element i t a (setDatesList v (under || decide (t = "publicationstmt")) cs)
  | n => n
/-- The same for a child list. -/
def setDatesList (v : String) (under : Bool) : List Node → List Node
  | [] => []
  | c :: cs => setDates v under c :: setDatesList v under cs
end

mutual
/-- Overwriting the node that a path leads to from this node spares the first
`date` selected by `//profiledesc//creation//date` below this node: that date
comes before the overwritten node in document order without containing it, or
the overwritten node neither is a selected date, nor lies in one, nor contains
one.  `level` is `creationLevel` of the ancestors of this node. -/
def sparesFirstDateNode (level : Nat) : List Nat → Node → Bool
  | [], n => (creationDates level n).isEmpty
  | k :: rest, .element _ t _ cs =>
    !decide (level = 2 ∧ t = "date") && sparesFirstDateList (creationLevel level t) k rest cs
  | _ :: _, _ => true
/-- The same for the path that enters child number `k` of a child list. -/
def sparesFirstDateList (level : Nat) : Nat → List Nat → List Node → Bool
  | _, _, [] => true
  | 0, rest, c :: _ => sparesFirstDateNode level rest c
  | k + 1, rest, c :: cs =>
    !(creationDates level c).isEmpty || sparesFirstDateList level k rest cs
end

/-- The same for a path from the document node: the node at `path` is not the
first date under profiledesc//creation of the document, does not lie inside it
and does not contain it. -/
def sparesFirstDate (path : List Nat) (doc : List Node) : Bool :=
  match path with
  | [] => true
  | k :: rest => sparesFirstDateList 0 k rest doc

/-- No `date` selected by `//publicationstmt//date` is the first `date`
selected by `//profiledesc//creation//date`, lies inside it or contains it. -/
def datesApart (doc : List Node) : Bool :=
  (pubDatePathsList false 0 doc).all (fun path => sparesFirstDate path doc)

/-- The node that `removeNode` is called on: an object that hangs in the
document, given by the path of child indices that leads to it from the
document node (the empty path is the document node itself), or an object that
hangs nowhere (`parentNode` is null). -/
inductive NodeRef where
  | attached (path : List Nat)
  | detached (node : Node)

/-- The node that a path leads to from this node, when there is one. -/
def nodeAtNode : List Nat → Node → Option Node
  | [], n => some n
  | k :: rest, .element _ _ _ cs =>
    match nth k cs with
    | some c => nodeAtNode rest c
    | none => none
  | _ :: _, _ => none

/-- The node that a path leads to from the document node, when there is one. -/
def nodeAt : List Nat → List Node → Option Node
  | [], _ => none
  | k :: rest, doc =>
    match nth k doc with
    | some c => nodeAtNode rest c
    | none => none

/-- The call `parentNode.removeChild(node)` for the node at a path: the child
list of the parent loses that entry. -/
def removeAt : List Nat → List Node → List Node
  | [], doc => doc
  | [k], doc => doc.eraseIdx k
  | k :: j :: rest, doc =>
    modifyNth
      (fun n =>
        match n with
        | .element i t a cs => .element i t a (removeAt (j :: rest) cs)
        | m => m)
      k doc

/-- The same below one node. -/
def removeAtNode (path : List Nat) : Node → Node
  | .element i t a cs => .element i t a (removeAt path cs)
  | n => n

/-- Function `removeNode` (line 371) on the document and the node passed.  The
result is the document after the call, the node passed (`none` for the document
node) and the lines written by `console.log`.  A node with a parent is taken
out of the child list of its parent; for a node without parent, and for the
document node, only the warning is logged. -/
def removeNode (doc : List Node) : NodeRef → Except JsError (List Node × Option Node × List String)
  | .attached [] => .ok (doc, none, ["WARNING: Cannot remove node that has no parent."])
  | .attached (k :: rest) => .ok (removeAt (k :: rest) doc, nodeAt (k :: rest) doc, [])
  | .detached node => .ok (doc, some node, ["WARNING: Cannot remove node that has no parent."])

/-- The document after `removeNode` on the node at a path. -/
def removeNodeAt (path : List Nat) (doc : List Node) : List Node :=
  match removeNode doc (.attached path) with
  | .ok r => r.1
  | .error _ => doc

mutual
/-- Paths of the nodes of a subtree that a selector matches, in document order
(a path as in `pubDatePaths`). -/
def selectedPaths (sel : Node → Bool) : Node → List (List Nat)
  | .element i t a cs =>
    (if sel (.element i t a cs) then [[]] else []) ++ selectedPathsList sel 0 cs
  | n => if sel n then [[]] else []
/-- The same for a child list whose first node has index `k`. -/
def selectedPathsList (sel : Node → Bool) (k : Nat) : List Node → List (List Nat)
  | [] => []
  | c :: cs => (selectedPaths sel c).map (List.cons k) ++ selectedPathsList sel (k + 1) cs
end

/-! ## Lemmas on strings and on the traversals -/

theorem mem_subtree_self (n : Node) : n ∈ n.subtree := by
  cases n <;> simp [Node.subtree]

/-! ## Name tests and namespaces -/

theorem isElementNamed_no_namespace (name localName : String) (i : Option Nat)
    (a : List (String × String)) (cs : List Node) :
    Node.isElementNamed name (.element i (expandedName none localName) a cs)
      = decide (localName = name) := rfl

theorem isElementNamed_in_namespace (name uri localName : String) (i : Option Nat)
    (a : List (String × String)) (cs : List Node)
    (h : name.data.head? ≠ some (Char.ofNat 123)) :
    Node.isElementNamed name (.element i (expandedName (some uri) localName) a cs) = false := by
  simp only [Node.isElementNamed, expandedName, decide_eq_false_iff_not]
  intro heq
  apply h
  rw [← heq]
  simp only [String.data_append]
  rfl

theorem isElementNamed_expandedName (name localName : String) (namespaceURI : Option String)
    (i : Option Nat) (a : List (String × String)) (cs : List Node)
    (h : name.data.head? ≠ some (Char.ofNat 123)) :
    Node.isElementNamed name (.element i (expandedName namespaceURI localName) a cs)
      = decide (namespaceURI = none ∧ localName = name) := by
  cases namespaceURI with
  | none => simp [isElementNamed_no_namespace]
  | some uri => simp [isElementNamed_in_namespace name uri localName i a cs h]

theorem tested_names_start_with_a_letter :
    ∀ name ∈ ruleTags ++ ["extent", "title", "date", "publicationstmt", "profiledesc",
        "creation"],
      name.data.head? ≠ some (Char.ofNat 123) := by
  decide

theorem dropWhile_blank_append (ws rest : List Char) (hws : ∀ c ∈ ws, isJsSpace c = true)
    (hrest : ∀ c, rest.head? = some c → isJsSpace c = false) :
    (ws ++ rest).dropWhile isJsSpace = rest := by
  induction ws with
  | nil =>
    cases rest with
    | nil => rfl
    | cons c cs => simp [List.dropWhile, hrest c rfl]
  | cons w ws ih =>
    have hw : isJsSpace w = true := hws w (List.mem_cons_self _ _)
    simp only [List.cons_append, List.dropWhile, hw]
    exact ih (fun c hc => hws c (List.mem_cons_of_mem _ hc))

theorem isPrefixOf_append_self (lit rest : List Char) : lit.isPrefixOf (lit ++ rest) = true := by
  induction lit with
  | nil => simp [List.isPrefixOf]
  | cons c cs ih => simp [List.isPrefixOf, ih]

theorem replaceLeadingChars_match (lit ws ws2 rest : List Char)
    (hlit : ∀ c, lit.head? = some c → isJsSpace c = false) (hne : lit ≠ [])
    (hws : ∀ c ∈ ws, isJsSpace c = true) (hws2 : ∀ c ∈ ws2, isJsSpace c = true)
    (hrest : ∀ c, rest.head? = some c → isJsSpace c = false) :
    replaceLeadingChars lit (ws ++ (lit ++ (ws2 ++ rest))) = rest := by
  have h1 : (ws ++ (lit ++ (ws2 ++ rest))).dropWhile isJsSpace = lit ++ (ws2 ++ rest) := by
    apply dropWhile_blank_append _ _ hws
    intro c hc
    cases lit with
    | nil => exact absurd rfl hne
    | cons l ls => exact hlit c (by simpa using hc)
  unfold replaceLeadingChars
  rw [h1, isPrefixOf_append_self, if_pos rfl, List.drop_left]
  exact dropWhile_blank_append _ _ hws2 hrest

theorem replaceFirstChars_absent (lit s : List Char) (h : ¬ lit <:+: s) :
    replaceFirstChars lit s = s := by
  induction s with
  | nil => rfl
  | cons c cs ih =>
    unfold replaceFirstChars
    have h1 : lit.isPrefixOf (c :: cs) = false := by
      cases hp : lit.isPrefixOf (c :: cs) with
      | false => rfl
      | true =>
        exfalso
        have : lit <+: (c :: cs) := List.isPrefixOf_iff_prefix.mp hp
        exact h this.isInfix
    rw [h1]
    simp only [Bool.false_eq_true, if_false]
    rw [ih]
    intro hi
    exact h (List.IsInfix.trans hi (List.suffix_cons c cs).isInfix)

theorem replaceFirstChars_present (lit s : List Char) (h : lit <:+: s) :
    ∃ pre post, s = pre ++ (lit ++ post) ∧ replaceFirstChars lit s = pre ++ post
      ∧ ∀ pre2 post2, s = pre2 ++ (lit ++ post2) → pre.length ≤ pre2.length := by
  induction s with
  | nil =>
    have hl : lit = [] := List.eq_nil_of_infix_nil h
    subst hl
    exact ⟨[], [], rfl, rfl, fun _ _ _ => Nat.zero_le _⟩
  | cons c cs ih =>
    cases hp : lit.isPrefixOf (c :: cs) with
    | true =>
      have hpre : lit <+: (c :: cs) := List.isPrefixOf_iff_prefix.mp hp
      obtain ⟨post, hpost⟩ := hpre
      refine ⟨[], post, by simpa using hpost.symm, ?_, fun _ _ _ => Nat.zero_le _⟩
      unfold replaceFirstChars
      rw [hp, if_pos rfl, ← hpost, List.drop_left]
      rfl
    | false =>
      have hnp : ¬ lit <+: (c :: cs) := by
        intro hpre
        rw [List.isPrefixOf_iff_prefix.mpr hpre] at hp
        exact Bool.noConfusion hp
      have hcs : lit <:+: cs := by
        rcases List.infix_cons_iff.mp h with h1 | h1
        · exact absurd h1 hnp
        · exact h1
      obtain ⟨pre, post, hs, hr, hfirst⟩ := ih hcs
      refine ⟨c :: pre, post, by simp [hs], ?_, ?_⟩
      · unfold replaceFirstChars
        rw [hp]
        simp [hr]
      · intro pre2 post2 h2
        cases pre2 with
        | nil => exact absurd ⟨post2, by simpa using h2.symm⟩ hnp
        | cons p ps =>
          have h3 : cs = ps ++ (lit ++ post2) := by
            simp only [List.cons_append, List.cons.injEq] at h2
            exact h2.2
          simpa using hfirst ps post2 h3

mutual
theorem forEachInPlace_id_of_not_selected (sel : Node → Bool) (f : Node → Node) :
    ∀ n : Node, (∀ m ∈ n.subtree, sel m = false) → forEachInPlace sel f n = n
  | .element i t a cs, h => by
    have h0 : sel (.element i t a cs) = false := h _ (mem_subtree_self _)
    have h1 : forEachInPlaceList sel f cs = cs :=
      forEachInPlaceList_id_of_not_selected sel f cs (fun m hm => h m (by simp [Node.subtree, hm]))
    simp [forEachInPlace, h0, h1]
  | .text _, _ => rfl
  | .comment _, _ => rfl
theorem forEachInPlaceList_id_of_not_selected (sel : Node → Bool) (f : Node → Node) :
    ∀ cs : List Node, (∀ m ∈ subtreeList cs, sel m = false) → forEachInPlaceList sel f cs = cs
  | [], _ => rfl
  | c :: cs, h => by
    have h1 := forEachInPlace_id_of_not_selected sel f c (fun m hm => h m (by simp [subtreeList, hm]))
    have h2 := forEachInPlaceList_id_of_not_selected sel f cs (fun m hm => h m (by simp [subtreeList, hm]))
    simp [forEachInPlaceList, h1, h2]
end

/-! ## Claims C2, C7, C8, C9: what the callbacks do to one element -/

/-- Claim C2: on a physdesc element without extent child, `fixPhysDescNode`
leaves exactly one child, a new extent element without attributes that holds
the former children in their order (none when there were none); identity, tag
and attributes of the physdesc are kept.  Inside rule 1 of `processEad` the
same holds, the former children being those child objects after rule 1 has
treated the physdesc elements inside them (nothing at all when none is
selected there). -/
theorem fixPhysDescNode_wraps_children (i : Option Nat) (a : List (String × String))
    (cs : List Node) (h : Node.hasChild "extent" (.element i "physdesc" a cs) = false) :
    fixPhysDescNode (.element i "physdesc" a cs)
        = .element i "physdesc" a [.element none "extent" [] cs]
      ∧ forEachInPlace (selLacking "physdesc" "extent") fixPhysDescNode
          (.element i "physdesc" a cs)
        = .element i "physdesc" a [.element none "extent" [] (fixPhysDescs cs)]
      ∧ ((∀ m ∈ subtreeList cs, selLacking "physdesc" "extent" m = false) →
          fixPhysDescs cs = cs) := by
  refine ⟨rfl, ?_, fun hm => forEachInPlaceList_id_of_not_selected _ _ cs hm⟩
  have hsel : selLacking "physdesc" "extent" (.element i "physdesc" a cs) = true := by
    simp [selLacking, Node.isElementNamed, h]
  simp [forEachInPlace, hsel, fixPhysDescNode, fixPhysDescs]

/-- Claim C2 at the example of the source comment (line 84). -/
theorem fixPhysDescNode_wraps_children_witness :
    Node.hasChild "extent" (.element (some 1) "physdesc" [("label", "Extent:")]
        [.text ".5 linear feet (1 box)"]) = false
      ∧ fixPhysDescNode (.element (some 1) "physdesc" [("label", "Extent:")]
          [.text ".5 linear feet (1 box)"])
        = .element (some 1) "physdesc" [("label", "Extent:")]
            [.element none "extent" [] [.text ".5 linear feet (1 box)"]] :=
  ⟨by decide, (fixPhysDescNode_wraps_children (some 1) [("label", "Extent:")]
    [.text ".5 linear feet (1 box)"] (by decide)).1⟩

/-- Claim C7 as stated fails: the text "Finding aid for theatre" does not begin
with the claimed literal "Finding aid for the " (there is no blank after
"the"), yet `normalizeTitleProper` does not keep it: it leaves "atre". -/
theorem normalizeTitleProper_needs_no_blank :
    ("Finding aid for the ".data.isPrefixOf "Finding aid for theatre".data) = false
      ∧ normalizeTitleProper
          (.element (some 1) "titleproper" [] [.text "Finding aid for theatre"])
        = .element (some 1) "titleproper" [] [.text "atre"] := by
  decide

/-- Claim C7, amended: a titleproper (author) element with children is left
with exactly one child, a text node made from its former text content by
`replaceLeading "Finding aid for the"` (`"Finding aid prepared by"`); a childless
one is untouched.  `replaceLeading lit` removes leading blanks, the literal
`lit` (no blank is needed after it) and every blank that follows it, and keeps
every text that, after its leading blanks, does not start with `lit`.  The two
examples of the claim come out as stated. -/
theorem normalizeTitleProper_normalizeAuthor_text (i : Option Nat) (t : String)
    (a : List (String × String)) (c : Node) (cs : List Node) :
    normalizeTitleProper (.element i t a (c :: cs))
        = .element i t a [.text (replaceLeading "Finding aid for the" (textContentList (c :: cs)))]
      ∧ normalizeAuthor (.element i t a (c :: cs))
        = .element i t a
            [.text (replaceLeading "Finding aid prepared by" (textContentList (c :: cs)))]
      ∧ normalizeTitleProper (.element i t a []) = .element i t a []
      ∧ normalizeAuthor (.element i t a []) = .element i t a []
      ∧ (∀ lit ws ws2 rest : List Char, lit ≠ [] →
          (∀ x, lit.head? = some x → isJsSpace x = false) →
          (∀ x ∈ ws, isJsSpace x = true) → (∀ x ∈ ws2, isJsSpace x = true) →
          (∀ x, rest.head? = some x → isJsSpace x = false) →
          replaceLeading (String.mk lit) (String.mk (ws ++ (lit ++ (ws2 ++ rest))))
            = String.mk rest)
      ∧ (∀ lit s : String, lit.data.isPrefixOf (s.data.dropWhile isJsSpace) = false →
          replaceLeading lit s = s)
      ∧ normalizeTitleProper (.element i t a [.text "Finding aid for the Jane Doe Papers"])
        = .element i t a [.text "Jane Doe Papers"]
      ∧ normalizeAuthor (.element i t a [.text "Finding aid prepared by John Smith"])
        = .element i t a [.text "John Smith"] := by
  refine ⟨rfl, rfl, rfl, rfl, ?_, ?_, ?_, ?_⟩
  · intro lit ws ws2 rest hne hlit hws hws2 hrest
    show String.mk (replaceLeadingChars lit (ws ++ (lit ++ (ws2 ++ rest)))) = String.mk rest
    rw [replaceLeadingChars_match lit ws ws2 rest hlit hne hws hws2 hrest]
  · intro lit s h
    show String.mk (replaceLeadingChars lit.data s.data) = s
    unfold replaceLeadingChars
    rw [h]
    rfl
  · have h : replaceLeading "Finding aid for the"
        (textContentList [.text "Finding aid for the Jane Doe Papers"]) = "Jane Doe Papers" := by
      decide
    simp [normalizeTitleProper, createTextNode, h]
  · have h : replaceLeading "Finding aid prepared by"
        (textContentList [.text "Finding aid prepared by John Smith"]) = "John Smith" := by
      decide
    simp [normalizeAuthor, createTextNode, h]

/-- Claim C8 as stated fails: the text "See: Finding aid prepared using DACS"
does not start with the literal, yet `normalizeDescRules` does not keep it:
the literal is cut out of the middle.  A title whose text stands inside an
emph element gives the text "null", not the text of the title.  A title
element in a namespace is not found by `.//title`, and the call throws on the
first child of the descrules, which is that element.  In `processEad`, a title
whose only child is an empty p has lost it at line 93 and still gives "null";
a title that never had a child makes line 249 throw. -/
theorem normalizeDescRules_cuts_inside_text :
    ("Finding aid prepared using ".data.isPrefixOf
        "See: Finding aid prepared using DACS".data) = false
      ∧ normalizeDescRules (fun _ => none)
          (.element (some 1) "descrules" [] [.text "See: Finding aid prepared using DACS"])
        = .ok (.element (some 1) "descrules" [] [.text "See: DACS"])
      ∧ normalizeDescRules (fun _ => none)
          (.element (some 1) "descrules" []
            [.element (some 2) "title" [] [.element (some 3) "emph" [] [.text "DACS"]]])
        = .ok (.element (some 1) "descrules" [] [.text "null"])
      ∧ normalizeDescRules (fun _ => none)
          (.element (some 1) "descrules" []
            [.element (some 2) (expandedName (some "urn:isbn:1-931666-22-9") "title")
              [("xmlns", "urn:isbn:1-931666-22-9")] [.text "DACS"]])
        = .error .typeError
      ∧ processEad id [Node.element (some 1) "ead" []
          [.element (some 2) "descrules" []
            [.element (some 3) "title" [] [.element (some 4) "p" [] []]]]]
        = .ok [Node.element (some 1) "ead" [] [.element (some 2) "descrules" [] [.text "null"]]]
      ∧ processEad id [Node.element (some 1) "ead" []
          [.element (some 2) "descrules" [] [.element (some 3) "title" [] []]]]
        = .error .typeError := by
  decide

/-- Claim C8, amended: a descrules element with children is left with exactly
one child, a text node, or the call throws.  When a title element in no
namespace lies below it, the text is the value of the first child of the first
such title ("null" when that child is an element).  When that title has no
child, the text is the value of the detached node that `childNodes[0]` of the
title still holds ("null" for a detached element; in `processEad` this is the
case exactly when the title had a child in the input, which lines 93-119 have
removed), and the call throws a TypeError when the title never had a child.
Without such a title the text is the value of the first child of the
descrules, which has to be a text or comment (a TypeError is thrown when it is
an element), from which the first occurrence of "Finding aid prepared using ",
wherever it stands, is removed; a text without the literal is kept.  A
childless descrules is untouched. -/
theorem normalizeDescRules_text (stale : Node → Option (Option String)) (i : Option Nat)
    (t : String) (a : List (String × String)) (c : Node) (cs : List Node) :
    (∀ title first : Node,
        ((subtreeList (c :: cs)).filter (Node.isElementNamed "title")).head? = some title →
        title.children.head? = some first →
        normalizeDescRules stale (.element i t a (c :: cs))
          = .ok (.element i t a [createTextNode first.nodeValue]))
      ∧ (∀ (title : Node) (v : Option String),
        ((subtreeList (c :: cs)).filter (Node.isElementNamed "title")).head? = some title →
        title.children = [] → stale title = some v →
        normalizeDescRules stale (.element i t a (c :: cs))
          = .ok (.element i t a [createTextNode v]))
      ∧ (∀ title : Node,
        ((subtreeList (c :: cs)).filter (Node.isElementNamed "title")).head? = some title →
        title.children = [] → stale title = none →
        normalizeDescRules stale (.element i t a (c :: cs)) = .error .typeError)
      ∧ (∀ (input : List Node) (title : Node),
        staleFirstChild input title = some none
          ∨ (staleFirstChild input title = none
            ∧ ∀ m ∈ subtreeList input, m.oid = title.oid → title.oid ≠ none → m.children = []))
      ∧ (∀ (input : List Node) (title m : Node), m ∈ subtreeList input → m.oid = title.oid →
        title.oid ≠ none → m.children ≠ [] → staleFirstChild input title = some none)
      ∧ (∀ existingText : String,
        (subtreeList (c :: cs)).filter (Node.isElementNamed "title") = [] →
        c.nodeValue = some existingText →
        normalizeDescRules stale (.element i t a (c :: cs))
          = .ok (.element i t a
              [.text (replaceFirst "Finding aid prepared using " existingText)]))
      ∧ ((subtreeList (c :: cs)).filter (Node.isElementNamed "title") = [] →
        c.nodeValue = none →
        normalizeDescRules stale (.element i t a (c :: cs)) = .error .typeError)
      ∧ normalizeDescRules stale (.element i t a []) = .ok (.element i t a [])
      ∧ (∀ lit s : String, ¬ lit.data <:+: s.data → replaceFirst lit s = s)
      ∧ (∀ lit s : String, lit.data <:+: s.data →
        ∃ pre post : List Char, s.data = pre ++ (lit.data ++ post)
          ∧ replaceFirst lit s = String.mk (pre ++ post)
          ∧ ∀ pre2 post2, s.data = pre2 ++ (lit.data ++ post2) → pre.length ≤ pre2.length) := by
  refine ⟨?_, ?_, ?_, ?_, ?_, ?_, ?_, rfl, ?_, ?_⟩
  · intro title first h1 h2
    simp only [normalizeDescRules, List.length_cons, Nat.add_one_ne_zero, if_false, h1, h2]
  · intro title v h1 h2 h3
    simp only [normalizeDescRules, List.length_cons, Nat.add_one_ne_zero, if_false, h1, h2,
      List.head?_nil, h3]
  · intro title h1 h2 h3
    simp only [normalizeDescRules, List.length_cons, Nat.add_one_ne_zero, if_false, h1, h2,
      List.head?_nil, h3]
  · intro input title
    unfold staleFirstChild
    by_cases hb : (title.oid.isSome && (subtreeList input).any
        (fun m => decide (m.oid = title.oid) && !m.childless)) = true
    · exact Or.inl (by rw [if_pos hb])
    · refine Or.inr ⟨by rw [if_neg hb], ?_⟩
      intro m hm ho hne
      have hsome : title.oid.isSome = true := by
        cases hx : title.oid with
        | none => exact absurd hx hne
        | some k => rfl
      simp only [hsome, Bool.true_and, List.any_eq_true, Bool.and_eq_true, decide_eq_true_eq,
        Bool.not_eq_true', not_exists, not_and, Bool.not_eq_false] at hb
      have := hb m hm ho
      simpa [Node.childless, List.isEmpty_iff] using this
  · intro input title m hm ho hne hch
    unfold staleFirstChild
    have hsome : title.oid.isSome = true := by
      cases hx : title.oid with
      | none => exact absurd hx hne
      | some k => rfl
    have hb : (title.oid.isSome && (subtreeList input).any
        (fun m => decide (m.oid = title.oid) && !m.childless)) = true := by
      simp only [hsome, Bool.true_and, List.any_eq_true, Bool.and_eq_true, decide_eq_true_eq,
        Bool.not_eq_true']
      refine ⟨m, hm, ho, ?_⟩
      cases hc : m.children with
      | nil => exact absurd hc hch
      | cons x xs => simp [Node.childless, hc]
    rw [if_pos hb]
  · intro s h1 h2
    simp only [normalizeDescRules, List.length_cons, Nat.add_one_ne_zero, if_false, h1,
      List.head?_nil, List.head?_cons, h2, createTextNode]
  · intro h1 h2
    simp only [normalizeDescRules, List.length_cons, Nat.add_one_ne_zero, if_false, h1,
      List.head?_nil, List.head?_cons, h2]
  · intro lit s h
    show String.mk (replaceFirstChars lit.data s.data) = s
    rw [replaceFirstChars_absent _ _ h]
  · intro lit s h
    obtain ⟨pre, post, h1, h2, h3⟩ := replaceFirstChars_present lit.data s.data h
    exact ⟨pre, post, h1, by show String.mk (replaceFirstChars lit.data s.data) = _; rw [h2], h3⟩

mutual
theorem mem_languageTexts (s : String) : ∀ (p : Bool) (n : Node),
    s ∈ languageTexts p n ↔
      (p = true ∧ n = .text s) ∨
        ∃ l ∈ n.subtree, Node.isElementNamed "language" l = true ∧ Node.text s ∈ l.children
  | p, .element i t a cs => by
    rw [languageTexts, mem_languageTextsList s (decide (t = "language")) cs]
    constructor
    · rintro (⟨h1, h2⟩ | ⟨l, h1, h2, h3⟩)
      · exact Or.inr ⟨.element i t a cs, by simp [Node.subtree], by simpa [Node.isElementNamed] using h1,
          by simpa [Node.children] using h2⟩
      · exact Or.inr ⟨l, by simp [Node.subtree, h1], h2, h3⟩
    · rintro (⟨_, h⟩ | ⟨l, h1, h2, h3⟩)
      · exact absurd h (by simp)
      · simp only [Node.subtree, List.mem_cons] at h1
        rcases h1 with h1 | h1
        · subst h1
          exact Or.inl ⟨by simpa [Node.isElementNamed] using h2, by simpa [Node.children] using h3⟩
        · exact Or.inr ⟨l, h1, h2, h3⟩
  | p, .text d => by
    simp only [languageTexts, Node.subtree, List.mem_singleton]
    constructor
    · intro h
      by_cases hp : p = true
      · simp only [hp, if_true, List.mem_singleton] at h
        exact Or.inl ⟨hp, by rw [h]⟩
      · simp [hp] at h
    · rintro (⟨h1, h2⟩ | ⟨l, h1, h2, _⟩)
      · simp only [Node.text.injEq] at h2
        simp [h1, h2]
      · subst h1
        simp [Node.isElementNamed] at h2
  | p, .comment d => by
    simp only [languageTexts, Node.subtree, List.mem_singleton, List.not_mem_nil, false_iff]
    rintro (⟨_, h⟩ | ⟨l, h1, h2, _⟩)
    · exact absurd h (by simp)
    · subst h1
      simp [Node.isElementNamed] at h2
theorem mem_languageTextsList (s : String) : ∀ (p : Bool) (cs : List Node),
    s ∈ languageTextsList p cs ↔
      (p = true ∧ Node.text s ∈ cs) ∨
        ∃ l ∈ subtreeList cs, Node.isElementNamed "language" l = true ∧ Node.text s ∈ l.children
  | p, [] => by simp [languageTextsList, subtreeList]
  | p, c :: cs => by
    rw [languageTextsList, List.mem_append, mem_languageTexts s p c, mem_languageTextsList s p cs]
    simp only [subtreeList, List.mem_append, List.mem_cons]
    constructor
    · rintro ((⟨h1, h2⟩ | ⟨l, h1, h2, h3⟩) | (⟨h1, h2⟩ | ⟨l, h1, h2, h3⟩))
      · exact Or.inl ⟨h1, Or.inl h2.symm⟩
      · exact Or.inr ⟨l, Or.inl h1, h2, h3⟩
      · exact Or.inl ⟨h1, Or.inr h2⟩
      · exact Or.inr ⟨l, Or.inr h1, h2, h3⟩
    · rintro (⟨h1, h2 | h2⟩ | ⟨l, h1 | h1, h2, h3⟩)
      · exact Or.inl (Or.inl ⟨h1, h2.symm⟩)
      · exact Or.inr (Or.inl ⟨h1, h2⟩)
      · exact Or.inl (Or.inr ⟨l, h1, h2, h3⟩)
      · exact Or.inr (Or.inr ⟨l, h1, h2, h3⟩)
end

/-- Claim C9 as stated fails: the first langusage has one language descendant,
whose text is "English"; `normalizeLangUsage` does not leave "English" but
joins the two text nodes of that element, which a comment separates.  The
language element of the second langusage is in a namespace; `.//language/text()`
does not see it and the langusage is left with the empty text. -/
theorem normalizeLangUsage_joins_text_nodes :
    textContent (.element (some 2) "language" []
        [.text "Eng", .comment "sic", .text "lish"]) = "English"
      ∧ normalizeLangUsage id (.element (some 1) "langusage" []
          [.element (some 2) "language" [] [.text "Eng", .comment "sic", .text "lish"]])
        = .element (some 1) "langusage" [] [.text "Eng and lish"]
      ∧ normalizeLangUsage id (.element (some 1) "langusage" []
          [.element (some 2) (expandedName (some "urn:x") "language") [("xmlns", "urn:x")]
            [.text "English"]])
        = .element (some 1) "langusage" [] [.text ""] := by
  decide

/-- Claim C9, amended: a langusage element with children is left with exactly
one child, a text node; its content joins with " and ", in document order, one
string for every text node that is a child of a language element in no
namespace below the langusage: the data of that text node as the XML library prints it (`toStr`).
It is empty when there is no such text node.  A childless langusage is
untouched.  Text deeper inside a language element, or cut in two by a comment
or an element, is not put together. -/
theorem normalizeLangUsage_text (toStr : String → String) (i : Option Nat) (t : String)
    (a : List (String × String)) (c : Node) (cs : List Node) :
    normalizeLangUsage toStr (.element i t a (c :: cs))
        = .element i t a
            [.text (joinWith " and " ((languageTextsList false (c :: cs)).map toStr))]
      ∧ normalizeLangUsage toStr (.element i t a []) = .element i t a []
      ∧ (∀ s, s ∈ languageTextsList false (c :: cs) ↔
          ∃ l ∈ subtreeList (c :: cs),
            Node.isElementNamed "language" l = true ∧ Node.text s ∈ l.children)
      ∧ (languageTextsList false (c :: cs) = [] →
          normalizeLangUsage toStr (.element i t a (c :: cs)) = .element i t a [.text ""])
      ∧ normalizeLangUsage id (.element i t a
          [.element none "language" [] [.text "English"], .text ", ",
            .element none "language" [] [.text "French"]])
        = .element i t a [.text "English and French"] := by
  refine ⟨rfl, rfl, ?_, ?_, ?_⟩
  · intro s
    rw [mem_languageTextsList]
    simp
  · intro h
    simp [normalizeLangUsage, h, joinWith, createTextNode]
  · have h : joinWith " and " ((languageTextsList false
        [.element none "language" [] [.text "English"], .text ", ",
          .element none "language" [] [.text "French"]]).map id) = "English and French" := by
      decide
    simp only [normalizeLangUsage, List.length_cons, Nat.add_one_ne_zero, if_false,
      createTextNode, h]

theorem processEad_eq_sourceOrder (toStr : String → String) (doc : List Node) :
    processEad toStr doc = processEadInOrder toStr sourceOrder doc := by
  simp only [processEad, processEadInOrder, sourceOrder, applyRules, applyRule, normalizeContent,
    structuralRules]

mutual
theorem forEachRemoveNode_id_of_not_selected (sel : Node → Bool) :
    ∀ n : Node, (∀ m ∈ n.subtree, sel m = false) → forEachRemoveNode sel n = n
  | .element i t a cs, h => by
    have h1 := forEachRemoveNodeList_id_of_not_selected sel cs
      (fun m hm => h m (by simp [Node.subtree, hm]))
    simp [forEachRemoveNode, h1]
  | .text _, _ => rfl
  | .comment _, _ => rfl
theorem forEachRemoveNodeList_id_of_not_selected (sel : Node → Bool) :
    ∀ cs : List Node, (∀ m ∈ subtreeList cs, sel m = false) → forEachRemoveNodeList sel cs = cs
  | [], _ => rfl
  | c :: cs, h => by
    have h0 : sel c = false := h c (by simp [subtreeList, mem_subtree_self])
    have h1 := forEachRemoveNode_id_of_not_selected sel c
      (fun m hm => h m (by simp [subtreeList, hm]))
    have h2 := forEachRemoveNodeList_id_of_not_selected sel cs
      (fun m hm => h m (by simp [subtreeList, hm]))
    simp [forEachRemoveNodeList, h0, h1, h2]
end

mutual
theorem forEachContainer_id_of_not_selected (k : Nat) :
    ∀ n : Node, (∀ m ∈ n.subtree, selChildless "container" m = false) →
      forEachContainer k n = (n, k)
  | .element i t a cs, h => by
    have h0 : selChildless "container" (.element i t a cs) = false := h _ (mem_subtree_self _)
    have h1 := forEachContainerList_id_of_not_selected k cs
      (fun m hm => h m (by simp [Node.subtree, hm]))
    simp [forEachContainer, h0, h1]
  | .text _, _ => rfl
  | .comment _, _ => rfl
theorem forEachContainerList_id_of_not_selected (k : Nat) :
    ∀ cs : List Node, (∀ m ∈ subtreeList cs, selChildless "container" m = false) →
      forEachContainerList k cs = (cs, k)
  | [], _ => rfl
  | c :: cs, h => by
    have h1 := forEachContainer_id_of_not_selected k c
      (fun m hm => h m (by simp [subtreeList, hm]))
    have h2 := forEachContainerList_id_of_not_selected k cs
      (fun m hm => h m (by simp [subtreeList, hm]))
    simp [forEachContainerList, h1, h2]
end

mutual
theorem forEachInPlaceM_id_of_not_selected (sel : Node → Bool) (f : Node → Except JsError Node) :
    ∀ n : Node, (∀ m ∈ n.subtree, sel m = false) → forEachInPlaceM sel f n = .ok n
  | .element i t a cs, h => by
    have h0 : sel (.element i t a cs) = false := h _ (mem_subtree_self _)
    have h1 := forEachInPlaceListM_id_of_not_selected sel f cs
      (fun m hm => h m (by simp [Node.subtree, hm]))
    simp [forEachInPlaceM, h0, h1]
  | .text _, _ => rfl
  | .comment _, _ => rfl
theorem forEachInPlaceListM_id_of_not_selected (sel : Node → Bool)
    (f : Node → Except JsError Node) :
    ∀ cs : List Node, (∀ m ∈ subtreeList cs, sel m = false) →
      forEachInPlaceListM sel f cs = .ok cs
  | [], _ => rfl
  | c :: cs, h => by
    have h1 := forEachInPlaceM_id_of_not_selected sel f c
      (fun m hm => h m (by simp [subtreeList, hm]))
    have h2 := forEachInPlaceListM_id_of_not_selected sel f cs
      (fun m hm => h m (by simp [subtreeList, hm]))
    simp [forEachInPlaceListM, h1, h2]
end

mutual
theorem forEachReplace_id_of_not_selected (sel : Node → Bool) (f : Node → Node) :
    ∀ n : Node, (∀ m ∈ n.subtree, sel m = false) → forEachReplace sel f n = n
  | .element i t a cs, h => by
    have h0 : sel (.element i t a cs) = false := h _ (mem_subtree_self _)
    have h1 := forEachReplaceList_id_of_not_selected sel f cs
      (fun m hm => h m (by simp [Node.subtree, hm]))
    simp [forEachReplace, h0, h1]
  | .text _, _ => rfl
  | .comment _, _ => rfl
theorem forEachReplaceList_id_of_not_selected (sel : Node → Bool) (f : Node → Node) :
    ∀ cs : List Node, (∀ m ∈ subtreeList cs, sel m = false) → forEachReplaceList sel f cs = cs
  | [], _ => rfl
  | c :: cs, h => by
    have h1 := forEachReplace_id_of_not_selected sel f c
      (fun m hm => h m (by simp [subtreeList, hm]))
    have h2 := forEachReplaceList_id_of_not_selected sel f cs
      (fun m hm => h m (by simp [subtreeList, hm]))
    simp [forEachReplaceList, h1, h2]
end

mutual
theorem forEachReplaceM_id_of_not_selected (sel : Node → Bool) (f : Node → Except JsError Node) :
    ∀ n : Node, (∀ m ∈ n.subtree, sel m = false) → forEachReplaceM sel f n = .ok n
  | .element i t a cs, h => by
    have h0 : sel (.element i t a cs) = false := h _ (mem_subtree_self _)
    have h1 := forEachReplaceListM_id_of_not_selected sel f cs
      (fun m hm => h m (by simp [Node.subtree, hm]))
    simp [forEachReplaceM, h0, h1]
  | .text _, _ => rfl
  | .comment _, _ => rfl
theorem forEachReplaceListM_id_of_not_selected (sel : Node → Bool)
    (f : Node → Except JsError Node) :
    ∀ cs : List Node, (∀ m ∈ subtreeList cs, sel m = false) →
      forEachReplaceListM sel f cs = .ok cs
  | [], _ => rfl
  | c :: cs, h => by
    have h1 := forEachReplaceM_id_of_not_selected sel f c
      (fun m hm => h m (by simp [subtreeList, hm]))
    have h2 := forEachReplaceListM_id_of_not_selected sel f cs
      (fun m hm => h m (by simp [subtreeList, hm]))
    simp [forEachReplaceListM, h1, h2]
end

/-! ## Claims C11, C12, C18, C20 -/

theorem fixNotes_id_of_not_selected (doc : List Node) :
    ∀ tags : List String,
      (∀ n ∈ subtreeList doc, ∀ tag ∈ tags, Node.isElementNamed tag n = false) →
      tags.foldl fixNote doc = doc
  | [], _ => rfl
  | tag :: tags, h => by
    have h1 : fixNote doc tag = doc := by
      unfold fixNote
      rw [forEachRemoveNodeList_id_of_not_selected, forEachInPlaceList_id_of_not_selected]
      · intro m hm
        simp [selLacking, h m hm tag (List.mem_cons_self _ _)]
      · intro m hm
        simp [selChildless, h m hm tag (List.mem_cons_self _ _)]
    rw [List.foldl_cons, h1]
    exact fixNotes_id_of_not_selected doc tags
      (fun n hn tag2 ht => h n hn tag2 (List.mem_cons_of_mem _ ht))

theorem selLanguage_false_of_not_named (n : Node)
    (h : Node.isElementNamed "language" n = false) : selLanguage n = false := by
  cases n with
  | element i t a cs => simp [Node.isElementNamed] at h; simp [selLanguage, h]
  | text s => rfl
  | comment s => rfl

/-- Claim C20: a document with no element named in a selector of rules 1 to 12
(`ruleTags`: physdesc, p, unitdate, container, subject, descrules, langusage,
language, titleproper, author and the nine note tags) and with no date element
below a publicationstmt is returned by `processEad` as it is, without
failure. -/
theorem processEad_frame (toStr : String → String) (doc : List Node)
    (htags : ∀ n ∈ subtreeList doc, ∀ tag ∈ ruleTags, Node.isElementNamed tag n = false)
    (hdates : pubDatePathsList false 0 doc = []) :
    processEad toStr doc = .ok doc := by
  have hn : ∀ tag ∈ ruleTags, ∀ n ∈ subtreeList doc, Node.isElementNamed tag n = false :=
    fun tag ht n hn => htags n hn tag ht
  have h1 : fixPhysDescs doc = doc :=
    forEachInPlaceList_id_of_not_selected _ _ doc
      (fun m hm => by simp [selLacking, hn "physdesc" (by decide) m hm])
  have h2 : removeEmptyParagraphs doc = doc :=
    forEachRemoveNodeList_id_of_not_selected _ doc
      (fun m hm => by simp [selChildless, hn "p" (by decide) m hm])
  have h3 : fixNotes doc = doc :=
    fixNotes_id_of_not_selected doc noteTypes
      (fun n hn2 tag ht => htags n hn2 tag (by simp [ruleTags, ht]))
  have h5 : removeEmptyUnitdates doc = doc :=
    forEachRemoveNodeList_id_of_not_selected _ doc
      (fun m hm => by simp [selChildless, hn "unitdate" (by decide) m hm])
  have h6 : fixContainers doc = doc := by
    unfold fixContainers
    rw [forEachContainerList_id_of_not_selected 0 doc
      (fun m hm => by simp [selChildless, hn "container" (by decide) m hm])]
  have h7 := forEachInPlaceListM_id_of_not_selected (Node.isElementNamed "subject")
    normalizeSubjectTerm doc (hn "subject" (by decide))
  have h8 := forEachReplaceListM_id_of_not_selected (Node.isElementNamed "descrules")
    (normalizeDescRules (staleFirstChild doc)) doc (hn "descrules" (by decide))
  have h9 := forEachReplaceList_id_of_not_selected (Node.isElementNamed "langusage")
    (normalizeLangUsage toStr) doc (hn "langusage" (by decide))
  have h10 := forEachInPlaceListM_id_of_not_selected selLanguage addLangcodeAttributes doc
    (fun m hm => selLanguage_false_of_not_named m (hn "language" (by decide) m hm))
  have h11 := forEachReplaceList_id_of_not_selected (Node.isElementNamed "titleproper")
    normalizeTitleProper doc (hn "titleproper" (by decide))
  have h12 := forEachReplaceList_id_of_not_selected (Node.isElementNamed "author")
    normalizeAuthor doc (hn "author" (by decide))
  simp only [processEad, normalizeContent, structuralRules, h1, h2, h3, h5, h6, h7, h8, h9, h10,
    h11, h12, syncPublicationDates, hdates, forEachPublicationDate]

/-- Claim C20 at a document with a header, a comment and an archival
description that no rule names. -/
theorem processEad_frame_witness :
    (∀ n ∈ subtreeList [Node.element (some 1) "ead" [("id", "a1")]
          [.element (some 2) "eadheader" [] [.element (some 3) "eadid" [] [.text "x-1"]],
            .comment "draft", .element (some 4) "archdesc" [("level", "collection")] []]],
        ∀ tag ∈ ruleTags, Node.isElementNamed tag n = false)
      ∧ processEad id [Node.element (some 1) "ead" [("id", "a1")]
          [.element (some 2) "eadheader" [] [.element (some 3) "eadid" [] [.text "x-1"]],
            .comment "draft", .element (some 4) "archdesc" [("level", "collection")] []]]
        = .ok [Node.element (some 1) "ead" [("id", "a1")]
          [.element (some 2) "eadheader" [] [.element (some 3) "eadid" [] [.text "x-1"]],
            .comment "draft", .element (some 4) "archdesc" [("level", "collection")] []]] :=
  ⟨by decide, processEad_frame id _ (by decide) (by decide)⟩

/-- Claim C12 fails on the code: a p whose only child is an empty p is not
selected by line 93, loses its child there and stays in the result without
children; so does a p whose only child is an empty unitdate, removed at line
119 after the paragraphs were looked at. -/
theorem processEad_leaves_emptied_paragraph :
    processEad id [Node.element (some 1) "ead" []
          [.element (some 2) "p" [] [.element (some 3) "p" [] []]]]
        = .ok [Node.element (some 1) "ead" [] [.element (some 2) "p" [] []]]
      ∧ processEad id [Node.element (some 1) "ead" []
          [.element (some 2) "p" [] [.element (some 3) "unitdate" [] []]]]
        = .ok [Node.element (some 1) "ead" [] [.element (some 2) "p" [] []]] := by
  decide

theorem forEachRemoveNodeList_append (sel : Node → Bool) (xs ys : List Node) :
    forEachRemoveNodeList sel (xs ++ ys)
      = forEachRemoveNodeList sel xs ++ forEachRemoveNodeList sel ys := by
  induction xs with
  | nil => rfl
  | cons x xs ih =>
    by_cases hx : sel x = true
    · simp [forEachRemoveNodeList, hx, ih]
    · simp [forEachRemoveNodeList, hx, ih]

theorem eraseIdx_length_append (before after : List Node) (c : Node) :
    (before ++ c :: after).eraseIdx before.length = before ++ after := by
  induction before with
  | nil => rfl
  | cons b bs ih => simp [List.eraseIdx, ih]

/-! ## Claim C16: the separator of a subject term -/

theorem dash_not_blank : isJsSpace '-' = false := by decide

theorem collapseDashesChars_absent (s : List Char) (h : ¬ ['-', '-'] <:+: s) :
    collapseDashesChars s = s := by
  induction s with
  | nil => rfl
  | cons c cs ih =>
    unfold collapseDashesChars
    have h1 : ['-', '-'].isPrefixOf ((c :: cs).dropWhile isJsSpace) = false := by
      cases hp : ['-', '-'].isPrefixOf ((c :: cs).dropWhile isJsSpace) with
      | false => rfl
      | true =>
        exfalso
        have h2 : ['-', '-'] <+: (c :: cs).dropWhile isJsSpace := List.isPrefixOf_iff_prefix.mp hp
        exact h (List.IsInfix.trans h2.isInfix (List.dropWhile_suffix isJsSpace).isInfix)
    rw [h1]
    simp only [Bool.false_eq_true, if_false]
    rw [ih]
    intro hi
    exact h (List.IsInfix.trans hi (List.suffix_cons c cs).isInfix)

theorem collapseDashesChars_at_separator (ws1 tail : List Char)
    (hws1 : ∀ x ∈ ws1, isJsSpace x = true) :
    collapseDashesChars (ws1 ++ '-' :: '-' :: tail) = '-' :: '-' :: tail.dropWhile isJsSpace := by
  have hd : (ws1 ++ '-' :: '-' :: tail).dropWhile isJsSpace = '-' :: '-' :: tail :=
    dropWhile_blank_append ws1 _ hws1 (by intro c hc; simp at hc; rw [← hc]; exact dash_not_blank)
  cases ws1 with
  | nil =>
    simp only [List.nil_append] at hd ⊢
    unfold collapseDashesChars
    rw [hd]
    simp [List.isPrefixOf]
  | cons w ws =>
    simp only [List.cons_append] at hd ⊢
    unfold collapseDashesChars
    rw [hd]
    simp [List.isPrefixOf]

theorem dropWhile_append_of_exists (pre rest : List Char)
    (h : ∃ x ∈ pre, isJsSpace x = false) :
    (pre ++ rest).dropWhile isJsSpace = pre.dropWhile isJsSpace ++ rest
      ∧ pre.dropWhile isJsSpace ≠ [] := by
  induction pre with
  | nil => obtain ⟨x, hx, _⟩ := h; cases hx
  | cons p ps ih =>
    by_cases hp : isJsSpace p = true
    · have h2 : ∃ x ∈ ps, isJsSpace x = false := by
        obtain ⟨x, hx, hx2⟩ := h
        rcases List.mem_cons.mp hx with h3 | h3
        · rw [h3, hp] at hx2; cases hx2
        · exact ⟨x, h3, hx2⟩
      simpa [List.dropWhile, hp] using ih h2
    · simp [List.dropWhile, hp]

theorem collapseDashesChars_first (pre ws1 ws2 post : List Char)
    (hpre : ∀ x, pre.getLast? = some x → isJsSpace x = false)
    (hws1 : ∀ x ∈ ws1, isJsSpace x = true) (hws2 : ∀ x ∈ ws2, isJsSpace x = true)
    (hpost : ∀ x, post.head? = some x → isJsSpace x = false)
    (hfirst : ¬ ['-', '-'] <:+: pre ++ (ws1 ++ ['-'])) :
    collapseDashesChars (pre ++ (ws1 ++ '-' :: '-' :: (ws2 ++ post)))
      = pre ++ '-' :: '-' :: post := by
  induction pre with
  | nil =>
    rw [List.nil_append, collapseDashesChars_at_separator ws1 _ hws1,
      dropWhile_blank_append ws2 post hws2 hpost]
    rfl
  | cons p ps ih =>
    have hlast : ∃ x ∈ p :: ps, isJsSpace x = false := by
      have hne : p :: ps ≠ [] := List.cons_ne_nil _ _
      refine ⟨(p :: ps).getLast hne, List.getLast_mem hne, hpre _ ?_⟩
      exact List.getLast?_eq_getLast _ hne
    obtain ⟨hd, hne⟩ := dropWhile_append_of_exists (p :: ps)
      (ws1 ++ '-' :: '-' :: (ws2 ++ post)) hlast
    have hno : ['-', '-'].isPrefixOf
        ((p :: ps ++ (ws1 ++ '-' :: '-' :: (ws2 ++ post))).dropWhile isJsSpace) = false := by
      cases hp : ['-', '-'].isPrefixOf
          ((p :: ps ++ (ws1 ++ '-' :: '-' :: (ws2 ++ post))).dropWhile isJsSpace) with
      | false => rfl
      | true =>
        exfalso
        rw [hd] at hp
        have h1 : ['-', '-'] <+: (p :: ps).dropWhile isJsSpace
            ++ (ws1 ++ '-' :: '-' :: (ws2 ++ post)) := List.isPrefixOf_iff_prefix.mp hp
        have h2 : ((p :: ps).dropWhile isJsSpace ++ (ws1 ++ ['-'])) <+:
            (p :: ps).dropWhile isJsSpace ++ (ws1 ++ '-' :: '-' :: (ws2 ++ post)) :=
          ⟨'-' :: (ws2 ++ post), by simp⟩
        have hlen : ['-', '-'].length ≤ ((p :: ps).dropWhile isJsSpace ++ (ws1 ++ ['-'])).length := by
          have : 1 ≤ ((p :: ps).dropWhile isJsSpace).length :=
            List.length_pos.mpr hne
          simp only [List.length_append, List.length_cons, List.length_nil]
          omega
        have h3 : ['-', '-'] <+: (p :: ps).dropWhile isJsSpace ++ (ws1 ++ ['-']) :=
          List.prefix_of_prefix_length_le h1 h2 hlen
        obtain ⟨pre0, hpre0⟩ := List.dropWhile_suffix (l := p :: ps) isJsSpace
        apply hfirst
        rw [← hpre0, List.append_assoc]
        exact List.IsInfix.trans h3.isInfix (List.suffix_append _ _).isInfix
    have hih : collapseDashesChars (ps ++ (ws1 ++ '-' :: '-' :: (ws2 ++ post)))
        = ps ++ '-' :: '-' :: post := by
      apply ih
      · intro x hx
        apply hpre x
        cases ps with
        | nil => cases hx
        | cons q qs => simpa [List.getLast?_cons_cons] using hx
      · intro hi
        exact hfirst (List.IsInfix.trans hi (List.suffix_cons p _).isInfix)
    show collapseDashesChars (p :: (ps ++ (ws1 ++ '-' :: '-' :: (ws2 ++ post)))) = _
    unfold collapseDashesChars
    rw [show p :: (ps ++ (ws1 ++ '-' :: '-' :: (ws2 ++ post)))
      = p :: ps ++ (ws1 ++ '-' :: '-' :: (ws2 ++ post)) from rfl, hno]
    simp only [Bool.false_eq_true, if_false]
    rw [hih]
    rfl

/-- Claim C16: on a subject element whose first child is a text node with
content `s`, `normalizeSubjectTerm` succeeds and replaces that child by a text
node with content `collapseDashes s`; the other children and their order are
kept.  `collapseDashes` keeps a text without "--"; in a text it replaces the
first "--" together with the blanks directly before and after it by "--", and
keeps what comes before and after, later separators with their blanks
included. -/
theorem normalizeSubjectTerm_collapses_first_separator (i : Option Nat) (t : String)
    (a : List (String × String)) (s : String) (rest : List Node) :
    normalizeSubjectTerm (.element i t a (.text s :: rest))
        = .ok (.element i t a (.text (collapseDashes s) :: rest))
      ∧ (¬ ['-', '-'] <:+: s.data → collapseDashes s = s)
      ∧ (∀ pre ws1 ws2 post : List Char,
          s.data = pre ++ (ws1 ++ '-' :: '-' :: (ws2 ++ post)) →
          (∀ x, pre.getLast? = some x → isJsSpace x = false) →
          (∀ x ∈ ws1, isJsSpace x = true) → (∀ x ∈ ws2, isJsSpace x = true) →
          (∀ x, post.head? = some x → isJsSpace x = false) →
          ¬ ['-', '-'] <:+: pre ++ (ws1 ++ ['-']) →
          collapseDashes s = String.mk (pre ++ '-' :: '-' :: post))
      ∧ collapseDashes "Ohio -- History  --  Sources" = "Ohio--History  --  Sources" := by
  refine ⟨rfl, ?_, ?_, by decide⟩
  · intro h
    show String.mk (collapseDashesChars s.data) = s
    rw [collapseDashesChars_absent _ h]
  · intro pre ws1 ws2 post hs hpre hws1 hws2 hpost hfirst
    show String.mk (collapseDashesChars s.data) = _
    rw [hs, collapseDashesChars_first pre ws1 ws2 post hpre hws1 hws2 hpost hfirst]

/-! ## Statements whose callback can throw: when they fail -/

theorem forEachInPlaceM_nodeValue (sel : Node → Bool) (f : Node → Except JsError Node)
    (h1 : ∀ n r, f n = .ok r → r.nodeValue = n.nodeValue) (n r : Node)
    (h : forEachInPlaceM sel f n = .ok r) : r.nodeValue = n.nodeValue := by
  cases n with
  | text s => simp [forEachInPlaceM] at h; rw [← h]
  | comment s => simp [forEachInPlaceM] at h; rw [← h]
  | element i t a cs =>
    unfold forEachInPlaceM at h
    split at h
    · cases h
    · split at h
      · cases h
      · rename_i cs2 _
        split at h
        · exact (h1 _ _ h).trans rfl
        · cases h; rfl

theorem forEachInPlaceListM_nodeValue (sel : Node → Bool) (f : Node → Except JsError Node)
    (h1 : ∀ n r, f n = .ok r → r.nodeValue = n.nodeValue) :
    ∀ cs r, forEachInPlaceListM sel f cs = .ok r →
      r.map Node.nodeValue = cs.map Node.nodeValue
  | [], r, h => by simp [forEachInPlaceListM] at h; rw [← h]
  | c :: cs, r, h => by
    unfold forEachInPlaceListM at h
    split at h
    · cases h
    · rename_i c2 hc
      split at h
      · cases h
      · rename_i cs2 hcs
        cases h
        simp [forEachInPlaceM_nodeValue sel f h1 c c2 hc,
          forEachInPlaceListM_nodeValue sel f h1 cs cs2 hcs]

mutual
theorem forEachInPlaceM_ok_iff (sel : Node → Bool) (f : Node → Except JsError Node)
    (h0 : ∀ n, sel n = true → n.nodeValue = none)
    (h1 : ∀ n r, f n = .ok r → r.nodeValue = n.nodeValue)
    (h2 : ∀ i t a cs cs2, cs2.map Node.nodeValue = cs.map Node.nodeValue →
      ((∃ r, f (.element i t a cs) = .ok r) ↔ (∃ r, f (.element i t a cs2) = .ok r))) :
    ∀ n : Node, (∃ r, forEachInPlaceM sel f n = .ok r) ↔
      ∀ m ∈ n.subtree, sel m = true → ∃ r, f m = .ok r
  | .text s => by
    simp only [forEachInPlaceM, Node.subtree, List.mem_singleton, forall_eq]
    constructor
    · intro _ hs
      have := h0 _ hs
      simp [Node.nodeValue] at this
    · intro _
      exact ⟨_, rfl⟩
  | .comment s => by
    simp only [forEachInPlaceM, Node.subtree, List.mem_singleton, forall_eq]
    constructor
    · intro _ hs
      have := h0 _ hs
      simp [Node.nodeValue] at this
    · intro _
      exact ⟨_, rfl⟩
  | .element i t a cs => by
    have ih := forEachInPlaceListM_ok_iff sel f h0 h1 h2 cs
    simp only [Node.subtree, List.mem_cons, forall_eq_or_imp]
    unfold forEachInPlaceM
    by_cases hs : sel (.element i t a cs) = true
    · simp only [hs, if_true, forall_const]
      cases hf : f (.element i t a cs) with
      | error e =>
        constructor
        · rintro ⟨r, hr⟩
          cases hr
        · rintro ⟨⟨r, hr⟩, _⟩
          cases hr
      | ok r0 =>
        simp only []
        cases hl : forEachInPlaceListM sel f cs with
        | error e =>
          constructor
          · rintro ⟨r, hr⟩
            cases hr
          · rintro ⟨_, hall⟩
            rw [hl] at ih
            obtain ⟨r, hr⟩ := ih.mpr hall
            cases hr
        | ok cs2 =>
          simp only []
          have hv := forEachInPlaceListM_nodeValue sel f h1 cs cs2 hl
          constructor
          · intro _
            exact ⟨⟨r0, rfl⟩, by rw [hl] at ih; exact ih.mp ⟨cs2, rfl⟩⟩
          · intro _
            exact (h2 i t a cs cs2 hv).mp ⟨r0, hf⟩
    · simp only [hs, Bool.false_eq_true, if_false, false_implies, true_and]
      cases hl : forEachInPlaceListM sel f cs with
      | error e =>
        constructor
        · rintro ⟨r, hr⟩
          cases hr
        · intro hall
          rw [hl] at ih
          obtain ⟨r, hr⟩ := ih.mpr hall
          cases hr
      | ok cs2 =>
        simp only []
        rw [hl] at ih
        constructor
        · intro _
          exact ih.mp ⟨cs2, rfl⟩
        · intro _
          exact ⟨_, rfl⟩
theorem forEachInPlaceListM_ok_iff (sel : Node → Bool) (f : Node → Except JsError Node)
    (h0 : ∀ n, sel n = true → n.nodeValue = none)
    (h1 : ∀ n r, f n = .ok r → r.nodeValue = n.nodeValue)
    (h2 : ∀ i t a cs cs2, cs2.map Node.nodeValue = cs.map Node.nodeValue →
      ((∃ r, f (.element i t a cs) = .ok r) ↔ (∃ r, f (.element i t a cs2) = .ok r))) :
    ∀ cs : List Node, (∃ r, forEachInPlaceListM sel f cs = .ok r) ↔
      ∀ m ∈ subtreeList cs, sel m = true → ∃ r, f m = .ok r
  | [] => by simp [forEachInPlaceListM, subtreeList]
  | c :: cs => by
    have ih1 := forEachInPlaceM_ok_iff sel f h0 h1 h2 c
    have ih2 := forEachInPlaceListM_ok_iff sel f h0 h1 h2 cs
    simp only [subtreeList, List.mem_append]
    unfold forEachInPlaceListM
    cases hc : forEachInPlaceM sel f c with
    | error e =>
      constructor
      · rintro ⟨r, hr⟩
        cases hr
      · intro hall
        rw [hc] at ih1
        obtain ⟨r, hr⟩ := ih1.mpr (fun m hm => hall m (Or.inl hm))
        cases hr
    | ok c2 =>
      simp only []
      rw [hc] at ih1
      cases hl : forEachInPlaceListM sel f cs with
      | error e =>
        constructor
        · rintro ⟨r, hr⟩
          cases hr
        · intro hall
          rw [hl] at ih2
          obtain ⟨r, hr⟩ := ih2.mpr (fun m hm => hall m (Or.inr hm))
          cases hr
      | ok cs2 =>
        simp only []
        rw [hl] at ih2
        constructor
        · intro _ m hm
          rcases hm with hm | hm
          · exact ih1.mp ⟨c2, rfl⟩ m hm
          · exact ih2.mp ⟨cs2, rfl⟩ m hm
        · intro _
          exact ⟨_, rfl⟩
end

mutual
theorem forEachInPlaceM_error_of (sel : Node → Bool) (f : Node → Except JsError Node)
    (h1 : ∀ n r, f n = .ok r → r.nodeValue = n.nodeValue)
    (h2 : ∀ i t a cs cs2, cs2.map Node.nodeValue = cs.map Node.nodeValue →
      ((∃ r, f (.element i t a cs) = .ok r) ↔ (∃ r, f (.element i t a cs2) = .ok r)))
    (P : JsError → Prop) (hP : ∀ n e, sel n = true → f n = .error e → P e) :
    ∀ (n : Node) (e : JsError), forEachInPlaceM sel f n = .error e → P e
  | .text s, e, h => by simp [forEachInPlaceM] at h
  | .comment s, e, h => by simp [forEachInPlaceM] at h
  | .element i t a cs, e, h => by
    unfold forEachInPlaceM at h
    by_cases hs : sel (.element i t a cs) = true
    · simp only [hs, if_true] at h
      cases hf : f (.element i t a cs) with
      | error e2 =>
        rw [hf] at h
        cases h
        exact hP _ _ hs hf
      | ok r0 =>
        rw [hf] at h
        simp only [] at h
        cases hl : forEachInPlaceListM sel f cs with
        | error e2 =>
          rw [hl] at h
          cases h
          exact forEachInPlaceListM_error_of sel f h1 h2 P hP cs e hl
        | ok cs2 =>
          rw [hl] at h
          simp only [] at h
          obtain ⟨r, hr⟩ := (h2 i t a cs cs2
            (forEachInPlaceListM_nodeValue sel f h1 cs cs2 hl)).mp ⟨r0, hf⟩
          rw [hr] at h
          cases h
    · simp only [hs, Bool.false_eq_true, if_false] at h
      cases hl : forEachInPlaceListM sel f cs with
      | error e2 =>
        rw [hl] at h
        cases h
        exact forEachInPlaceListM_error_of sel f h1 h2 P hP cs e hl
      | ok cs2 =>
        rw [hl] at h
        cases h
theorem forEachInPlaceListM_error_of (sel : Node → Bool) (f : Node → Except JsError Node)
    (h1 : ∀ n r, f n = .ok r → r.nodeValue = n.nodeValue)
    (h2 : ∀ i t a cs cs2, cs2.map Node.nodeValue = cs.map Node.nodeValue →
      ((∃ r, f (.element i t a cs) = .ok r) ↔ (∃ r, f (.element i t a cs2) = .ok r)))
    (P : JsError → Prop) (hP : ∀ n e, sel n = true → f n = .error e → P e) :
    ∀ (cs : List Node) (e : JsError), forEachInPlaceListM sel f cs = .error e → P e
  | [], e, h => by simp [forEachInPlaceListM] at h
  | c :: cs, e, h => by
    unfold forEachInPlaceListM at h
    cases hc : forEachInPlaceM sel f c with
    | error e2 =>
      rw [hc] at h
      cases h
      exact forEachInPlaceM_error_of sel f h1 h2 P hP c e hc
    | ok c2 =>
      rw [hc] at h
      simp only [] at h
      cases hl : forEachInPlaceListM sel f cs with
      | error e2 =>
        rw [hl] at h
        cases h
        exact forEachInPlaceListM_error_of sel f h1 h2 P hP cs e hl
      | ok cs2 =>
        rw [hl] at h
        cases h
end

/-! ## Claim C17: subject elements without a leading text -/

theorem normalizeSubjectTerm_nodeValue (n r : Node) (h : normalizeSubjectTerm n = .ok r) :
    r.nodeValue = n.nodeValue := by
  cases n with
  | text s => simp [normalizeSubjectTerm] at h; rw [← h]
  | comment s => simp [normalizeSubjectTerm] at h; rw [← h]
  | element i t a cs =>
    cases cs with
    | nil => simp [normalizeSubjectTerm] at h
    | cons c rest =>
      cases hv : c.nodeValue with
      | none => simp [normalizeSubjectTerm, hv] at h
      | some term =>
        simp only [normalizeSubjectTerm, hv] at h
        cases h
        rfl

theorem normalizeSubjectTerm_ok_iff (i : Option Nat) (t : String) (a : List (String × String))
    (cs : List Node) :
    (∃ r, normalizeSubjectTerm (.element i t a cs) = .ok r)
      ↔ ∃ s, (cs.map Node.nodeValue).head? = some (some s) := by
  cases cs with
  | nil => simp [normalizeSubjectTerm]
  | cons c rest =>
    cases hv : c.nodeValue with
    | none => simp [normalizeSubjectTerm, hv]
    | some term => simp [normalizeSubjectTerm, hv]

theorem normalizeSubjectTerm_error (n : Node) (e : JsError)
    (h : normalizeSubjectTerm n = .error e) : e = .typeError := by
  cases n with
  | text s => simp [normalizeSubjectTerm] at h
  | comment s => simp [normalizeSubjectTerm] at h
  | element i t a cs =>
    cases cs with
    | nil => simp [normalizeSubjectTerm] at h; exact h.symm
    | cons c rest =>
      cases hv : c.nodeValue with
      | none => simp [normalizeSubjectTerm, hv] at h; exact h.symm
      | some term => simp [normalizeSubjectTerm, hv] at h

theorem isElementNamed_nodeValue (name : String) (n : Node)
    (h : Node.isElementNamed name n = true) : n.nodeValue = none := by
  cases n with
  | element i t a cs => rfl
  | text s => simp [Node.isElementNamed] at h
  | comment s => simp [Node.isElementNamed] at h

/-- Claim C17 as stated fails: in the first document the first child of the
subject is an empty p element, in the second a comment; `processEad`
succeeds on both.  The empty p is removed at line 93 before the subjects are
visited; the value of a comment is a string like that of a text node.  In the
third document the subject without children is in the namespace of the default
namespace declaration; line 131 does not select it and `processEad` returns
the document. -/
theorem processEad_accepts_subject_without_leading_text :
    processEad id [Node.element (some 1) "ead" []
          [.element (some 2) "subject" [] [.element (some 3) "p" [] [], .text "Ohio -- History"]]]
        = .ok [Node.element (some 1) "ead" []
          [.element (some 2) "subject" [] [.text "Ohio--History"]]]
      ∧ processEad id [Node.element (some 1) "ead" []
          [.element (some 2) "subject" [] [.comment "lcsh", .text "Ohio -- History"]]]
        = .ok [Node.element (some 1) "ead" []
          [.element (some 2) "subject" [] [.text "lcsh", .text "Ohio -- History"]]]
      ∧ processEad id [Node.element (some 1) (expandedName (some "urn:isbn:1-931666-22-9") "ead")
          [("xmlns", "urn:isbn:1-931666-22-9")]
          [.element (some 2) (expandedName (some "urn:isbn:1-931666-22-9") "subject") [] []]]
        = .ok [Node.element (some 1) (expandedName (some "urn:isbn:1-931666-22-9") "ead")
          [("xmlns", "urn:isbn:1-931666-22-9")]
          [.element (some 2) (expandedName (some "urn:isbn:1-931666-22-9") "subject") [] []]] := by
  decide

/-- Claim C17, amended: names are names of elements in no namespace; let
`structuralRules doc` be the document when rule 7 runs (after lines 83-126).
When some subject element of it has no child, or an
element as first child, `processEad` fails with a TypeError and returns no
document.  Rule 7 succeeds exactly when every subject element of it has a text
node or a comment as first child. -/
theorem subjects_rule_fails_iff (toStr : String → String) (doc : List Node) :
    ((∃ n ∈ subtreeList (structuralRules doc), Node.isElementNamed "subject" n = true
          ∧ ∀ s, (n.children.map Node.nodeValue).head? ≠ some (some s)) →
        processEad toStr doc = .error .typeError)
      ∧ ((∃ d7, forEachInPlaceListM (Node.isElementNamed "subject") normalizeSubjectTerm
            (structuralRules doc) = .ok d7)
          ↔ ∀ n ∈ subtreeList (structuralRules doc), Node.isElementNamed "subject" n = true →
            ∃ s, (n.children.map Node.nodeValue).head? = some (some s)) := by
  have h2 : ∀ (i : Option Nat) (t : String) (a : List (String × String)) (cs cs2 : List Node),
      cs2.map Node.nodeValue = cs.map Node.nodeValue →
      ((∃ r, normalizeSubjectTerm (.element i t a cs) = .ok r)
        ↔ (∃ r, normalizeSubjectTerm (.element i t a cs2) = .ok r)) := by
    intro i t a cs cs2 h
    rw [normalizeSubjectTerm_ok_iff, normalizeSubjectTerm_ok_iff, h]
  have hiff := forEachInPlaceListM_ok_iff (Node.isElementNamed "subject") normalizeSubjectTerm
    (isElementNamed_nodeValue "subject") normalizeSubjectTerm_nodeValue h2 (structuralRules doc)
  have hsub : ∀ n, Node.isElementNamed "subject" n = true →
      ((∃ r, normalizeSubjectTerm n = .ok r)
        ↔ ∃ s, (n.children.map Node.nodeValue).head? = some (some s)) := by
    intro n hn
    cases n with
    | element i t a cs => exact normalizeSubjectTerm_ok_iff i t a cs
    | text s => simp [Node.isElementNamed] at hn
    | comment s => simp [Node.isElementNamed] at hn
  have hiff2 : (∃ d7, forEachInPlaceListM (Node.isElementNamed "subject") normalizeSubjectTerm
        (structuralRules doc) = .ok d7)
      ↔ ∀ n ∈ subtreeList (structuralRules doc), Node.isElementNamed "subject" n = true →
        ∃ s, (n.children.map Node.nodeValue).head? = some (some s) := by
    rw [hiff]
    constructor
    · intro h n hn hs
      exact (hsub n hs).mp (h n hn hs)
    · intro h n hn hs
      exact (hsub n hs).mpr (h n hn hs)
  refine ⟨?_, hiff2⟩
  rintro ⟨n, hn, hs, hbad⟩
  cases h7 : forEachInPlaceListM (Node.isElementNamed "subject") normalizeSubjectTerm
      (structuralRules doc) with
  | ok d7 =>
    obtain ⟨s, hs2⟩ := hiff2.mp ⟨d7, h7⟩ n hn hs
    exact absurd hs2 (hbad s)
  | error e =>
    have he : e = .typeError :=
      forEachInPlaceListM_error_of (Node.isElementNamed "subject") normalizeSubjectTerm
        normalizeSubjectTerm_nodeValue h2 (fun e => e = .typeError)
        (fun n e _ h => normalizeSubjectTerm_error n e h) (structuralRules doc) e h7
    simp [processEad, normalizeContent, h7, he]

/-! ## Claim C19: the order of the rules -/

/-- Claim C19 as stated fails: on this document the source order succeeds (the
langusage rule turns the language element into text before the language rule
looks for language elements), while the order with the language rule before
the langusage rule fails with the unrecognized-language error. -/
theorem processEad_depends_on_rule_order :
    processEad id [Node.element (some 1) "ead" []
          [.element (some 2) "langusage" [] [.element (some 3) "language" [] [.text "French"]]]]
        = .ok [Node.element (some 1) "ead" []
          [.element (some 2) "langusage" [] [.text "French"]]]
      ∧ processEadInOrder id
          [.physdesc, .paragraphs, .notes, .unitdates, .containers, .subjects, .descrules,
            .language, .langusage, .titleproper, .author]
          [Node.element (some 1) "ead" []
            [.element (some 2) "langusage" [] [.element (some 3) "language" [] [.text "French"]]]]
        = .error (.thrown "Unrecognized language: French") := by
  decide

theorem applyRule_frame (toStr : String → String) (input doc : List Node)
    (htags : ∀ n ∈ subtreeList doc, ∀ tag ∈ ruleTags, Node.isElementNamed tag n = false)
    (r : Rule) : applyRule toStr input r doc = .ok doc := by
  have hn : ∀ tag ∈ ruleTags, ∀ n ∈ subtreeList doc, Node.isElementNamed tag n = false :=
    fun tag ht n hn => htags n hn tag ht
  cases r with
  | physdesc =>
    simp only [applyRule, fixPhysDescs]
    rw [forEachInPlaceList_id_of_not_selected _ _ doc
      (fun m hm => by simp [selLacking, hn "physdesc" (by decide) m hm])]
  | paragraphs =>
    simp only [applyRule, removeEmptyParagraphs]
    rw [forEachRemoveNodeList_id_of_not_selected _ doc
      (fun m hm => by simp [selChildless, hn "p" (by decide) m hm])]
  | notes =>
    simp only [applyRule, fixNotes]
    rw [fixNotes_id_of_not_selected doc noteTypes
      (fun n hn2 tag ht => htags n hn2 tag (by simp [ruleTags, ht]))]
  | unitdates =>
    simp only [applyRule, removeEmptyUnitdates]
    rw [forEachRemoveNodeList_id_of_not_selected _ doc
      (fun m hm => by simp [selChildless, hn "unitdate" (by decide) m hm])]
  | containers =>
    simp only [applyRule, fixContainers]
    rw [forEachContainerList_id_of_not_selected 0 doc
      (fun m hm => by simp [selChildless, hn "container" (by decide) m hm])]
  | subjects =>
    exact forEachInPlaceListM_id_of_not_selected _ _ doc (hn "subject" (by decide))
  | descrules =>
    exact forEachReplaceListM_id_of_not_selected _ _ doc (hn "descrules" (by decide))
  | langusage =>
    simp only [applyRule]
    rw [forEachReplaceList_id_of_not_selected _ _ doc (hn "langusage" (by decide))]
  | language =>
    exact forEachInPlaceListM_id_of_not_selected _ _ doc
      (fun m hm => selLanguage_false_of_not_named m (hn "language" (by decide) m hm))
  | titleproper =>
    simp only [applyRule]
    rw [forEachReplaceList_id_of_not_selected _ _ doc (hn "titleproper" (by decide))]
  | author =>
    simp only [applyRule]
    rw [forEachReplaceList_id_of_not_selected _ _ doc (hn "author" (by decide))]

theorem applyRules_frame (toStr : String → String) (input doc : List Node)
    (htags : ∀ n ∈ subtreeList doc, ∀ tag ∈ ruleTags, Node.isElementNamed tag n = false) :
    ∀ order : List Rule, applyRules toStr input order doc = .ok doc
  | [] => rfl
  | r :: rs => by
    simp only [applyRules, applyRule_frame toStr input doc htags r]
    exact applyRules_frame toStr input doc htags rs

/-- Claim C19, amended: the selections of the rules are not disjoint and a rule
can change what a later rule selects, so the order matters in general.  The
outcome does not depend on the order of rules 1 to 12 for a document in which
no element carries a tag named by their selectors (`ruleTags`): run in any
order, with repetitions or omissions, they leave it as it is, and the outcome
is that of `processEad`, the date rule applied to the document. -/
theorem processEadInOrder_frame (toStr : String → String) (doc : List Node) (order : List Rule)
    (htags : ∀ n ∈ subtreeList doc, ∀ tag ∈ ruleTags, Node.isElementNamed tag n = false) :
    processEadInOrder toStr order doc = processEad toStr doc
      ∧ processEad toStr doc = syncPublicationDates doc := by
  have h1 : ∀ order2, processEadInOrder toStr order2 doc = syncPublicationDates doc := by
    intro order2
    simp only [processEadInOrder, applyRules_frame toStr doc doc htags order2]
  rw [processEad_eq_sourceOrder, h1, h1]
  exact ⟨rfl, rfl⟩

/-- Claim C19, amended, at a document with a publication date and a creation
date and the order of the source reversed. -/
theorem processEadInOrder_frame_witness :
    (∀ n ∈ subtreeList [Node.element (some 1) "ead" []
          [.element (some 2) "publicationstmt" [] [.element (some 3) "date" [] [.text "TBD"]],
            .element (some 4) "profiledesc" []
              [.element (some 5) "creation" [] [.element (some 6) "date" [] [.text "2020"]]]]],
        ∀ tag ∈ ruleTags, Node.isElementNamed tag n = false)
      ∧ processEadInOrder id sourceOrder.reverse [Node.element (some 1) "ead" []
          [.element (some 2) "publicationstmt" [] [.element (some 3) "date" [] [.text "TBD"]],
            .element (some 4) "profiledesc" []
              [.element (some 5) "creation" [] [.element (some 6) "date" [] [.text "2020"]]]]]
        = processEad id [Node.element (some 1) "ead" []
          [.element (some 2) "publicationstmt" [] [.element (some 3) "date" [] [.text "TBD"]],
            .element (some 4) "profiledesc" []
              [.element (some 5) "creation" [] [.element (some 6) "date" [] [.text "2020"]]]]] :=
  ⟨by decide, (processEadInOrder_frame id _ sourceOrder.reverse (by decide)).1⟩

/-! ## Where the elements of a result come from -/

theorem keepChildren_refl (rs : List String) (cs : List Node) : KeepChildren rs cs cs :=
  ⟨fun _ _ h => h, fun h => h⟩

theorem keepChildren_trans (rs1 rs2 : List String) (cs cs2 cs3 : List Node)
    (h1 : KeepChildren rs1 cs cs2) (h2 : KeepChildren rs2 cs2 cs3) :
    KeepChildren (rs1 ++ rs2) cs cs3 :=
  ⟨fun y hy h => h2.1 y (fun hm => hy (List.mem_append_right _ hm))
      (h1.1 y (fun hm => hy (List.mem_append_left _ hm)) h),
    fun h => h2.2 (h1.2 h)⟩

theorem keepChildren_mono (rs rs2 : List String) (cs cs2 : List Node) (hsub : rs ⊆ rs2)
    (h : KeepChildren rs cs cs2) : KeepChildren rs2 cs cs2 :=
  ⟨fun y hy => h.1 y (fun hm => hy (hsub hm)), h.2⟩

theorem attrStep_trans (t : String) (a a2 a3 : List (String × String))
    (h1 : AttrStep t a a2) (h2 : AttrStep t a2 a3) : AttrStep t a a3 := by
  rcases h1 with h1 | ⟨ht, hno, h1⟩
  · rw [h1] at h2
    exact h2
  · rcases h2 with h2 | ⟨_, hno2, _⟩
    · rw [h2]
      exact Or.inr ⟨ht, hno, h1⟩
    · exfalso
      rw [h1] at hno2
      have : hasAttribute "langcode" (setAttribute "langcode" "eng" a) = true := by
        clear hno hno2 h1
        induction a with
        | nil => simp [setAttribute, hasAttribute]
        | cons kv rest ih =>
          obtain ⟨k, v⟩ := kv
          by_cases hk : k = "langcode"
          · simp [setAttribute, hasAttribute, hk]
          · simp only [setAttribute, hk, if_false]
            simp only [hasAttribute, List.any_cons] at ih ⊢
            simp [ih]
      rw [this] at hno2
      cases hno2

theorem originIn_refl (ts rs : List String) (nodes : List Node) : OriginIn ts rs nodes nodes :=
  fun _ _ a2 cs2 h => Or.inr ⟨a2, cs2, h, Or.inl rfl, fun _ => keepChildren_refl rs cs2⟩

theorem originIn_mono (ts rs ts2 rs2 : List String) (src out : List Node)
    (hts : ts ⊆ ts2) (hrs : rs ⊆ rs2) (h : OriginIn ts rs src out) :
    OriginIn ts2 rs2 src out := by
  intro i t a2 cs2 hm
  rcases h i t a2 cs2 hm with hc | ⟨a, cs, hs, ha, hk⟩
  · exact Or.inl hc
  · exact Or.inr ⟨a, cs, hs, ha,
      fun ht => keepChildren_mono rs rs2 cs cs2 hrs (hk (fun hm2 => ht (hts hm2)))⟩

theorem originIn_trans (ts1 rs1 ts2 rs2 : List String) (src mid out : List Node)
    (h1 : OriginIn ts1 rs1 src mid) (h2 : OriginIn ts2 rs2 mid out) :
    OriginIn (ts1 ++ ts2) (rs1 ++ rs2) src out := by
  intro i t a3 cs3 hm
  rcases h2 i t a3 cs3 hm with hc | ⟨a2, cs2, hs2, ha2, hk2⟩
  · exact Or.inl hc
  · rcases h1 i t a2 cs2 hs2 with hc | ⟨a, cs, hs, ha, hk⟩
    · left
      obtain ⟨t0, cs0, heq, ht0⟩ := hc
      simp only [Node.element.injEq] at heq
      obtain ⟨hi, ht, ha0, _⟩ := heq
      have ha3 : a3 = [] := by
        rcases ha2 with ha2 | ⟨hl, _, _⟩
        · rw [ha2, ha0]
        · exfalso
          rw [← ht, hl] at ht0
          rcases ht0 with h | h <;> simp at h
      exact ⟨t, cs3, by rw [hi, ha3], by rw [ht]; exact ht0⟩
    · exact Or.inr ⟨a, cs, hs, attrStep_trans t a a2 a3 ha ha2, fun ht =>
        keepChildren_trans rs1 rs2 cs cs2 cs3
          (hk (fun hm2 => ht (List.mem_append_left _ hm2)))
          (hk2 (fun hm2 => ht (List.mem_append_right _ hm2)))⟩

theorem originIn_append (ts rs : List String) (src1 src2 out1 out2 : List Node)
    (h1 : OriginIn ts rs src1 out1) (h2 : OriginIn ts rs src2 out2) :
    OriginIn ts rs (src1 ++ src2) (out1 ++ out2) := by
  intro i t a2 cs2 hm
  rcases List.mem_append.mp hm with hm | hm
  · rcases h1 i t a2 cs2 hm with hc | ⟨a, cs, hs, r⟩
    · exact Or.inl hc
    · exact Or.inr ⟨a, cs, List.mem_append_left _ hs, r⟩
  · rcases h2 i t a2 cs2 hm with hc | ⟨a, cs, hs, r⟩
    · exact Or.inl hc
    · exact Or.inr ⟨a, cs, List.mem_append_right _ hs, r⟩

theorem forEachInPlace_named (sel : Node → Bool) (f : Node → Node) (hf : KeepsShell f)
    (y : String) (n : Node) :
    Node.isElementNamed y (forEachInPlace sel f n) = Node.isElementNamed y n := by
  cases n with
  | text s => rfl
  | comment s => rfl
  | element i t a cs =>
    unfold forEachInPlace
    split
    · obtain ⟨cs2, h, _⟩ := hf i t a (forEachInPlaceList sel f cs)
      rw [h]
      rfl
    · rfl

theorem forEachInPlaceList_keepChildren (sel : Node → Bool) (f : Node → Node)
    (hf : KeepsShell f) (rs : List String) (cs : List Node) :
    KeepChildren rs cs (forEachInPlaceList sel f cs) := by
  constructor
  · intro y _
    induction cs with
    | nil => simp [forEachInPlaceList]
    | cons c cs ih =>
      simp only [forEachInPlaceList, List.any_cons, forEachInPlace_named sel f hf y c,
        Bool.or_eq_true]
      exact fun h => h.imp id ih
  · intro h
    rw [h]
    rfl

mutual
theorem origin_forEachInPlace (ts rs : List String) (sel : Node → Bool) (f : Node → Node)
    (hsel : ∀ i t a cs, sel (.element i t a cs) = true → t ∈ ts) (hf : KeepsShell f) :
    ∀ n : Node, OriginIn ts rs n.subtree (forEachInPlace sel f n).subtree
  | .text s => by intro i t a2 cs2 hm; simp [forEachInPlace, Node.subtree] at hm
  | .comment s => by intro i t a2 cs2 hm; simp [forEachInPlace, Node.subtree] at hm
  | .element i t a cs => by
    have ih := origin_forEachInPlaceList ts rs sel f hsel hf cs
    intro j u b ds hm
    unfold forEachInPlace at hm
    by_cases hs : sel (.element i t a cs) = true
    · simp only [hs, if_true] at hm
      obtain ⟨cs2, h, hsub⟩ := hf i t a (forEachInPlaceList sel f cs)
      rw [h] at hm
      simp only [Node.subtree, List.mem_cons] at hm
      rcases hm with hm | hm
      · simp only [Node.element.injEq] at hm
        obtain ⟨h1, h2, h3, h4⟩ := hm
        subst h1 h2 h3 h4
        exact Or.inr ⟨b, cs, by simp [Node.subtree], Or.inl rfl,
          fun hn => absurd (hsel _ _ _ _ hs) hn⟩
      · rcases hsub j u b ds hm with hm2 | hc
        · rcases ih j u b ds hm2 with hc | ⟨a0, cs0, hs0, r⟩
          · exact Or.inl hc
          · exact Or.inr ⟨a0, cs0, by simp [Node.subtree, hs0], r⟩
        · exact Or.inl hc
    · simp only [hs, Bool.false_eq_true, if_false, Node.subtree, List.mem_cons] at hm
      rcases hm with hm | hm
      · simp only [Node.element.injEq] at hm
        obtain ⟨h1, h2, h3, h4⟩ := hm
        subst h1 h2 h3 h4
        exact Or.inr ⟨b, cs, by simp [Node.subtree], Or.inl rfl,
          fun _ => forEachInPlaceList_keepChildren sel f hf rs cs⟩
      · rcases ih j u b ds hm with hc | ⟨a0, cs0, hs0, r⟩
        · exact Or.inl hc
        · exact Or.inr ⟨a0, cs0, by simp [Node.subtree, hs0], r⟩
theorem origin_forEachInPlaceList (ts rs : List String) (sel : Node → Bool) (f : Node → Node)
    (hsel : ∀ i t a cs, sel (.element i t a cs) = true → t ∈ ts) (hf : KeepsShell f) :
    ∀ cs : List Node, OriginIn ts rs (subtreeList cs) (subtreeList (forEachInPlaceList sel f cs))
  | [] => by intro i t a2 cs2 hm; simp [forEachInPlaceList, subtreeList] at hm
  | c :: cs => by
    simp only [forEachInPlaceList, subtreeList]
    exact originIn_append ts rs _ _ _ _ (origin_forEachInPlace ts rs sel f hsel hf c)
      (origin_forEachInPlaceList ts rs sel f hsel hf cs)
end

theorem isElementNamed_unique (y z : String) (n : Node)
    (hy : Node.isElementNamed y n = true) (hz : Node.isElementNamed z n = true) : y = z := by
  cases n with
  | element i t a cs =>
    simp only [Node.isElementNamed, decide_eq_true_eq] at hy hz
    rw [← hy, ← hz]
  | text s => simp [Node.isElementNamed] at hy
  | comment s => simp [Node.isElementNamed] at hy

theorem forEachRemoveNode_named (sel : Node → Bool) (y : String) (n : Node) :
    Node.isElementNamed y (forEachRemoveNode sel n) = Node.isElementNamed y n := by
  cases n <;> rfl

theorem forEachRemoveNodeList_keepChildren (sel : Node → Bool) (rs : List String)
    (hsel : ∀ n, sel n = true → ∃ y ∈ rs, Node.isElementNamed y n = true) (cs : List Node) :
    KeepChildren rs cs (forEachRemoveNodeList sel cs) := by
  constructor
  · intro y hy
    induction cs with
    | nil => simp [forEachRemoveNodeList]
    | cons c cs ih =>
      intro h
      simp only [List.any_cons, Bool.or_eq_true] at h
      by_cases hs : sel c = true
      · simp only [forEachRemoveNodeList, hs, if_true]
        rcases h with h | h
        · obtain ⟨z, hz, hz2⟩ := hsel c hs
          exact absurd (isElementNamed_unique y z c h hz2 ▸ hz) hy
        · exact ih h
      · simp only [forEachRemoveNodeList, hs, Bool.false_eq_true, if_false, List.any_cons,
          forEachRemoveNode_named, Bool.or_eq_true]
        exact h.imp id ih
  · intro h
    rw [h]
    rfl

mutual
theorem origin_forEachRemoveNode (ts rs : List String) (sel : Node → Bool)
    (hsel : ∀ n, sel n = true → ∃ y ∈ rs, Node.isElementNamed y n = true) :
    ∀ n : Node, OriginIn ts rs n.subtree (forEachRemoveNode sel n).subtree
  | .text s => by intro i t a2 cs2 hm; simp [forEachRemoveNode, Node.subtree] at hm
  | .comment s => by intro i t a2 cs2 hm; simp [forEachRemoveNode, Node.subtree] at hm
  | .element i t a cs => by
    have ih := origin_forEachRemoveNodeList ts rs sel hsel cs
    intro j u b ds hm
    simp only [forEachRemoveNode, Node.subtree, List.mem_cons] at hm
    rcases hm with hm | hm
    · simp only [Node.element.injEq] at hm
      obtain ⟨h1, h2, h3, h4⟩ := hm
      subst h1 h2 h3 h4
      exact Or.inr ⟨b, cs, by simp [Node.subtree], Or.inl rfl,
        fun _ => forEachRemoveNodeList_keepChildren sel rs hsel cs⟩
    · rcases ih j u b ds hm with hc | ⟨a0, cs0, hs0, r⟩
      · exact Or.inl hc
      · exact Or.inr ⟨a0, cs0, by simp [Node.subtree, hs0], r⟩
theorem origin_forEachRemoveNodeList (ts rs : List String) (sel : Node → Bool)
    (hsel : ∀ n, sel n = true → ∃ y ∈ rs, Node.isElementNamed y n = true) :
    ∀ cs : List Node,
      OriginIn ts rs (subtreeList cs) (subtreeList (forEachRemoveNodeList sel cs))
  | [] => by intro i t a2 cs2 hm; simp [forEachRemoveNodeList, subtreeList] at hm
  | c :: cs => by
    have ih1 := origin_forEachRemoveNode ts rs sel hsel c
    have ih2 := origin_forEachRemoveNodeList ts rs sel hsel cs
    by_cases hs : sel c = true
    · simp only [forEachRemoveNodeList, hs, if_true, subtreeList]
      intro i t a2 cs2 hm
      rcases ih2 i t a2 cs2 hm with hc | ⟨a0, cs0, hs0, r⟩
      · exact Or.inl hc
      · exact Or.inr ⟨a0, cs0, List.mem_append_right _ hs0, r⟩
    · simp only [forEachRemoveNodeList, hs, Bool.false_eq_true, if_false, subtreeList]
      exact originIn_append ts rs _ _ _ _ ih1 ih2
end

theorem forEachReplace_named (sel : Node → Bool) (f : Node → Node) (hf : KeepsShell f)
    (y : String) (n : Node) :
    Node.isElementNamed y (forEachReplace sel f n) = Node.isElementNamed y n := by
  cases n with
  | text s => rfl
  | comment s => rfl
  | element i t a cs =>
    unfold forEachReplace
    split
    · obtain ⟨cs2, h, _⟩ := hf i t a cs
      rw [h]
      rfl
    · rfl

theorem forEachReplaceList_keepChildren (sel : Node → Bool) (f : Node → Node)
    (hf : KeepsShell f) (rs : List String) (cs : List Node) :
    KeepChildren rs cs (forEachReplaceList sel f cs) := by
  constructor
  · intro y _
    induction cs with
    | nil => simp [forEachReplaceList]
    | cons c cs ih =>
      simp only [forEachReplaceList, List.any_cons, forEachReplace_named sel f hf y c,
        Bool.or_eq_true]
      exact fun h => h.imp id ih
  · intro h
    rw [h]
    rfl

mutual
theorem origin_forEachReplace (ts rs : List String) (sel : Node → Bool) (f : Node → Node)
    (hsel : ∀ i t a cs, sel (.element i t a cs) = true → t ∈ ts) (hf : KeepsShell f) :
    ∀ n : Node, OriginIn ts rs n.subtree (forEachReplace sel f n).subtree
  | .text s => by intro i t a2 cs2 hm; simp [forEachReplace, Node.subtree] at hm
  | .comment s => by intro i t a2 cs2 hm; simp [forEachReplace, Node.subtree] at hm
  | .element i t a cs => by
    have ih := origin_forEachReplaceList ts rs sel f hsel hf cs
    intro j u b ds hm
    unfold forEachReplace at hm
    by_cases hs : sel (.element i t a cs) = true
    · simp only [hs, if_true] at hm
      obtain ⟨cs2, h, hsub⟩ := hf i t a cs
      rw [h] at hm
      simp only [Node.subtree, List.mem_cons] at hm
      rcases hm with hm | hm
      · simp only [Node.element.injEq] at hm
        obtain ⟨h1, h2, h3, h4⟩ := hm
        subst h1 h2 h3 h4
        exact Or.inr ⟨b, cs, by simp [Node.subtree], Or.inl rfl,
          fun hn => absurd (hsel _ _ _ _ hs) hn⟩
      · rcases hsub j u b ds hm with hm2 | hc
        · exact Or.inr ⟨b, ds, by simp [Node.subtree, hm2], Or.inl rfl,
            fun _ => keepChildren_refl rs ds⟩
        · exact Or.inl hc
    · simp only [hs, Bool.false_eq_true, if_false, Node.subtree, List.mem_cons] at hm
      rcases hm with hm | hm
      · simp only [Node.element.injEq] at hm
        obtain ⟨h1, h2, h3, h4⟩ := hm
        subst h1 h2 h3 h4
        exact Or.inr ⟨b, cs, by simp [Node.subtree], Or.inl rfl,
          fun _ => forEachReplaceList_keepChildren sel f hf rs cs⟩
      · rcases ih j u b ds hm with hc | ⟨a0, cs0, hs0, r⟩
        · exact Or.inl hc
        · exact Or.inr ⟨a0, cs0, by simp [Node.subtree, hs0], r⟩
theorem origin_forEachReplaceList (ts rs : List String) (sel : Node → Bool) (f : Node → Node)
    (hsel : ∀ i t a cs, sel (.element i t a cs) = true → t ∈ ts) (hf : KeepsShell f) :
    ∀ cs : List Node, OriginIn ts rs (subtreeList cs) (subtreeList (forEachReplaceList sel f cs))
  | [] => by intro i t a2 cs2 hm; simp [forEachReplaceList, subtreeList] at hm
  | c :: cs => by
    simp only [forEachReplaceList, subtreeList]
    exact originIn_append ts rs _ _ _ _ (origin_forEachReplace ts rs sel f hsel hf c)
      (origin_forEachReplaceList ts rs sel f hsel hf cs)
end

theorem subtreeList_append (xs ys : List Node) :
    subtreeList (xs ++ ys) = subtreeList xs ++ subtreeList ys := by
  induction xs with
  | nil => rfl
  | cons x xs ih => simp [subtreeList, ih]

theorem keepsShell_fixContainersWithoutIds (newId : String) :
    KeepsShell (fixContainersWithoutIds newId) := by
  intro i t a cs
  refine ⟨cs ++ [Node.text newId], rfl, ?_⟩
  intro j u b ds hm
  left
  rw [subtreeList_append] at hm
  simpa [subtreeList, Node.subtree] using hm

theorem forEachContainer_named (k : Nat) (y : String) (n : Node) :
    Node.isElementNamed y (forEachContainer k n).1 = Node.isElementNamed y n := by
  cases n with
  | text s => rfl
  | comment s => rfl
  | element i t a cs =>
    unfold forEachContainer
    split <;> rfl

theorem forEachContainerList_keepChildren (rs : List String) (cs : List Node) :
    ∀ k, KeepChildren rs cs (forEachContainerList k cs).1 := by
  induction cs with
  | nil => intro k; exact ⟨fun _ _ h => h, fun _ => rfl⟩
  | cons c cs ih =>
    intro k
    constructor
    · intro y hy
      simp only [forEachContainerList, List.any_cons, forEachContainer_named, Bool.or_eq_true]
      exact fun h => h.imp id ((ih _).1 y hy)
    · intro h
      cases h

mutual
theorem origin_forEachContainer (ts rs : List String) (hts : "container" ∈ ts) :
    ∀ (n : Node) (k : Nat), OriginIn ts rs n.subtree (forEachContainer k n).1.subtree
  | .text s, k => by intro i t a2 cs2 hm; simp [forEachContainer, Node.subtree] at hm
  | .comment s, k => by intro i t a2 cs2 hm; simp [forEachContainer, Node.subtree] at hm
  | .element i t a cs, k => by
    have ih := origin_forEachContainerList ts rs hts cs k
    intro j u b ds hm
    unfold forEachContainer at hm
    by_cases hs : selChildless "container" (.element i t a cs) = true
    · simp only [hs, if_true] at hm
      obtain ⟨cs2, h, hsub⟩ := keepsShell_fixContainersWithoutIds (toString k) i t a cs
      rw [h] at hm
      simp only [Node.subtree, List.mem_cons] at hm
      have ht : t = "container" := by
        simp only [selChildless, Node.isElementNamed, Bool.and_eq_true, decide_eq_true_eq] at hs
        exact hs.1
      rcases hm with hm | hm
      · simp only [Node.element.injEq] at hm
        obtain ⟨h1, h2, h3, h4⟩ := hm
        subst h1 h2 h3 h4
        exact Or.inr ⟨b, cs, by simp [Node.subtree], Or.inl rfl,
          fun hn => absurd (ht ▸ hts) hn⟩
      · rcases hsub j u b ds hm with hm2 | hc
        · exact Or.inr ⟨b, ds, by simp [Node.subtree, hm2], Or.inl rfl,
            fun _ => keepChildren_refl rs ds⟩
        · exact Or.inl hc
    · simp only [hs, Bool.false_eq_true, if_false, Node.subtree, List.mem_cons] at hm
      rcases hm with hm | hm
      · simp only [Node.element.injEq] at hm
        obtain ⟨h1, h2, h3, h4⟩ := hm
        subst h1 h2 h3 h4
        exact Or.inr ⟨b, cs, by simp [Node.subtree], Or.inl rfl,
          fun _ => forEachContainerList_keepChildren rs cs k⟩
      · rcases ih j u b ds hm with hc | ⟨a0, cs0, hs0, r⟩
        · exact Or.inl hc
        · exact Or.inr ⟨a0, cs0, by simp [Node.subtree, hs0], r⟩
theorem origin_forEachContainerList (ts rs : List String) (hts : "container" ∈ ts) :
    ∀ (cs : List Node) (k : Nat),
      OriginIn ts rs (subtreeList cs) (subtreeList (forEachContainerList k cs).1)
  | [], k => by intro i t a2 cs2 hm; simp [forEachContainerList, subtreeList] at hm
  | c :: cs, k => by
    simp only [forEachContainerList, subtreeList]
    exact originIn_append ts rs _ _ _ _ (origin_forEachContainer ts rs hts c k)
      (origin_forEachContainerList ts rs hts cs _)
end

theorem forEachInPlaceM_named (sel : Node → Bool) (f : Node → Except JsError Node)
    (hf : KeepsShellM sel f) (y : String) (n r : Node) (h : forEachInPlaceM sel f n = .ok r) :
    Node.isElementNamed y r = Node.isElementNamed y n := by
  cases n with
  | text s => simp [forEachInPlaceM] at h; rw [← h]
  | comment s => simp [forEachInPlaceM] at h; rw [← h]
  | element i t a cs =>
    unfold forEachInPlaceM at h
    split at h
    · cases h
    · split at h
      · cases h
      · rename_i cs2 _
        split at h
        · rename_i hs
          obtain ⟨a2, cs3, hr, _⟩ := hf i t a cs2 cs r hs h
          rw [hr]
          rfl
        · cases h
          rfl

theorem forEachInPlaceListM_keepChildren (sel : Node → Bool) (f : Node → Except JsError Node)
    (hf : KeepsShellM sel f) (rs : List String) :
    ∀ cs r, forEachInPlaceListM sel f cs = .ok r → KeepChildren rs cs r
  | [], r, h => by
    simp [forEachInPlaceListM] at h
    rw [← h]
    exact keepChildren_refl rs _
  | c :: cs, r, h => by
    unfold forEachInPlaceListM at h
    split at h
    · cases h
    · rename_i c2 hc
      split at h
      · cases h
      · rename_i cs2 hcs
        cases h
        have ih := forEachInPlaceListM_keepChildren sel f hf rs cs cs2 hcs
        constructor
        · intro y hy
          simp only [List.any_cons, forEachInPlaceM_named sel f hf y c c2 hc, Bool.or_eq_true]
          exact fun h => h.imp id (ih.1 y hy)
        · intro h
          cases h

mutual
theorem origin_forEachInPlaceM (ts rs : List String) (sel : Node → Bool)
    (f : Node → Except JsError Node)
    (hsel : ∀ i t a cs, sel (.element i t a cs) = true → t ∈ ts) (hf : KeepsShellM sel f) :
    ∀ n r : Node, forEachInPlaceM sel f n = .ok r → OriginIn ts rs n.subtree r.subtree
  | .text s, r, h => by
    simp [forEachInPlaceM] at h
    rw [← h]
    exact originIn_refl ts rs _
  | .comment s, r, h => by
    simp [forEachInPlaceM] at h
    rw [← h]
    exact originIn_refl ts rs _
  | .element i t a cs, r, h => by
    unfold forEachInPlaceM at h
    split at h
    · cases h
    · split at h
      · cases h
      · rename_i cs2 hl
        have ih := origin_forEachInPlaceListM ts rs sel f hsel hf cs cs2 hl
        intro j u b ds hm
        by_cases hs : sel (.element i t a cs) = true
        · simp only [hs, if_true] at h
          obtain ⟨a2, cs3, hr, ha, hsub⟩ := hf i t a cs2 cs r hs h
          rw [hr] at hm
          simp only [Node.subtree, List.mem_cons] at hm
          rcases hm with hm | hm
          · simp only [Node.element.injEq] at hm
            obtain ⟨h1, h2, h3, h4⟩ := hm
            subst h1 h2 h3 h4
            exact Or.inr ⟨a, cs, by simp [Node.subtree], ha,
              fun hn => absurd (hsel _ _ _ _ hs) hn⟩
          · rcases hsub j u b ds hm with hm2 | hc
            · rcases ih j u b ds hm2 with hc | ⟨a0, cs0, hs0, r0⟩
              · exact Or.inl hc
              · exact Or.inr ⟨a0, cs0, by simp [Node.subtree, hs0], r0⟩
            · exact Or.inl hc
        · simp only [hs, Bool.false_eq_true, if_false] at h
          cases h
          simp only [Node.subtree, List.mem_cons] at hm
          rcases hm with hm | hm
          · simp only [Node.element.injEq] at hm
            obtain ⟨h1, h2, h3, h4⟩ := hm
            subst h1 h2 h3 h4
            exact Or.inr ⟨b, cs, by simp [Node.subtree], Or.inl rfl,
              fun _ => forEachInPlaceListM_keepChildren sel f hf rs cs _ hl⟩
          · rcases ih j u b ds hm with hc | ⟨a0, cs0, hs0, r0⟩
            · exact Or.inl hc
            · exact Or.inr ⟨a0, cs0, by simp [Node.subtree, hs0], r0⟩
theorem origin_forEachInPlaceListM (ts rs : List String) (sel : Node → Bool)
    (f : Node → Except JsError Node)
    (hsel : ∀ i t a cs, sel (.element i t a cs) = true → t ∈ ts) (hf : KeepsShellM sel f) :
    ∀ cs r : List Node, forEachInPlaceListM sel f cs = .ok r →
      OriginIn ts rs (subtreeList cs) (subtreeList r)
  | [], r, h => by
    simp [forEachInPlaceListM] at h
    rw [← h]
    exact originIn_refl ts rs _
  | c :: cs, r, h => by
    unfold forEachInPlaceListM at h
    split at h
    · cases h
    · rename_i c2 hc
      split at h
      · cases h
      · rename_i cs2 hcs
        cases h
        simp only [subtreeList]
        exact originIn_append ts rs _ _ _ _ (origin_forEachInPlaceM ts rs sel f hsel hf c c2 hc)
          (origin_forEachInPlaceListM ts rs sel f hsel hf cs cs2 hcs)
end

theorem forEachReplaceM_named (sel : Node → Bool) (f : Node → Except JsError Node)
    (hf : KeepsShellM sel f) (y : String) (n r : Node) (h : forEachReplaceM sel f n = .ok r) :
    Node.isElementNamed y r = Node.isElementNamed y n := by
  cases n with
  | text s => simp [forEachReplaceM] at h; rw [← h]
  | comment s => simp [forEachReplaceM] at h; rw [← h]
  | element i t a cs =>
    unfold forEachReplaceM at h
    split at h
    · rename_i hs
      split at h
      · cases h
      · rename_i n2 hn2
        split at h
        · cases h
        · cases h
          obtain ⟨a2, cs3, hr, _⟩ := hf i t a cs cs _ hs hn2
          rw [hr]
          rfl
    · split at h
      · cases h
      · cases h
        rfl

theorem forEachReplaceListM_keepChildren (sel : Node → Bool) (f : Node → Except JsError Node)
    (hf : KeepsShellM sel f) (rs : List String) :
    ∀ cs r, forEachReplaceListM sel f cs = .ok r → KeepChildren rs cs r
  | [], r, h => by
    simp [forEachReplaceListM] at h
    rw [← h]
    exact keepChildren_refl rs _
  | c :: cs, r, h => by
    unfold forEachReplaceListM at h
    split at h
    · cases h
    · rename_i c2 hc
      split at h
      · cases h
      · rename_i cs2 hcs
        cases h
        have ih := forEachReplaceListM_keepChildren sel f hf rs cs cs2 hcs
        constructor
        · intro y hy
          simp only [List.any_cons, forEachReplaceM_named sel f hf y c c2 hc, Bool.or_eq_true]
          exact fun h => h.imp id (ih.1 y hy)
        · intro h
          cases h

mutual
theorem origin_forEachReplaceM (ts rs : List String) (sel : Node → Bool)
    (f : Node → Except JsError Node)
    (hsel : ∀ i t a cs, sel (.element i t a cs) = true → t ∈ ts) (hf : KeepsShellM sel f) :
    ∀ n r : Node, forEachReplaceM sel f n = .ok r → OriginIn ts rs n.subtree r.subtree
  | .text s, r, h => by
    simp [forEachReplaceM] at h
    rw [← h]
    exact originIn_refl ts rs _
  | .comment s, r, h => by
    simp [forEachReplaceM] at h
    rw [← h]
    exact originIn_refl ts rs _
  | .element i t a cs, r, h => by
    unfold forEachReplaceM at h
    intro j u b ds hm
    by_cases hs : sel (.element i t a cs) = true
    · simp only [hs, if_true] at h
      split at h
      · cases h
      · rename_i n2 hn2
        split at h
        · cases h
        · cases h
          obtain ⟨a2, cs3, hr, ha, hsub⟩ := hf i t a cs cs _ hs hn2
          rw [hr] at hm
          simp only [Node.subtree, List.mem_cons] at hm
          rcases hm with hm | hm
          · simp only [Node.element.injEq] at hm
            obtain ⟨h1, h2, h3, h4⟩ := hm
            subst h1 h2 h3 h4
            exact Or.inr ⟨a, cs, by simp [Node.subtree], ha,
              fun hn => absurd (hsel _ _ _ _ hs) hn⟩
          · rcases hsub j u b ds hm with hm2 | hc
            · exact Or.inr ⟨b, ds, by simp [Node.subtree, hm2], Or.inl rfl,
                fun _ => keepChildren_refl rs ds⟩
            · exact Or.inl hc
    · simp only [hs, Bool.false_eq_true, if_false] at h
      split at h
      · cases h
      · rename_i cs2 hl
        cases h
        have ih := origin_forEachReplaceListM ts rs sel f hsel hf cs cs2 hl
        simp only [Node.subtree, List.mem_cons] at hm
        rcases hm with hm | hm
        · simp only [Node.element.injEq] at hm
          obtain ⟨h1, h2, h3, h4⟩ := hm
          subst h1 h2 h3 h4
          exact Or.inr ⟨b, cs, by simp [Node.subtree], Or.inl rfl,
            fun _ => forEachReplaceListM_keepChildren sel f hf rs cs _ hl⟩
        · rcases ih j u b ds hm with hc | ⟨a0, cs0, hs0, r0⟩
          · exact Or.inl hc
          · exact Or.inr ⟨a0, cs0, by simp [Node.subtree, hs0], r0⟩
theorem origin_forEachReplaceListM (ts rs : List String) (sel : Node → Bool)
    (f : Node → Except JsError Node)
    (hsel : ∀ i t a cs, sel (.element i t a cs) = true → t ∈ ts) (hf : KeepsShellM sel f) :
    ∀ cs r : List Node, forEachReplaceListM sel f cs = .ok r →
      OriginIn ts rs (subtreeList cs) (subtreeList r)
  | [], r, h => by
    simp [forEachReplaceListM] at h
    rw [← h]
    exact originIn_refl ts rs _
  | c :: cs, r, h => by
    unfold forEachReplaceListM at h
    split at h
    · cases h
    · rename_i c2 hc
      split at h
      · cases h
      · rename_i cs2 hcs
        cases h
        simp only [subtreeList]
        exact originIn_append ts rs _ _ _ _ (origin_forEachReplaceM ts rs sel f hsel hf c c2 hc)
          (origin_forEachReplaceListM ts rs sel f hsel hf cs cs2 hcs)
end

/-! ## The date loop of line 168: where its paths lead -/

theorem nth_modifyNth (g : Node → Node) : ∀ (k q : Nat) (cs : List Node),
    nth q (modifyNth g k cs) = if q = k then (nth q cs).map g else nth q cs
  | _, q, [] => by simp [modifyNth, nth]
  | 0, 0, c :: cs => by simp [modifyNth, nth]
  | 0, q + 1, c :: cs => by simp [modifyNth, nth]
  | k + 1, 0, c :: cs => by simp [modifyNth, nth]
  | k + 1, q + 1, c :: cs => by
    simp only [modifyNth, nth, nth_modifyNth g k q cs, Nat.add_right_cancel_iff]

mutual
theorem tagAtNode_pubDatePaths : ∀ (n : Node) (under : Bool) (path : List Nat),
    path ∈ pubDatePaths under n → tagAtNode path n = some "date"
  | .text s, under, path, h => by simp [pubDatePaths] at h
  | .comment s, under, path, h => by simp [pubDatePaths] at h
  | .element i t a cs, under, path, h => by
    simp only [pubDatePaths, List.mem_append] at h
    rcases h with h | h
    · by_cases hd : (under && decide (t = "date")) = true
      · simp only [hd, if_true, List.mem_singleton] at h
        simp only [Bool.and_eq_true, decide_eq_true_eq] at hd
        rw [h, hd.2]
        rfl
      · simp [hd] at h
    · obtain ⟨j, rest, hp, c, hc, ht⟩ :=
        tagAt_pubDatePathsList cs (under || decide (t = "publicationstmt")) 0 path h
      rw [hp]
      simp only [tagAtNode, Nat.zero_add, hc, ht]
theorem tagAt_pubDatePathsList : ∀ (cs : List Node) (under : Bool) (k : Nat) (path : List Nat),
    path ∈ pubDatePathsList under k cs →
      ∃ j rest, path = (k + j) :: rest ∧ ∃ c, nth j cs = some c ∧ tagAtNode rest c = some "date"
  | [], under, k, path, h => by simp [pubDatePathsList] at h
  | c :: cs, under, k, path, h => by
    simp only [pubDatePathsList, List.mem_append, List.mem_map] at h
    rcases h with ⟨rest, hr, hp⟩ | h
    · exact ⟨0, rest, hp.symm, c, rfl, tagAtNode_pubDatePaths c under rest hr⟩
    · obtain ⟨j, rest, hp, c2, hc, ht⟩ := tagAt_pubDatePathsList cs under (k + 1) path h
      exact ⟨j + 1, rest, by rw [hp]; congr 1; omega, c2, hc, ht⟩
end

theorem tagAt_of_mem_pubDatePathsList (doc : List Node) (path : List Nat)
    (h : path ∈ pubDatePathsList false 0 doc) : tagAt path doc = some "date" := by
  obtain ⟨j, rest, hp, c, hc, ht⟩ := tagAt_pubDatePathsList doc false 0 path h
  rw [hp]
  simp only [tagAt, Nat.zero_add, hc, ht]

theorem tagAtNode_modifyNode (v : String) : ∀ (p0 p : List Nat) (n : Node),
    tagAtNode p (modifyNode (setTextContent v) p0 n) = none
      ∨ tagAtNode p (modifyNode (setTextContent v) p0 n) = tagAtNode p n
  | [], [], n => by
    cases n <;> simp [modifyNode, setTextContent, tagAtNode]
  | [], q :: rest, n => by
    cases n with
    | text s => simp [modifyNode, setTextContent, tagAtNode]
    | comment s => simp [modifyNode, setTextContent, tagAtNode]
    | element i t a cs =>
      left
      simp only [modifyNode, setTextContent, tagAtNode]
      by_cases hv : v = ""
      · simp [hv, nth]
      · simp only [hv, if_false]
        cases q with
        | zero => cases rest <;> simp [nth, tagAtNode]
        | succ q => simp [nth]
  | k :: rest0, [], n => by
    cases n <;> simp [modifyNode, tagAtNode]
  | k :: rest0, q :: rest, n => by
    cases n with
    | text s => simp [modifyNode, tagAtNode]
    | comment s => simp [modifyNode, tagAtNode]
    | element i t a cs =>
      simp only [modifyNode, tagAtNode, nth_modifyNth]
      by_cases hq : q = k
      · simp only [hq, if_true]
        cases hc : nth k cs with
        | none => simp
        | some c =>
          simp only [Option.map_some']
          exact tagAtNode_modifyNode v rest0 rest c
      · simp [hq]

theorem tagAt_modifyAt (v : String) (p0 p : List Nat) (doc : List Node) :
    tagAt p (modifyAt (setTextContent v) p0 doc) = none
      ∨ tagAt p (modifyAt (setTextContent v) p0 doc) = tagAt p doc := by
  cases p0 with
  | nil => simp [modifyAt]
  | cons k rest0 =>
    cases p with
    | nil => simp [tagAt]
    | cons q rest =>
      simp only [modifyAt, tagAt, nth_modifyNth]
      by_cases hq : q = k
      · simp only [hq, if_true]
        cases hc : nth k doc with
        | none => simp
        | some c =>
          simp only [Option.map_some']
          exact tagAtNode_modifyNode v rest0 rest c
      · simp [hq]

theorem originIn_modifyNth (ts rs : List String) (g : Node → Node) :
    ∀ (k : Nat) (cs : List Node),
      (∀ c, nth k cs = some c → OriginIn ts rs c.subtree (g c).subtree) →
      OriginIn ts rs (subtreeList cs) (subtreeList (modifyNth g k cs))
  | _, [], _ => by simp only [modifyNth]; exact originIn_refl ts rs _
  | 0, c :: cs, hg => by
    simp only [modifyNth, subtreeList]
    exact originIn_append ts rs _ _ _ _ (hg c rfl) (originIn_refl ts rs _)
  | k + 1, c :: cs, hg => by
    simp only [modifyNth, subtreeList]
    exact originIn_append ts rs _ _ _ _ (originIn_refl ts rs _)
      (originIn_modifyNth ts rs g k cs (fun c2 hc => hg c2 (by simpa [nth] using hc)))

theorem modifyNth_keepChildren (rs : List String) (g : Node → Node)
    (hg : ∀ y c, Node.isElementNamed y (g c) = Node.isElementNamed y c) :
    ∀ (k : Nat) (cs : List Node), KeepChildren rs cs (modifyNth g k cs)
  | _, [] => by simp only [modifyNth]; exact keepChildren_refl rs _
  | 0, c :: cs => by
    constructor
    · intro y _
      simp only [modifyNth, List.any_cons, hg]
      exact id
    · intro h
      cases h
  | k + 1, c :: cs => by
    constructor
    · intro y hy
      simp only [modifyNth, List.any_cons, Bool.or_eq_true]
      exact fun h => h.imp id ((modifyNth_keepChildren rs g hg k cs).1 y hy)
    · intro h
      cases h

theorem modifyNode_named (v : String) (y : String) (p : List Nat) (n : Node) :
    Node.isElementNamed y (modifyNode (setTextContent v) p n) = Node.isElementNamed y n := by
  cases p <;> cases n <;> rfl

theorem origin_modifyNode (rs : List String) (v : String) : ∀ (p : List Nat) (n : Node),
    (tagAtNode p n = none ∨ tagAtNode p n = some "date") →
      OriginIn ["date"] rs n.subtree (modifyNode (setTextContent v) p n).subtree
  | [], .text s, _ => originIn_refl _ rs _
  | [], .comment s, _ => originIn_refl _ rs _
  | [], .element i t a cs, h => by
    have ht : t = "date" := by
      rcases h with h | h
      · simp [tagAtNode] at h
      · simpa [tagAtNode] using h
    intro j u b ds hm
    simp only [modifyNode, setTextContent, Node.subtree, List.mem_cons] at hm
    rcases hm with hm | hm
    · simp only [Node.element.injEq] at hm
      obtain ⟨h1, h2, h3, h4⟩ := hm
      subst h1 h2 h3
      exact Or.inr ⟨b, cs, by simp [Node.subtree], Or.inl rfl,
        fun hn => absurd (by rw [ht]; simp) hn⟩
    · exfalso
      by_cases hv : v = ""
      · simp [hv, subtreeList] at hm
      · simp [hv, subtreeList, Node.subtree] at hm
  | k :: rest, .text s, _ => originIn_refl _ rs _
  | k :: rest, .comment s, _ => originIn_refl _ rs _
  | k :: rest, .element i t a cs, h => by
    intro j u b ds hm
    simp only [modifyNode, Node.subtree, List.mem_cons] at hm
    rcases hm with hm | hm
    · simp only [Node.element.injEq] at hm
      obtain ⟨h1, h2, h3, h4⟩ := hm
      subst h1 h2 h3 h4
      exact Or.inr ⟨b, cs, by simp [Node.subtree], Or.inl rfl,
        fun _ => modifyNth_keepChildren rs _ (fun y c => modifyNode_named v y rest c) k cs⟩
    · have ho := originIn_modifyNth ["date"] rs (modifyNode (setTextContent v) rest) k cs
        (fun c hc => origin_modifyNode rs v rest c (by simpa [tagAtNode, hc] using h))
      rcases ho j u b ds hm with hc | ⟨a0, cs0, hs0, r0⟩
      · exact Or.inl hc
      · exact Or.inr ⟨a0, cs0, by simp [Node.subtree, hs0], r0⟩

theorem origin_modifyAt (rs : List String) (v : String) (p : List Nat) (doc : List Node)
    (h : tagAt p doc = none ∨ tagAt p doc = some "date") :
    Origin ["date"] rs doc (modifyAt (setTextContent v) p doc) := by
  cases p with
  | nil => exact originIn_refl _ rs _
  | cons k rest =>
    simp only [modifyAt]
    exact originIn_modifyNth ["date"] rs _ k doc
      (fun c hc => origin_modifyNode rs v rest c (by simpa [tagAt, hc] using h))

theorem origin_forEachPublicationDate (rs : List String) :
    ∀ (paths : List (List Nat)) (doc out : List Node),
      (∀ p ∈ paths, tagAt p doc = none ∨ tagAt p doc = some "date") →
      forEachPublicationDate paths doc = .ok out → Origin ["date"] rs doc out
  | [], doc, out, _, h => by
    simp only [forEachPublicationDate, Except.ok.injEq] at h
    rw [← h]
    exact originIn_refl _ rs _
  | p :: paths, doc, out, hp, h => by
    unfold forEachPublicationDate at h
    cases hs : syncPublicationDate doc p with
    | error e => rw [hs] at h; cases h
    | ok doc2 =>
      rw [hs] at h
      simp only [] at h
      unfold syncPublicationDate at hs
      cases hc : (creationDatesList 0 doc).head? with
      | none => rw [hc] at hs; cases hs
      | some d =>
        rw [hc] at hs
        simp only [Except.ok.injEq] at hs
        have h1 : Origin ["date"] rs doc doc2 := by
          rw [← hs]
          exact origin_modifyAt rs _ p doc (hp p (List.mem_cons_self _ _))
        have h2 : Origin ["date"] rs doc2 out := by
          apply origin_forEachPublicationDate rs paths doc2 out _ h
          intro q hq
          rw [← hs]
          rcases tagAt_modifyAt (textContent d) p q doc with h3 | h3
          · exact Or.inl h3
          · rw [h3]
            exact hp q (List.mem_cons_of_mem _ hq)
        exact originIn_mono _ _ _ _ _ _ (by simp) (by simp)
          (originIn_trans ["date"] rs ["date"] rs _ _ _ h1 h2)

theorem origin_syncPublicationDates (rs : List String) (doc out : List Node)
    (h : syncPublicationDates doc = .ok out) : Origin ["date"] rs doc out :=
  origin_forEachPublicationDate rs _ doc out
    (fun p hp => Or.inr (tagAt_of_mem_pubDatePathsList doc p hp)) h

/-! ## The callbacks keep identity, tag and attributes -/

theorem keepsShell_fixPhysDescNode : KeepsShell fixPhysDescNode := by
  intro i t a cs
  refine ⟨[Node.element none "extent" [] cs], rfl, ?_⟩
  intro j u b ds hm
  simp only [subtreeList, Node.subtree, List.append_nil, List.mem_cons] at hm
  rcases hm with hm | hm
  · exact Or.inr ⟨"extent", cs, hm, Or.inl rfl⟩
  · exact Or.inl hm

theorem keepsShell_addParagraph (text : String) : KeepsShell (addParagraph text) := by
  intro i t a cs
  refine ⟨cs ++ [Node.element none "p" [] [createTextNode (some text)]], rfl, ?_⟩
  intro j u b ds hm
  rw [subtreeList_append] at hm
  simp only [subtreeList, Node.subtree, createTextNode, List.append_nil, List.mem_append,
    List.mem_cons, List.mem_singleton, List.not_mem_nil, or_false] at hm
  rcases hm with hm | hm | hm
  · exact Or.inl hm
  · exact Or.inr ⟨"p", _, hm, Or.inr rfl⟩
  · cases hm

theorem keepsShell_normalizeLangUsage (toStr : String → String) :
    KeepsShell (normalizeLangUsage toStr) := by
  intro i t a cs
  cases cs with
  | nil => exact ⟨[], rfl, fun j u b ds hm => Or.inl hm⟩
  | cons c cs =>
    refine ⟨_, rfl, ?_⟩
    intro j u b ds hm
    simp [subtreeList, Node.subtree, createTextNode] at hm

theorem keepsShell_normalizeAuthor : KeepsShell normalizeAuthor := by
  intro i t a cs
  cases cs with
  | nil => exact ⟨[], rfl, fun j u b ds hm => Or.inl hm⟩
  | cons c cs =>
    refine ⟨_, rfl, ?_⟩
    intro j u b ds hm
    simp [subtreeList, Node.subtree, createTextNode] at hm

theorem keepsShell_normalizeTitleProper : KeepsShell normalizeTitleProper := by
  intro i t a cs
  cases cs with
  | nil => exact ⟨[], rfl, fun j u b ds hm => Or.inl hm⟩
  | cons c cs =>
    refine ⟨_, rfl, ?_⟩
    intro j u b ds hm
    simp [subtreeList, Node.subtree, createTextNode] at hm

theorem keepsShellM_normalizeSubjectTerm (sel : Node → Bool) :
    KeepsShellM sel normalizeSubjectTerm := by
  intro i t a cs cs0 r _ h
  cases cs with
  | nil => simp [normalizeSubjectTerm] at h
  | cons c rest =>
    cases hv : c.nodeValue with
    | none => simp [normalizeSubjectTerm, hv] at h
    | some term =>
      simp only [normalizeSubjectTerm, hv, Except.ok.injEq] at h
      refine ⟨a, _, h.symm, Or.inl rfl, ?_⟩
      intro j u b ds hm
      left
      simp only [subtreeList, createTextNode, Node.subtree, List.singleton_append,
        List.mem_cons, List.mem_append] at hm ⊢
      rcases hm with hm | hm
      · cases hm
      · exact Or.inr hm

theorem keepsShellM_normalizeDescRules (sel : Node → Bool)
    (stale : Node → Option (Option String)) :
    KeepsShellM sel (normalizeDescRules stale) := by
  intro i t a cs cs0 r _ h
  simp only [normalizeDescRules] at h
  by_cases hl : cs.length = 0
  · simp only [hl, if_true, Except.ok.injEq] at h
    exact ⟨a, cs, h.symm, Or.inl rfl, fun j u b ds hm => Or.inl hm⟩
  · simp only [hl, if_false] at h
    cases ht : ((subtreeList cs).filter (Node.isElementNamed "title")).head? with
    | some title =>
      rw [ht] at h
      simp only [] at h
      cases hc : title.children.head? with
      | none =>
        rw [hc] at h
        simp only [] at h
        cases hst : stale title with
        | none => rw [hst] at h; cases h
        | some v =>
          rw [hst] at h
          simp only [Except.ok.injEq] at h
          refine ⟨a, _, h.symm, Or.inl rfl, ?_⟩
          intro j u b ds hm
          cases v <;> simp [subtreeList, Node.subtree, createTextNode] at hm
      | some c0 =>
        rw [hc] at h
        simp only [Except.ok.injEq] at h
        refine ⟨a, _, h.symm, Or.inl rfl, ?_⟩
        intro j u b ds hm
        cases hv : c0.nodeValue <;>
          simp [hv, subtreeList, Node.subtree, createTextNode] at hm
    | none =>
      rw [ht] at h
      simp only [] at h
      cases hc : cs.head? with
      | none => rw [hc] at h; cases h
      | some c0 =>
        rw [hc] at h
        simp only [] at h
        cases hv : c0.nodeValue with
        | none => rw [hv] at h; cases h
        | some existingText =>
          rw [hv] at h
          simp only [Except.ok.injEq] at h
          refine ⟨a, _, h.symm, Or.inl rfl, ?_⟩
          intro j u b ds hm
          simp [subtreeList, Node.subtree, createTextNode] at hm

theorem addLangcodeAttributes_ok (i : Option Nat) (t : String) (a : List (String × String))
    (cs : List Node) (r : Node) (h : addLangcodeAttributes (.element i t a cs) = .ok r) :
    r = .element i t (setAttribute "langcode" "eng" a) cs := by
  simp only [addLangcodeAttributes] at h
  cases hc : cs.head? with
  | none => rw [hc] at h; cases h
  | some c0 =>
    rw [hc] at h
    simp only [] at h
    cases hv : c0.nodeValue with
    | none => rw [hv] at h; cases h
    | some languageText =>
      rw [hv] at h
      simp only [] at h
      by_cases he : toLowerCase languageText = "english"
      · simp only [he, if_true, Except.ok.injEq] at h
        exact h.symm
      · simp only [he, if_false] at h
        cases h

theorem hasAttribute_setAttribute (name value : String) (a : List (String × String)) :
    hasAttribute name (setAttribute name value a) = true := by
  induction a with
  | nil => simp [setAttribute, hasAttribute]
  | cons kv rest ih =>
    obtain ⟨k, v⟩ := kv
    by_cases hk : k = name
    · simp [setAttribute, hasAttribute, hk]
    · simp only [setAttribute, hk, if_false]
      simp only [hasAttribute, List.any_cons] at ih ⊢
      simp [ih]

theorem keepsShellM_addLangcodeAttributes : KeepsShellM selLanguage addLangcodeAttributes := by
  intro i t a cs cs0 r hs h
  simp only [selLanguage, Bool.and_eq_true, decide_eq_true_eq, Bool.not_eq_true'] at hs
  exact ⟨_, cs, addLangcodeAttributes_ok i t a cs r h, Or.inr ⟨hs.1, hs.2, rfl⟩,
    fun j u b ds hm => Or.inl hm⟩

/-! ## Where the elements come from, rule by rule -/

theorem origin_trans_same (ts rs : List String) (a b c : List Node)
    (h1 : Origin ts rs a b) (h2 : Origin ts rs b c) : Origin ts rs a c :=
  originIn_mono _ _ _ _ _ _ (by simp) (by simp) (originIn_trans ts rs ts rs _ _ _ h1 h2)

theorem selLacking_tag (x y : String) (ts : List String) (hx : x ∈ ts) :
    ∀ (i : Option Nat) (t : String) (a : List (String × String)) (cs : List Node),
      selLacking x y (.element i t a cs) = true → t ∈ ts := by
  intro i t a cs h
  simp only [selLacking, Node.isElementNamed, Bool.and_eq_true, decide_eq_true_eq] at h
  rw [h.1]
  exact hx

theorem isElementNamed_tag (x : String) (ts : List String) (hx : x ∈ ts) :
    ∀ (i : Option Nat) (t : String) (a : List (String × String)) (cs : List Node),
      Node.isElementNamed x (.element i t a cs) = true → t ∈ ts := by
  intro i t a cs h
  simp only [Node.isElementNamed, decide_eq_true_eq] at h
  rw [h]
  exact hx

theorem selLanguage_tag (ts : List String) (hx : "language" ∈ ts) :
    ∀ (i : Option Nat) (t : String) (a : List (String × String)) (cs : List Node),
      selLanguage (.element i t a cs) = true → t ∈ ts := by
  intro i t a cs h
  simp only [selLanguage, Bool.and_eq_true, decide_eq_true_eq] at h
  rw [h.1]
  exact hx

theorem selChildless_named (x : String) (rs : List String) (hx : x ∈ rs) :
    ∀ n, selChildless x n = true → ∃ y ∈ rs, Node.isElementNamed y n = true := by
  intro n h
  simp only [selChildless, Bool.and_eq_true] at h
  exact ⟨x, hx, h.1⟩

theorem origin_fixPhysDescs (ts rs : List String) (h : "physdesc" ∈ ts) (doc : List Node) :
    Origin ts rs doc (fixPhysDescs doc) :=
  origin_forEachInPlaceList ts rs _ _ (selLacking_tag _ _ ts h) keepsShell_fixPhysDescNode doc

theorem origin_removeEmptyParagraphs (ts rs : List String) (h : "p" ∈ rs) (doc : List Node) :
    Origin ts rs doc (removeEmptyParagraphs doc) :=
  origin_forEachRemoveNodeList ts rs _ (selChildless_named _ rs h) doc

theorem origin_fixNote (ts rs : List String) (name : String) (h1 : name ∈ ts) (h2 : name ∈ rs)
    (doc : List Node) : Origin ts rs doc (fixNote doc name) :=
  origin_trans_same ts rs _ _ _
    (origin_forEachRemoveNodeList ts rs _ (selChildless_named _ rs h2) doc)
    (origin_forEachInPlaceList ts rs _ _ (selLacking_tag _ _ ts h1)
      (keepsShell_addParagraph _) _)

theorem origin_foldl_fixNote (ts rs : List String) :
    ∀ (tags : List String) (doc : List Node), tags ⊆ ts → tags ⊆ rs →
      Origin ts rs doc (tags.foldl fixNote doc)
  | [], doc, _, _ => originIn_refl ts rs _
  | name :: tags, doc, h1, h2 => by
    rw [List.foldl_cons]
    exact origin_trans_same ts rs _ _ _
      (origin_fixNote ts rs name (h1 (List.mem_cons_self _ _)) (h2 (List.mem_cons_self _ _)) doc)
      (origin_foldl_fixNote ts rs tags _ (fun x hx => h1 (List.mem_cons_of_mem _ hx))
        (fun x hx => h2 (List.mem_cons_of_mem _ hx)))

theorem origin_removeEmptyUnitdates (ts rs : List String) (h : "unitdate" ∈ rs)
    (doc : List Node) : Origin ts rs doc (removeEmptyUnitdates doc) :=
  origin_forEachRemoveNodeList ts rs _ (selChildless_named _ rs h) doc

theorem origin_fixContainers (ts rs : List String) (h : "container" ∈ ts) (doc : List Node) :
    Origin ts rs doc (fixContainers doc) :=
  origin_forEachContainerList ts rs h doc 0

theorem processEad_ok (toStr : String → String) (doc out : List Node)
    (h : processEad toStr doc = .ok out) :
    ∃ d7 d8 d10,
      forEachInPlaceListM (Node.isElementNamed "subject") normalizeSubjectTerm
          (structuralRules doc) = .ok d7
        ∧ forEachReplaceListM (Node.isElementNamed "descrules")
        (normalizeDescRules (staleFirstChild doc)) d7 = .ok d8
        ∧ forEachInPlaceListM selLanguage addLangcodeAttributes
            (forEachReplaceList (Node.isElementNamed "langusage") (normalizeLangUsage toStr) d8)
          = .ok d10
        ∧ syncPublicationDates
            (forEachReplaceList (Node.isElementNamed "author") normalizeAuthor
              (forEachReplaceList (Node.isElementNamed "titleproper") normalizeTitleProper d10))
          = .ok out := by
  simp only [processEad, normalizeContent] at h
  cases h7 : forEachInPlaceListM (Node.isElementNamed "subject") normalizeSubjectTerm
      (structuralRules doc) with
  | error e => rw [h7] at h; cases h
  | ok d7 =>
    rw [h7] at h
    simp only [] at h
    cases h8 : forEachReplaceListM (Node.isElementNamed "descrules")
        (normalizeDescRules (staleFirstChild doc)) d7 with
    | error e => rw [h8] at h; cases h
    | ok d8 =>
      rw [h8] at h
      simp only [] at h
      cases h10 : forEachInPlaceListM selLanguage addLangcodeAttributes
          (forEachReplaceList (Node.isElementNamed "langusage") (normalizeLangUsage toStr) d8)
        with
      | error e => rw [h10] at h; cases h
      | ok d10 =>
        rw [h10] at h
        simp only [] at h
        exact ⟨d7, d8, d10, rfl, h8, h10, h⟩

theorem origin_from_language (ts rs : List String)
    (hts : ["titleproper", "author", "date"] ⊆ ts) (d10 out : List Node)
    (h : syncPublicationDates
        (forEachReplaceList (Node.isElementNamed "author") normalizeAuthor
          (forEachReplaceList (Node.isElementNamed "titleproper") normalizeTitleProper d10))
      = .ok out) : Origin ts rs d10 out :=
  origin_trans_same ts rs _ _ _
    (origin_trans_same ts rs _ _ _
      (origin_forEachReplaceList ts rs _ _ (isElementNamed_tag _ ts (hts (by simp)))
        keepsShell_normalizeTitleProper d10)
      (origin_forEachReplaceList ts rs _ _ (isElementNamed_tag _ ts (hts (by simp)))
        keepsShell_normalizeAuthor _))
    (originIn_mono _ _ _ _ _ _ (fun x hx => hts (by simp at hx; simp [hx])) (fun x hx => hx)
      (origin_syncPublicationDates rs _ out h))

theorem origin_from_structural (ts rs : List String)
    (hts : ["subject", "descrules", "langusage", "language", "titleproper", "author", "date"]
      ⊆ ts)
    (toStr : String → String) (doc out : List Node) (h : processEad toStr doc = .ok out) :
    Origin ts rs (structuralRules doc) out := by
  obtain ⟨d7, d8, d10, h7, h8, h10, h13⟩ := processEad_ok toStr doc out h
  have o7 : Origin ts rs (structuralRules doc) d7 :=
    origin_forEachInPlaceListM ts rs _ _ (isElementNamed_tag _ ts (hts (by simp)))
      (keepsShellM_normalizeSubjectTerm _) _ d7 h7
  have o8 : Origin ts rs d7 d8 :=
    origin_forEachReplaceListM ts rs _ _ (isElementNamed_tag _ ts (hts (by simp)))
      (keepsShellM_normalizeDescRules _ _) _ d8 h8
  have o9 : Origin ts rs d8
      (forEachReplaceList (Node.isElementNamed "langusage") (normalizeLangUsage toStr) d8) :=
    origin_forEachReplaceList ts rs _ _ (isElementNamed_tag _ ts (hts (by simp)))
      (keepsShell_normalizeLangUsage toStr) d8
  have o10 : Origin ts rs
      (forEachReplaceList (Node.isElementNamed "langusage") (normalizeLangUsage toStr) d8) d10 :=
    origin_forEachInPlaceListM ts rs _ _ (selLanguage_tag ts (hts (by simp)))
      keepsShellM_addLangcodeAttributes _ d10 h10
  have o13 : Origin ts rs d10 out :=
    origin_from_language ts rs (fun x hx => hts (by simp at hx; rcases hx with h | h | h <;> simp [h]))
      d10 out h13
  exact origin_trans_same ts rs _ _ _ o7
    (origin_trans_same ts rs _ _ _ o8
      (origin_trans_same ts rs _ _ _ o9 (origin_trans_same ts rs _ _ _ o10 o13)))

theorem origin_from_notes (ts rs : List String)
    (hts : ["container", "subject", "descrules", "langusage", "language", "titleproper",
      "author", "date"] ⊆ ts) (hrs : "unitdate" ∈ rs)
    (toStr : String → String) (doc out : List Node) (h : processEad toStr doc = .ok out) :
    Origin ts rs (fixNotes (removeEmptyParagraphs (fixPhysDescs doc))) out :=
  origin_trans_same ts rs _ _ _
    (origin_trans_same ts rs _ _ _
      (origin_removeEmptyUnitdates ts rs hrs _)
      (origin_fixContainers ts rs (hts (by simp)) _))
    (origin_from_structural ts rs
      (fun x hx => hts (by
        simp at hx
        rcases hx with h | h | h | h | h | h | h <;> simp [h]))
      toStr doc out h)

theorem origin_from_physdesc (ts rs : List String)
    (hts : ["container", "subject", "descrules", "langusage", "language", "titleproper",
      "author", "date"] ++ noteTypes ⊆ ts) (hrs : "p" :: "unitdate" :: noteTypes ⊆ rs)
    (toStr : String → String) (doc out : List Node) (h : processEad toStr doc = .ok out) :
    Origin ts rs (fixPhysDescs doc) out :=
  origin_trans_same ts rs _ _ _
    (origin_trans_same ts rs _ _ _
      (origin_removeEmptyParagraphs ts rs (hrs (by simp)) _)
      (origin_foldl_fixNote ts rs noteTypes _
        (fun x hx => hts (List.mem_append_right _ hx))
        (fun x hx => hrs (List.mem_cons_of_mem _ (List.mem_cons_of_mem _ hx)))))
    (origin_from_notes ts rs (fun x hx => hts (List.mem_append_left _ hx))
      (hrs (by simp)) toStr doc out h)

theorem origin_processEad (ts rs : List String)
    (hts : "physdesc" :: (["container", "subject", "descrules", "langusage", "language",
      "titleproper", "author", "date"] ++ noteTypes) ⊆ ts)
    (hrs : "p" :: "unitdate" :: noteTypes ⊆ rs)
    (toStr : String → String) (doc out : List Node) (h : processEad toStr doc = .ok out) :
    Origin ts rs doc out :=
  origin_trans_same ts rs _ _ _
    (origin_fixPhysDescs ts rs (hts (by simp)) doc)
    (origin_from_physdesc ts rs (fun x hx => hts (List.mem_cons_of_mem _ hx)) hrs
      toStr doc out h)

/-! ## Claims C13, C14, C15: what holds in every result -/

theorem hasChild_of_origin (ts rs : List String) (x y : String) (hx : x ∉ ts) (hy : y ∉ rs)
    (hxe : x ≠ "extent") (hxp : x ≠ "p") (src out : List Node) (h : Origin ts rs src out)
    (hsrc : ∀ n ∈ subtreeList src, Node.isElementNamed x n = true → n.hasChild y = true) :
    ∀ n ∈ subtreeList out, Node.isElementNamed x n = true → n.hasChild y = true := by
  intro n hn hnamed
  cases n with
  | text s => simp [Node.isElementNamed] at hnamed
  | comment s => simp [Node.isElementNamed] at hnamed
  | element i t a2 cs2 =>
    have ht : t = x := by simpa [Node.isElementNamed] using hnamed
    rcases h i t a2 cs2 hn with ⟨t0, cs0, heq, ht0⟩ | ⟨a, cs, hs, _, hk⟩
    · simp only [Node.element.injEq] at heq
      rw [← heq.2.1, ht] at ht0
      rcases ht0 with h0 | h0
      · exact absurd h0 hxe
      · exact absurd h0 hxp
    · have h1 := hsrc _ hs (by simp [Node.isElementNamed, ht])
      exact (hk (by rw [ht]; exact hx)).1 y hy h1

mutual
theorem established_forEachInPlace (x y : String) (f : Node → Node) (hf : KeepsShell f)
    (hadd : ∀ i t a cs, (f (.element i t a cs)).hasChild y = true)
    (hxe : x ≠ "extent") (hxp : x ≠ "p") :
    ∀ n : Node, ∀ m ∈ (forEachInPlace (selLacking x y) f n).subtree,
      Node.isElementNamed x m = true → m.hasChild y = true
  | .text s => by
    intro m hm hnamed
    simp only [forEachInPlace, Node.subtree, List.mem_singleton] at hm
    rw [hm] at hnamed
    simp [Node.isElementNamed] at hnamed
  | .comment s => by
    intro m hm hnamed
    simp only [forEachInPlace, Node.subtree, List.mem_singleton] at hm
    rw [hm] at hnamed
    simp [Node.isElementNamed] at hnamed
  | .element i t a cs => by
    have ih := established_forEachInPlaceList x y f hf hadd hxe hxp cs
    intro m hm hnamed
    unfold forEachInPlace at hm
    by_cases hs : selLacking x y (.element i t a cs) = true
    · simp only [hs, if_true] at hm
      obtain ⟨cs2, h, hsub⟩ := hf i t a (forEachInPlaceList (selLacking x y) f cs)
      have hadd2 := hadd i t a (forEachInPlaceList (selLacking x y) f cs)
      rw [h] at hm hadd2
      simp only [Node.subtree, List.mem_cons] at hm
      rcases hm with hm | hm
      · rw [hm]
        exact hadd2
      · cases m with
        | text s => simp [Node.isElementNamed] at hnamed
        | comment s => simp [Node.isElementNamed] at hnamed
        | element j u b ds =>
          rcases hsub j u b ds hm with hm2 | ⟨t0, cs0, heq, ht0⟩
          · exact ih _ hm2 hnamed
          · exfalso
            simp only [Node.element.injEq] at heq
            have hu : u = x := by simpa [Node.isElementNamed] using hnamed
            rw [← heq.2.1, hu] at ht0
            rcases ht0 with h0 | h0
            · exact hxe h0
            · exact hxp h0
    · simp only [hs, Bool.false_eq_true, if_false, Node.subtree, List.mem_cons] at hm
      rcases hm with hm | hm
      · rw [hm] at hnamed ⊢
        have hn0 : Node.isElementNamed x (.element i t a cs) = true := by
          simpa [Node.isElementNamed] using hnamed
        have h1 : Node.hasChild y (.element i t a cs) = true := by
          simp only [selLacking, hn0, Bool.true_and, Bool.not_eq_true', Bool.not_eq_false] at hs
          exact hs
        exact (forEachInPlaceList_keepChildren (selLacking x y) f hf [] cs).1 y (by simp) h1
      · exact ih _ hm hnamed
theorem established_forEachInPlaceList (x y : String) (f : Node → Node) (hf : KeepsShell f)
    (hadd : ∀ i t a cs, (f (.element i t a cs)).hasChild y = true)
    (hxe : x ≠ "extent") (hxp : x ≠ "p") :
    ∀ cs : List Node, ∀ m ∈ subtreeList (forEachInPlaceList (selLacking x y) f cs),
      Node.isElementNamed x m = true → m.hasChild y = true
  | [] => by intro m hm; simp [forEachInPlaceList, subtreeList] at hm
  | c :: cs => by
    intro m hm hnamed
    simp only [forEachInPlaceList, subtreeList, List.mem_append] at hm
    rcases hm with hm | hm
    · exact established_forEachInPlace x y f hf hadd hxe hxp c m hm hnamed
    · exact established_forEachInPlaceList x y f hf hadd hxe hxp cs m hm hnamed
end

theorem physdesc_has_extent_after_rule (doc : List Node) :
    ∀ m ∈ subtreeList (fixPhysDescs doc),
      Node.isElementNamed "physdesc" m = true → m.hasChild "extent" = true :=
  established_forEachInPlaceList "physdesc" "extent" fixPhysDescNode keepsShell_fixPhysDescNode
    (fun i t a cs => by simp [fixPhysDescNode, Node.hasChild, Node.children, Node.isElementNamed])
    (by decide) (by decide) doc

/-- Claim C13 as stated fails: a physdesc that comes with two extent children
is not selected by line 87 and keeps both.  In the second document the
physdesc is in the namespace of the default namespace declaration; line 87
does not select it and it stays without extent child. -/
theorem processEad_keeps_two_extents :
    processEad id [Node.element (some 1) "ead" []
          [.element (some 2) "physdesc" []
            [.element (some 3) "extent" [] [.text "1 box"],
              .element (some 4) "extent" [] [.text "12 folders"]]]]
        = .ok [Node.element (some 1) "ead" []
          [.element (some 2) "physdesc" []
            [.element (some 3) "extent" [] [.text "1 box"],
              .element (some 4) "extent" [] [.text "12 folders"]]]]
      ∧ ([Node.element (some 3) "extent" [] [.text "1 box"],
            Node.element (some 4) "extent" [] [.text "12 folders"]].filter
          (Node.isElementNamed "extent")).length = 2
      ∧ processEad id [Node.element (some 1) (expandedName (some "urn:isbn:1-931666-22-9") "ead")
          [("xmlns", "urn:isbn:1-931666-22-9")]
          [.element (some 2) (expandedName (some "urn:isbn:1-931666-22-9") "physdesc") []
            [.text "1 box"]]]
        = .ok [Node.element (some 1) (expandedName (some "urn:isbn:1-931666-22-9") "ead")
          [("xmlns", "urn:isbn:1-931666-22-9")]
          [.element (some 2) (expandedName (some "urn:isbn:1-931666-22-9") "physdesc") []
            [.text "1 box"]]] := by
  decide

/-- Claim C13, amended: when `processEad` succeeds, every physdesc element in
no namespace of the result has at least one extent child in no namespace. -/
theorem processEad_physdesc_has_extent (toStr : String → String) (doc out : List Node)
    (h : processEad toStr doc = .ok out) :
    ∀ n ∈ subtreeList out, Node.isElementNamed "physdesc" n = true →
      n.hasChild "extent" = true :=
  hasChild_of_origin
    (["container", "subject", "descrules", "langusage", "language", "titleproper", "author",
      "date"] ++ noteTypes) ("p" :: "unitdate" :: noteTypes) "physdesc" "extent"
    (by decide) (by decide) (by decide) (by decide) _ _
    (origin_from_physdesc _ _ (fun _ hx => hx) (fun _ hx => hx) toStr doc out h)
    (physdesc_has_extent_after_rule doc)

/-- Claim C13, amended, at the example of the source comment. -/
theorem processEad_physdesc_has_extent_witness :
    processEad id [Node.element (some 1) "physdesc" [("label", "Extent:")]
          [.text ".5 linear feet (1 box)"]]
        = .ok [Node.element (some 1) "physdesc" [("label", "Extent:")]
          [.element none "extent" [] [.text ".5 linear feet (1 box)"]]]
      ∧ ∀ n ∈ subtreeList [Node.element (some 1) "physdesc" [("label", "Extent:")]
          [.element none "extent" [] [.text ".5 linear feet (1 box)"]]],
        Node.isElementNamed "physdesc" n = true → n.hasChild "extent" = true :=
  ⟨by decide, processEad_physdesc_has_extent id
    [Node.element (some 1) "physdesc" [("label", "Extent:")] [.text ".5 linear feet (1 box)"]]
    _ (by decide)⟩

theorem hasChild_addParagraph (text : String) (i : Option Nat) (t : String)
    (a : List (String × String)) (cs : List Node) :
    (addParagraph text (.element i t a cs)).hasChild "p" = true := by
  simp [addParagraph, Node.hasChild, Node.children, Node.isElementNamed]

theorem notes_have_paragraph_foldl :
    ∀ (todo done : List String) (doc : List Node),
      (∀ name ∈ done ++ todo, name ≠ "extent" ∧ name ≠ "p") →
      (∀ n ∈ subtreeList doc, ∀ name ∈ done,
        Node.isElementNamed name n = true → n.hasChild "p" = true) →
      ∀ n ∈ subtreeList (todo.foldl fixNote doc), ∀ name ∈ done ++ todo,
        Node.isElementNamed name n = true → n.hasChild "p" = true
  | [], done, doc, _, h => by simpa using h
  | tag :: todo, done, doc, hne, h => by
    have hstep : ∀ n ∈ subtreeList (fixNote doc tag), ∀ name ∈ done ++ [tag],
        Node.isElementNamed name n = true → n.hasChild "p" = true := by
      intro n hn name hname hnamed
      have hne2 := hne name (by
        rcases List.mem_append.mp hname with h1 | h1
        · exact List.mem_append_left _ h1
        · exact List.mem_append_right _ (by simp at h1; simp [h1]))
      by_cases heq : name = tag
      · rw [heq] at hnamed hne2
        exact established_forEachInPlaceList tag "p" (addParagraph "Not Specified")
          (keepsShell_addParagraph _) (hasChild_addParagraph _) hne2.1 hne2.2 _ n hn hnamed
      · have hdone : name ∈ done := by
          rcases List.mem_append.mp hname with h1 | h1
          · exact h1
          · simp at h1
            exact absurd h1 heq
        have htag := hne tag (List.mem_append_right _ (List.mem_cons_self _ _))
        exact hasChild_of_origin [tag] [tag] name "p" (by simpa using heq)
          (by simpa using fun h0 => htag.2 h0.symm) hne2.1 hne2.2 doc _
          (origin_fixNote [tag] [tag] tag (by simp) (by simp) doc)
          (fun n0 hn0 hnamed0 => h n0 hn0 name hdone hnamed0) n hn hnamed
    have := notes_have_paragraph_foldl todo (done ++ [tag]) (fixNote doc tag)
      (by simpa using hne) hstep
    simpa using this

/-- Claim C14 as stated fails: in a document with a default namespace
declaration the bioghist elements are in that namespace, lines 107 and 112
select nothing, and the result has a bioghist without children and one without
p child. -/
theorem processEad_keeps_namespaced_notes :
    processEad id [Node.element (some 1) (expandedName (some "urn:isbn:1-931666-22-9") "ead")
          [("xmlns", "urn:isbn:1-931666-22-9")]
          [.element (some 2) (expandedName (some "urn:isbn:1-931666-22-9") "bioghist") [] [],
            .element (some 3) (expandedName (some "urn:isbn:1-931666-22-9") "bioghist") []
              [.text "Born in Ohio."]]]
      = .ok [Node.element (some 1) (expandedName (some "urn:isbn:1-931666-22-9") "ead")
          [("xmlns", "urn:isbn:1-931666-22-9")]
          [.element (some 2) (expandedName (some "urn:isbn:1-931666-22-9") "bioghist") [] [],
            .element (some 3) (expandedName (some "urn:isbn:1-931666-22-9") "bioghist") []
              [.text "Born in Ohio."]]] := by
  decide

/-- Claim C14, amended: when `processEad` succeeds, every element in no
namespace of the result whose name is one of the nine note tags has a p child
in no namespace, hence at least one child. -/
theorem processEad_note_has_paragraph (toStr : String → String) (doc out : List Node)
    (h : processEad toStr doc = .ok out) :
    ∀ n ∈ subtreeList out, ∀ name ∈ noteTypes, Node.isElementNamed name n = true →
      n.hasChild "p" = true ∧ n.children ≠ [] := by
  intro n hn name hname hnamed
  have h1 : ∀ n ∈ subtreeList (fixNotes (removeEmptyParagraphs (fixPhysDescs doc))),
      Node.isElementNamed name n = true → n.hasChild "p" = true := by
    intro n0 hn0 hnamed0
    exact notes_have_paragraph_foldl noteTypes [] _ (by decide) (by simp) n0 hn0 name
      (by simpa using hname) hnamed0
  have hts : ∀ name ∈ noteTypes, name ∉ ["container", "subject", "descrules", "langusage",
      "language", "titleproper", "author", "date"] ∧ name ≠ "extent" ∧ name ≠ "p" := by
    decide
  have h2 := hasChild_of_origin _ ["unitdate"] name "p" (hts name hname).1 (by decide)
    (hts name hname).2.1 (hts name hname).2.2 _ out
    (origin_from_notes _ _ (fun _ hx => hx) (by simp) toStr doc out h) h1 n hn hnamed
  refine ⟨h2, ?_⟩
  intro hc
  simp [Node.hasChild, hc] at h2

/-- Claim C14, amended, at a document with an empty note inside a note, a note without
paragraph and a note with one. -/
theorem processEad_note_has_paragraph_witness :
    processEad id [Node.element (some 1) "ead" []
          [.element (some 2) "bioghist" [] [.element (some 3) "bioghist" [] []],
            .element (some 4) "scopecontent" [] [.text "Letters."],
            .element (some 5) "accruals" [] [.element (some 6) "p" [] [.text "None."]]]]
        = .ok [Node.element (some 1) "ead" []
          [.element (some 2) "bioghist" [] [.element none "p" [] [.text "Not Specified"]],
            .element (some 4) "scopecontent" []
              [.text "Letters.", .element none "p" [] [.text "Not Specified"]],
            .element (some 5) "accruals" [] [.element (some 6) "p" [] [.text "None."]]]]
      ∧ ∀ n ∈ subtreeList [Node.element (some 1) "ead" []
          [.element (some 2) "bioghist" [] [.element none "p" [] [.text "Not Specified"]],
            .element (some 4) "scopecontent" []
              [.text "Letters.", .element none "p" [] [.text "Not Specified"]],
            .element (some 5) "accruals" [] [.element (some 6) "p" [] [.text "None."]]]],
        ∀ name ∈ noteTypes, Node.isElementNamed name n = true →
          n.hasChild "p" = true ∧ n.children ≠ [] :=
  ⟨by decide, processEad_note_has_paragraph id
    [Node.element (some 1) "ead" []
      [.element (some 2) "bioghist" [] [.element (some 3) "bioghist" [] []],
        .element (some 4) "scopecontent" [] [.text "Letters."],
        .element (some 5) "accruals" [] [.element (some 6) "p" [] [.text "None."]]]]
    _ (by decide)⟩

theorem hasAttribute_of_getAttribute (name v : String) (a : List (String × String))
    (h : getAttribute name a = some v) : hasAttribute name a = true := by
  induction a with
  | nil => simp [getAttribute] at h
  | cons kv rest ih =>
    obtain ⟨k, w⟩ := kv
    by_cases hk : k = name
    · simp [hasAttribute, hk]
    · simp only [getAttribute, hk, if_false] at h
      have := ih h
      simp only [hasAttribute, List.any_cons] at this ⊢
      simp [this]

theorem hasAttribute_of_attrStep (t : String) (a a2 : List (String × String))
    (h : AttrStep t a a2) (ha : hasAttribute "langcode" a = true) :
    hasAttribute "langcode" a2 = true := by
  rcases h with h | ⟨_, _, h⟩
  · rw [h]
    exact ha
  · rw [h]
    exact hasAttribute_setAttribute _ _ _

mutual
theorem language_has_langcode_forEachInPlaceM :
    ∀ n r : Node, forEachInPlaceM selLanguage addLangcodeAttributes n = .ok r →
      ∀ i t a cs, Node.element i t a cs ∈ r.subtree → t = "language" →
        hasAttribute "langcode" a = true
  | .text s, r, h => by
    simp only [forEachInPlaceM, Except.ok.injEq] at h
    rw [← h]
    intro i t a cs hm
    simp [Node.subtree] at hm
  | .comment s, r, h => by
    simp only [forEachInPlaceM, Except.ok.injEq] at h
    rw [← h]
    intro i t a cs hm
    simp [Node.subtree] at hm
  | .element i0 t0 a0 cs0, r, h => by
    unfold forEachInPlaceM at h
    split at h
    · cases h
    · split at h
      · cases h
      · rename_i cs2 hl
        have ih := language_has_langcode_forEachInPlaceListM cs0 cs2 hl
        intro i t a cs hm ht
        by_cases hs : selLanguage (.element i0 t0 a0 cs0) = true
        · simp only [hs, if_true] at h
          have hr := addLangcodeAttributes_ok i0 t0 a0 cs2 r h
          rw [hr] at hm
          simp only [Node.subtree, List.mem_cons, Node.element.injEq] at hm
          rcases hm with hm | hm
          · rw [hm.2.2.1]
            exact hasAttribute_setAttribute _ _ _
          · exact ih i t a cs hm ht
        · simp only [hs, Bool.false_eq_true, if_false, Except.ok.injEq] at h
          rw [← h] at hm
          simp only [Node.subtree, List.mem_cons, Node.element.injEq] at hm
          rcases hm with hm | hm
          · obtain ⟨_, h2, h3, _⟩ := hm
            rw [← h2, ← h3, ht] at hs
            simpa [selLanguage] using hs
          · exact ih i t a cs hm ht
theorem language_has_langcode_forEachInPlaceListM :
    ∀ cs r : List Node, forEachInPlaceListM selLanguage addLangcodeAttributes cs = .ok r →
      ∀ i t a ds, Node.element i t a ds ∈ subtreeList r → t = "language" →
        hasAttribute "langcode" a = true
  | [], r, h => by
    simp only [forEachInPlaceListM, Except.ok.injEq] at h
    rw [← h]
    intro i t a ds hm
    simp [subtreeList] at hm
  | c :: cs, r, h => by
    unfold forEachInPlaceListM at h
    split at h
    · cases h
    · rename_i c2 hc
      split at h
      · cases h
      · rename_i cs2 hcs
        cases h
        intro i t a ds hm ht
        simp only [subtreeList, List.mem_append] at hm
        rcases hm with hm | hm
        · exact language_has_langcode_forEachInPlaceM c c2 hc i t a ds hm ht
        · exact language_has_langcode_forEachInPlaceListM cs cs2 hcs i t a ds hm ht
end

/-- Claim C15 as stated fails: in a document with a default namespace
declaration the language element is in that namespace, line 150 does not select
it, and it is in the result without langcode attribute. -/
theorem processEad_keeps_namespaced_language :
    processEad id [Node.element (some 1) (expandedName (some "urn:isbn:1-931666-22-9") "ead")
          [("xmlns", "urn:isbn:1-931666-22-9")]
          [.element (some 2) (expandedName (some "urn:isbn:1-931666-22-9") "language") []
            [.text "English"]]]
      = .ok [Node.element (some 1) (expandedName (some "urn:isbn:1-931666-22-9") "ead")
          [("xmlns", "urn:isbn:1-931666-22-9")]
          [.element (some 2) (expandedName (some "urn:isbn:1-931666-22-9") "language") []
            [.text "English"]]] := by
  decide

/-- Claim C15, amended: when `processEad` succeeds, every language element in
no namespace of the result carries a langcode attribute; and when the elements
with identity `k` all
carry langcode = `v` in the input, so do the elements with identity `k` in the
result: a langcode that was present keeps its value. -/
theorem processEad_language_has_langcode (toStr : String → String) (doc out : List Node)
    (h : processEad toStr doc = .ok out) :
    (∀ i t a cs, Node.element i t a cs ∈ subtreeList out → t = "language" →
        hasAttribute "langcode" a = true)
      ∧ (∀ (k : Nat) (v : String),
        (∀ n ∈ subtreeList doc, n.oid = some k → getAttribute "langcode" n.attrs = some v) →
        ∀ m ∈ subtreeList out, m.oid = some k → getAttribute "langcode" m.attrs = some v) := by
  constructor
  · obtain ⟨d7, d8, d10, _, _, h10, h13⟩ := processEad_ok toStr doc out h
    have ho := origin_from_language ["titleproper", "author", "date"] [] (fun _ hx => hx)
      d10 out h13
    intro i t a cs hm ht
    rcases ho i t a cs hm with ⟨t0, cs0, heq, ht0⟩ | ⟨a0, cs1, hs, ha, _⟩
    · exfalso
      simp only [Node.element.injEq] at heq
      rw [← heq.2.1, ht] at ht0
      rcases ht0 with h0 | h0 <;> simp at h0
    · exact hasAttribute_of_attrStep t a0 a ha
        (language_has_langcode_forEachInPlaceListM _ d10 h10 i t a0 cs1 hs ht)
  · intro k v hsrc m hm hoid
    cases m with
    | text s => simp [Node.oid] at hoid
    | comment s => simp [Node.oid] at hoid
    | element i t a cs =>
      have ho := origin_processEad _ _ (fun _ hx => hx) (fun _ hx => hx) toStr doc out h
      simp only [Node.oid] at hoid
      rcases ho i t a cs hm with ⟨t0, cs0, heq, _⟩ | ⟨a0, cs1, hs, ha, _⟩
      · exfalso
        simp only [Node.element.injEq] at heq
        rw [heq.1] at hoid
        cases hoid
      · have h1 := hsrc _ hs (by simp [Node.oid, hoid])
        simp only [Node.attrs] at h1 ⊢
        rcases ha with ha | ⟨_, hno, _⟩
        · rw [ha]
          exact h1
        · rw [hasAttribute_of_getAttribute _ _ _ h1] at hno
          cases hno

/-- Claim C15, amended, at a document with an English language element without langcode
and one that comes with langcode "en". -/
theorem processEad_language_has_langcode_witness :
    processEad id [Node.element (some 1) "ead" []
          [.element (some 2) "language" [] [.text "English"],
            .element (some 3) "language" [("langcode", "en")] [.text "English"]]]
        = .ok [Node.element (some 1) "ead" []
          [.element (some 2) "language" [("langcode", "eng")] [.text "English"],
            .element (some 3) "language" [("langcode", "en")] [.text "English"]]]
      ∧ ∀ m ∈ subtreeList [Node.element (some 1) "ead" []
          [.element (some 2) "language" [("langcode", "eng")] [.text "English"],
            .element (some 3) "language" [("langcode", "en")] [.text "English"]]],
        m.oid = some 3 → getAttribute "langcode" m.attrs = some "en" :=
  ⟨by decide, (processEad_language_has_langcode id
    [Node.element (some 1) "ead" []
      [.element (some 2) "language" [] [.text "English"],
        .element (some 3) "language" [("langcode", "en")] [.text "English"]]]
    _ (by decide)).2 3 "en" (by decide)⟩

/-! ## Claim C4: empty paragraphs leave the tree -/

mutual
theorem kept_forEachRemoveNode (sel : Node → Bool) :
    ∀ n : Node, sel n = false →
      ∀ i t a cs2, Node.element i t a cs2 ∈ (forEachRemoveNode sel n).subtree →
        ∃ cs, Node.element i t a cs ∈ n.subtree ∧ sel (.element i t a cs) = false
  | .text s, _ => by intro i t a cs2 hm; simp [forEachRemoveNode, Node.subtree] at hm
  | .comment s, _ => by intro i t a cs2 hm; simp [forEachRemoveNode, Node.subtree] at hm
  | .element i0 t0 a0 cs0, h0 => by
    have ih := kept_forEachRemoveNodeList sel cs0
    intro i t a cs2 hm
    simp only [forEachRemoveNode, Node.subtree, List.mem_cons] at hm
    rcases hm with hm | hm
    · simp only [Node.element.injEq] at hm
      obtain ⟨h1, h2, h3, _⟩ := hm
      subst h1 h2 h3
      exact ⟨cs0, by simp [Node.subtree], h0⟩
    · obtain ⟨cs, hs, r⟩ := ih i t a cs2 hm
      exact ⟨cs, by simp [Node.subtree, hs], r⟩
theorem kept_forEachRemoveNodeList (sel : Node → Bool) :
    ∀ cs0 : List Node, ∀ i t a cs2,
      Node.element i t a cs2 ∈ subtreeList (forEachRemoveNodeList sel cs0) →
      ∃ cs, Node.element i t a cs ∈ subtreeList cs0 ∧ sel (.element i t a cs) = false
  | [] => by intro i t a cs2 hm; simp [forEachRemoveNodeList, subtreeList] at hm
  | c :: cs0 => by
    intro i t a cs2 hm
    by_cases hs : sel c = true
    · simp only [forEachRemoveNodeList, hs, if_true] at hm
      obtain ⟨cs, h1, h2⟩ := kept_forEachRemoveNodeList sel cs0 i t a cs2 hm
      exact ⟨cs, by simp [subtreeList, h1], h2⟩
    · simp only [forEachRemoveNodeList, hs, Bool.false_eq_true, if_false, subtreeList,
        List.mem_append] at hm
      rcases hm with hm | hm
      · obtain ⟨cs, h1, h2⟩ := kept_forEachRemoveNode sel c (by simpa using hs) i t a cs2 hm
        exact ⟨cs, by simp [subtreeList, h1], h2⟩
      · obtain ⟨cs, h1, h2⟩ := kept_forEachRemoveNodeList sel cs0 i t a cs2 hm
        exact ⟨cs, by simp [subtreeList, h1], h2⟩
end

theorem oid_of_origin (ts rs : List String) (src out : List Node) (h : Origin ts rs src out)
    (k : Nat) (hsrc : ∀ n ∈ subtreeList src, n.oid ≠ some k) :
    ∀ m ∈ subtreeList out, m.oid ≠ some k := by
  intro m hm hoid
  cases m with
  | text s => simp [Node.oid] at hoid
  | comment s => simp [Node.oid] at hoid
  | element i t a cs =>
    simp only [Node.oid] at hoid
    rcases h i t a cs hm with ⟨t0, cs0, heq, _⟩ | ⟨a0, cs1, hs, _, _⟩
    · simp only [Node.element.injEq] at heq
      rw [heq.1] at hoid
      cases hoid
    · exact hsrc _ hs (by simp [Node.oid, hoid])

theorem childless_of_origin (ts rs : List String) (src out : List Node)
    (h : Origin ts rs src out) (k : Nat) (x : String) (hx : x ∉ ts)
    (hsrc : ∀ n ∈ subtreeList src, n.oid = some k → selChildless x n = true) :
    ∀ m ∈ subtreeList out, m.oid = some k → selChildless x m = true := by
  intro m hm hoid
  cases m with
  | text s => simp [Node.oid] at hoid
  | comment s => simp [Node.oid] at hoid
  | element i t a cs =>
    simp only [Node.oid] at hoid
    rcases h i t a cs hm with ⟨t0, cs0, heq, _⟩ | ⟨a0, cs1, hs, _, hk⟩
    · simp only [Node.element.injEq] at heq
      rw [heq.1] at hoid
      cases hoid
    · have h1 := hsrc _ hs (by simp [Node.oid, hoid])
      simp only [selChildless, Node.isElementNamed, Node.childless, Node.children,
        Bool.and_eq_true, decide_eq_true_eq, List.isEmpty_iff] at h1 ⊢
      exact ⟨h1.1, (hk (by rw [h1.1]; exact hx)).2 h1.2⟩

theorem removed_of_childless (x : String) (doc : List Node) (k : Nat)
    (hsrc : ∀ n ∈ subtreeList doc, n.oid = some k → selChildless x n = true) :
    ∀ m ∈ subtreeList (forEachRemoveNodeList (selChildless x) doc), m.oid ≠ some k := by
  intro m hm hoid
  cases m with
  | text s => simp [Node.oid] at hoid
  | comment s => simp [Node.oid] at hoid
  | element i t a cs =>
    obtain ⟨cs0, h1, h2⟩ := kept_forEachRemoveNodeList (selChildless x) doc i t a cs hm
    have h3 := hsrc _ h1 (by simpa [Node.oid] using hoid)
    rw [h3] at h2
    cases h2

theorem origin_from_paragraphs (ts rs : List String)
    (hts : ["container", "subject", "descrules", "langusage", "language", "titleproper",
      "author", "date"] ++ noteTypes ⊆ ts) (hrs : "unitdate" :: noteTypes ⊆ rs)
    (toStr : String → String) (doc out : List Node) (h : processEad toStr doc = .ok out) :
    Origin ts rs (removeEmptyParagraphs (fixPhysDescs doc)) out :=
  origin_trans_same ts rs _ _ _
    (origin_foldl_fixNote ts rs noteTypes _
      (fun x hx => hts (List.mem_append_right _ hx))
      (fun x hx => hrs (List.mem_cons_of_mem _ hx)))
    (origin_from_notes ts rs (fun x hx => hts (List.mem_append_left _ hx))
      (hrs (by simp)) toStr doc out h)

/-- Claim C4 as stated fails: in a document with a default namespace
declaration the p element is in that namespace, line 93 selects nothing and the
empty p stays in the result. -/
theorem processEad_keeps_namespaced_empty_paragraph :
    processEad id [Node.element (some 1) (expandedName (some "urn:isbn:1-931666-22-9") "ead")
          [("xmlns", "urn:isbn:1-931666-22-9")]
          [.element (some 2) (expandedName (some "urn:isbn:1-931666-22-9") "p") [] []]]
      = .ok [Node.element (some 1) (expandedName (some "urn:isbn:1-931666-22-9") "ead")
          [("xmlns", "urn:isbn:1-931666-22-9")]
          [.element (some 2) (expandedName (some "urn:isbn:1-931666-22-9") "p") [] []]] := by
  decide

/-- Claim C4, amended: let the element objects with identity `k` be p elements
in no namespace without children in the input.  When `processEad` succeeds, no
node of the result has identity `k`: the element is detached at line 93 and
nothing hangs it back. -/
theorem processEad_removes_empty_paragraph (toStr : String → String) (doc out : List Node)
    (k : Nat) (h : processEad toStr doc = .ok out)
    (hp : ∀ n ∈ subtreeList doc, n.oid = some k → selChildless "p" n = true) :
    ∀ m ∈ subtreeList out, m.oid ≠ some k := by
  have h1 : ∀ n ∈ subtreeList (fixPhysDescs doc), n.oid = some k → selChildless "p" n = true :=
    childless_of_origin ["physdesc"] [] doc _ (origin_fixPhysDescs _ _ (by simp) doc) k "p"
      (by decide) hp
  have h2 : ∀ m ∈ subtreeList (removeEmptyParagraphs (fixPhysDescs doc)), m.oid ≠ some k :=
    removed_of_childless "p" _ k h1
  exact oid_of_origin _ _ _ out
    (origin_from_paragraphs _ _ (fun _ hx => hx) (fun _ hx => hx) toStr doc out h) k h2

/-- Claim C4, amended, at a document with one empty p (identity 3) next to a p with
text. -/
theorem processEad_removes_empty_paragraph_witness :
    (∀ n ∈ subtreeList [Node.element (some 1) "ead" []
          [.element (some 2) "p" [] [.text "Letters."], .element (some 3) "p" [] []]],
        n.oid = some 3 → selChildless "p" n = true)
      ∧ processEad id [Node.element (some 1) "ead" []
          [.element (some 2) "p" [] [.text "Letters."], .element (some 3) "p" [] []]]
        = .ok [Node.element (some 1) "ead" [] [.element (some 2) "p" [] [.text "Letters."]]]
      ∧ ∀ m ∈ subtreeList [Node.element (some 1) "ead" []
          [.element (some 2) "p" [] [.text "Letters."]]], m.oid ≠ some 3 :=
  ⟨by decide, by decide, processEad_removes_empty_paragraph id
    [Node.element (some 1) "ead" []
      [.element (some 2) "p" [] [.text "Letters."], .element (some 3) "p" [] []]]
    _ 3 (by decide) (by decide)⟩

/-! ## Claim C3: the loop over the note tags -/

theorem hasChild_forEachRemoveNodeList (sel : Node → Bool) (y : String)
    (hsel : ∀ n, sel n = true → Node.isElementNamed y n = false) (cs : List Node) :
    (forEachRemoveNodeList sel cs).any (Node.isElementNamed y)
      = cs.any (Node.isElementNamed y) := by
  induction cs with
  | nil => rfl
  | cons c cs ih =>
    by_cases hs : sel c = true
    · simp [forEachRemoveNodeList, hs, ih, hsel c hs]
    · simp [forEachRemoveNodeList, hs, ih, forEachRemoveNode_named]

theorem removed_note_foldl (k : Nat) (name : String) (hne : name ≠ "p") :
    ∀ (tags : List String) (doc : List Node), name ∈ tags →
      (∀ n ∈ subtreeList doc, n.oid = some k → selChildless name n = true) →
      ∀ m ∈ subtreeList (tags.foldl fixNote doc), m.oid ≠ some k
  | [], _, h, _ => by cases h
  | tag :: tags, doc, hmem, hsrc => by
    rw [List.foldl_cons]
    by_cases heq : tag = name
    · rw [heq]
      have h1 : ∀ m ∈ subtreeList (fixNote doc name), m.oid ≠ some k :=
        oid_of_origin [name] [] _ _
          (origin_forEachInPlaceList [name] [] _ _ (selLacking_tag _ _ _ (by simp))
            (keepsShell_addParagraph _) _) k
          (removed_of_childless name doc k hsrc)
      exact oid_of_origin tags tags _ _
        (origin_foldl_fixNote tags tags tags _ (fun _ hx => hx) (fun _ hx => hx)) k h1
    · have hmem2 : name ∈ tags := by
        rcases List.mem_cons.mp hmem with h1 | h1
        · exact absurd h1.symm heq
        · exact h1
      exact removed_note_foldl k name hne tags (fixNote doc tag) hmem2
        (childless_of_origin [tag] [tag] doc _ (origin_fixNote _ _ tag (by simp) (by simp) doc)
          k name (by simpa using fun h0 => heq h0.symm) hsrc)

/-- Claim C3 as stated fails: the first bioghist already contains a p child and
is removed all the same (its empty p goes at line 93, then the emptied note at
line 107); the scopecontent has a child and no p child and is removed as well
(its empty bioghist child goes first); the last bioghist gains its p but does
not keep its earlier child, an empty unitdate removed at line 119.  In the
second document the elements are in the namespace of the default namespace
declaration: lines 107 and 112 select nothing, the childless accruals stays and
the scopecontent gains no p. -/
theorem processEad_note_cases_interfere :
    processEad id [Node.element (some 1) "ead" []
          [.element (some 2) "bioghist" [] [.element (some 3) "p" [] []],
            .element (some 4) "scopecontent" [] [.element (some 5) "bioghist" [] []],
            .element (some 6) "bioghist" [] [.element (some 7) "unitdate" [] []]]]
        = .ok [Node.element (some 1) "ead" []
          [.element (some 6) "bioghist" [] [.element none "p" [] [.text "Not Specified"]]]]
      ∧ processEad id [Node.element (some 1) (expandedName (some "urn:isbn:1-931666-22-9") "ead")
          [("xmlns", "urn:isbn:1-931666-22-9")]
          [.element (some 2) (expandedName (some "urn:isbn:1-931666-22-9") "accruals") [] [],
            .element (some 3) (expandedName (some "urn:isbn:1-931666-22-9") "scopecontent") []
              [.text "Letters."]]]
        = .ok [Node.element (some 1) (expandedName (some "urn:isbn:1-931666-22-9") "ead")
          [("xmlns", "urn:isbn:1-931666-22-9")]
          [.element (some 2) (expandedName (some "urn:isbn:1-931666-22-9") "accruals") [] [],
            .element (some 3) (expandedName (some "urn:isbn:1-931666-22-9") "scopecontent") []
              [.text "Letters."]]] := by
  decide

/-- Claim C3, amended: names are names of elements in no namespace.  (i) When
`processEad` succeeds, an element that is a childless note (tag `name` among
the nine, identity `k`) in the input is not in the result.  (ii), (iii) hold for the body of the loop of line 105 for one tag
(`fixNote`) on the document as it is then: a childless instance is taken out of
its parent; an instance with children and without p child gets one new p with
the text "Not Specified" appended after its children; an instance with a p
child gets none; in both cases the children are the former child objects after
the same loop body (which removes the childless instances of that tag among
them). -/
theorem processEad_note_rules (toStr : String → String) (doc out : List Node) (k : Nat)
    (name : String) (hname : name ∈ noteTypes) (h : processEad toStr doc = .ok out)
    (hk : ∀ n ∈ subtreeList doc, n.oid = some k → selChildless name n = true) :
    (∀ m ∈ subtreeList out, m.oid ≠ some k)
      ∧ (∀ (i : Option Nat) (a : List (String × String)) (rest : List Node),
        fixNote (.element i name a [] :: rest) name = fixNote rest name)
      ∧ (∀ (i : Option Nat) (a : List (String × String)) (c : Node) (cs rest : List Node),
        Node.hasChild "p" (.element i name a (c :: cs)) = false →
        fixNote (.element i name a (c :: cs) :: rest) name
          = .element i name a (fixNote (c :: cs) name
              ++ [.element none "p" [] [.text "Not Specified"]]) :: fixNote rest name)
      ∧ (∀ (i : Option Nat) (a : List (String × String)) (cs rest : List Node),
        Node.hasChild "p" (.element i name a cs) = true →
        fixNote (.element i name a cs :: rest) name
          = .element i name a (fixNote cs name) :: fixNote rest name) := by
  have hne : name ≠ "p" := by
    have : ∀ x ∈ noteTypes, x ≠ "p" := by decide
    exact this name hname
  have hrem : ∀ cs : List Node,
      (forEachRemoveNodeList (selChildless name) cs).any (Node.isElementNamed "p")
        = cs.any (Node.isElementNamed "p") := by
    intro cs
    apply hasChild_forEachRemoveNodeList
    intro n hn
    simp only [selChildless, Bool.and_eq_true] at hn
    cases hp : Node.isElementNamed "p" n with
    | false => rfl
    | true => exact absurd (isElementNamed_unique _ _ n hn.1 hp) hne
  refine ⟨?_, ?_, ?_, ?_⟩
  · have h1 : ∀ n ∈ subtreeList (removeEmptyParagraphs (fixPhysDescs doc)),
        n.oid = some k → selChildless name n = true := by
      have hts : ∀ x ∈ noteTypes, x ∉ ["physdesc"] := by decide
      exact childless_of_origin ["physdesc"] ["p"] doc _
        (origin_trans_same _ _ _ _ _ (origin_fixPhysDescs _ _ (by simp) doc)
          (origin_removeEmptyParagraphs _ _ (by simp) _)) k name (hts name hname) hk
    have h2 : ∀ m ∈ subtreeList (fixNotes (removeEmptyParagraphs (fixPhysDescs doc))),
        m.oid ≠ some k := removed_note_foldl k name hne noteTypes _ hname h1
    exact oid_of_origin _ _ _ out
      (origin_from_notes _ ["unitdate"] (fun _ hx => hx) (by simp) toStr doc out h) k h2
  · intro i a rest
    simp [fixNote, forEachRemoveNodeList, selChildless, Node.isElementNamed, Node.childless,
      Node.children]
  · intro i a c cs rest hp
    have hsel : selChildless name (.element i name a (c :: cs)) = false := by
      simp [selChildless, Node.childless, Node.children]
    have hp2 : selLacking name "p" (.element i name a
        (forEachRemoveNodeList (selChildless name) (c :: cs))) = true := by
      simp only [Node.hasChild, Node.children] at hp
      simp only [selLacking, Node.hasChild, Node.children, hrem, hp]
      simp [Node.isElementNamed]
    simp only [fixNote]
    rw [show forEachRemoveNodeList (selChildless name) (.element i name a (c :: cs) :: rest)
        = forEachRemoveNode (selChildless name) (.element i name a (c :: cs))
          :: forEachRemoveNodeList (selChildless name) rest from by
      simp [forEachRemoveNodeList, hsel]]
    simp only [forEachRemoveNode, forEachInPlaceList, forEachInPlace, hp2, if_true, addParagraph,
      createTextNode]
  · intro i a cs rest hp
    cases cs with
    | nil => simp [Node.hasChild, Node.children] at hp
    | cons c cs =>
      have hsel : selChildless name (.element i name a (c :: cs)) = false := by
        simp [selChildless, Node.childless, Node.children]
      have hp2 : selLacking name "p" (.element i name a
          (forEachRemoveNodeList (selChildless name) (c :: cs))) = false := by
        simp only [Node.hasChild, Node.children] at hp
        simp only [selLacking, Node.hasChild, Node.children, hrem, hp]
        simp
      simp only [fixNote]
      rw [show forEachRemoveNodeList (selChildless name) (.element i name a (c :: cs) :: rest)
          = forEachRemoveNode (selChildless name) (.element i name a (c :: cs))
            :: forEachRemoveNodeList (selChildless name) rest from by
        simp [forEachRemoveNodeList, hsel]]
      simp only [forEachRemoveNode, forEachInPlaceList, forEachInPlace, hp2, Bool.false_eq_true,
        if_false]

/-- Claim C3, amended, at a document with an empty accruals element (identity
3) next to one with text. -/
theorem processEad_note_rules_witness :
    (∀ n ∈ subtreeList [Node.element (some 1) "ead" []
          [.element (some 2) "accruals" [] [.text "None expected."],
            .element (some 3) "accruals" [] []]],
        n.oid = some 3 → selChildless "accruals" n = true)
      ∧ processEad id [Node.element (some 1) "ead" []
          [.element (some 2) "accruals" [] [.text "None expected."],
            .element (some 3) "accruals" [] []]]
        = .ok [Node.element (some 1) "ead" []
          [.element (some 2) "accruals" []
            [.text "None expected.", .element none "p" [] [.text "Not Specified"]]]]
      ∧ ∀ m ∈ subtreeList [Node.element (some 1) "ead" []
          [.element (some 2) "accruals" []
            [.text "None expected.", .element none "p" [] [.text "Not Specified"]]]],
        m.oid ≠ some 3 :=
  ⟨by decide, by decide, (processEad_note_rules id
    [Node.element (some 1) "ead" []
      [.element (some 2) "accruals" [] [.text "None expected."],
        .element (some 3) "accruals" [] []]]
    _ 3 "accruals" (by decide) (by decide) (by decide)).1⟩

/-! ## Claims C5 and C6: the language rule -/

theorem getAttribute_setAttribute (name value : String) (a : List (String × String)) :
    getAttribute name (setAttribute name value a) = some value := by
  induction a with
  | nil => simp [setAttribute, getAttribute]
  | cons kv rest ih =>
    obtain ⟨k, v⟩ := kv
    by_cases hk : k = name
    · simp [setAttribute, getAttribute, hk]
    · simp [setAttribute, getAttribute, hk, ih]

theorem language_has_langcode_of_processEad (toStr : String → String) (doc out : List Node)
    (h : processEad toStr doc = .ok out) :
    ∀ i t a cs, Node.element i t a cs ∈ subtreeList out → t = "language" →
      hasAttribute "langcode" a = true := by
  obtain ⟨d7, d8, d10, _, _, h10, h13⟩ := processEad_ok toStr doc out h
  have ho := origin_from_language ["titleproper", "author", "date"] [] (fun _ hx => hx)
    d10 out h13
  intro i t a cs hm ht
  rcases ho i t a cs hm with ⟨t0, cs0, heq, ht0⟩ | ⟨a0, cs1, hs, ha, _⟩
  · exfalso
    simp only [Node.element.injEq] at heq
    rw [← heq.2.1, ht] at ht0
    rcases ht0 with h0 | h0 <;> simp at h0
  · exact hasAttribute_of_attrStep t a0 a ha
      (language_has_langcode_forEachInPlaceListM _ d10 h10 i t a0 cs1 hs ht)

/-- Claim C5 as stated fails: the first language element reads "English" and
comes with langcode "en", which line 150 does not select and `processEad`
keeps; the second one reads "English" inside a langusage, whose content line
143 replaces by text before line 150 runs, so that element never gets an
attribute and is not part of the result.  In the second document the language
element is in the namespace of the default namespace declaration; line 150
does not select it and it stays without langcode. -/
theorem processEad_keeps_other_langcode :
    processEad id [Node.element (some 1) "ead" []
          [.element (some 2) "language" [("langcode", "en")] [.text "English"],
            .element (some 3) "langusage" []
              [.element (some 4) "language" [] [.text "English"]]]]
        = .ok [Node.element (some 1) "ead" []
          [.element (some 2) "language" [("langcode", "en")] [.text "English"],
            .element (some 3) "langusage" [] [.text "English"]]]
      ∧ processEad id [Node.element (some 1) (expandedName (some "urn:isbn:1-931666-22-9") "ead")
          [("xmlns", "urn:isbn:1-931666-22-9")]
          [.element (some 2) (expandedName (some "urn:isbn:1-931666-22-9") "language") []
            [.text "ENGLISH"]]]
        = .ok [Node.element (some 1) (expandedName (some "urn:isbn:1-931666-22-9") "ead")
          [("xmlns", "urn:isbn:1-931666-22-9")]
          [.element (some 2) (expandedName (some "urn:isbn:1-931666-22-9") "language") []
            [.text "ENGLISH"]]] := by
  decide

/-- Claim C5, amended: let the element objects with identity `k` carry no
langcode attribute in the input.  When `processEad` succeeds, every language
element in no namespace with identity `k` in the result carries langcode =
"eng", set by
`setAttribute` on its former attributes.  `addLangcodeAttributes` succeeds on
an element whose first child is a text reading "english" in any letter case,
and changes nothing but that attribute. -/
theorem processEad_sets_langcode (toStr : String → String) (doc out : List Node) (k : Nat)
    (h : processEad toStr doc = .ok out)
    (hsrc : ∀ n ∈ subtreeList doc, n.oid = some k → hasAttribute "langcode" n.attrs = false) :
    (∀ m ∈ subtreeList out, m.oid = some k → Node.isElementNamed "language" m = true →
        getAttribute "langcode" m.attrs = some "eng"
          ∧ ∃ n ∈ subtreeList doc, n.oid = some k
            ∧ m.attrs = setAttribute "langcode" "eng" n.attrs)
      ∧ (∀ (i : Option Nat) (t : String) (a : List (String × String)) (s : String)
          (cs : List Node), toLowerCase s = "english" →
        addLangcodeAttributes (.element i t a (.text s :: cs))
          = .ok (.element i t (setAttribute "langcode" "eng" a) (.text s :: cs)))
      ∧ toLowerCase "English" = "english" ∧ toLowerCase "english" = "english"
      ∧ toLowerCase "ENGLISH" = "english" := by
  refine ⟨?_, ?_, by decide, by decide, by decide⟩
  · intro m hm hoid hnamed
    cases m with
    | text s => simp [Node.oid] at hoid
    | comment s => simp [Node.oid] at hoid
    | element i t a cs =>
      have ht : t = "language" := by simpa [Node.isElementNamed] using hnamed
      have hhas := language_has_langcode_of_processEad toStr doc out h i t a cs hm ht
      have ho := origin_processEad _ _ (fun _ hx => hx) (fun _ hx => hx) toStr doc out h
      simp only [Node.oid] at hoid
      rcases ho i t a cs hm with ⟨t0, cs0, heq, _⟩ | ⟨a0, cs1, hs, ha, _⟩
      · exfalso
        simp only [Node.element.injEq] at heq
        rw [heq.1] at hoid
        cases hoid
      · have h1 := hsrc _ hs (by simp [Node.oid, hoid])
        simp only [Node.attrs] at h1 ⊢
        rcases ha with ha | ⟨_, _, ha⟩
        · rw [ha, h1] at hhas
          cases hhas
        · refine ⟨by rw [ha]; exact getAttribute_setAttribute _ _ _, _, hs, ?_, ?_⟩
          · simp [Node.oid, hoid]
          · simpa [Node.attrs] using ha
  · intro i t a s cs hs
    simp [addLangcodeAttributes, Node.nodeValue, hs]

/-- Claim C5, amended, at a document with one English language element. -/
theorem processEad_sets_langcode_witness :
    processEad id [Node.element (some 1) "ead" []
          [.element (some 2) "language" [("scriptcode", "Latn")] [.text "ENGLISH"]]]
        = .ok [Node.element (some 1) "ead" []
          [.element (some 2) "language" [("scriptcode", "Latn"), ("langcode", "eng")]
            [.text "ENGLISH"]]]
      ∧ ∀ m ∈ subtreeList [Node.element (some 1) "ead" []
          [.element (some 2) "language" [("scriptcode", "Latn"), ("langcode", "eng")]
            [.text "ENGLISH"]]],
        m.oid = some 2 → Node.isElementNamed "language" m = true →
          getAttribute "langcode" m.attrs = some "eng"
            ∧ ∃ n ∈ subtreeList [Node.element (some 1) "ead" []
                [.element (some 2) "language" [("scriptcode", "Latn")] [.text "ENGLISH"]]],
              n.oid = some 2 ∧ m.attrs = setAttribute "langcode" "eng" n.attrs :=
  ⟨by decide, (processEad_sets_langcode id
    [Node.element (some 1) "ead" []
      [.element (some 2) "language" [("scriptcode", "Latn")] [.text "ENGLISH"]]]
    _ 2 (by decide) (by decide)).1⟩

theorem addLangcodeAttributes_nodeValue (n r : Node) (h : addLangcodeAttributes n = .ok r) :
    r.nodeValue = n.nodeValue := by
  cases n with
  | text s => simp [addLangcodeAttributes] at h; rw [← h]
  | comment s => simp [addLangcodeAttributes] at h; rw [← h]
  | element i t a cs =>
    rw [addLangcodeAttributes_ok i t a cs r h]
    rfl

theorem addLangcodeAttributes_ok_iff (i : Option Nat) (t : String) (a : List (String × String))
    (cs : List Node) :
    (∃ r, addLangcodeAttributes (.element i t a cs) = .ok r)
      ↔ ∃ s, (cs.map Node.nodeValue).head? = some (some s) ∧ toLowerCase s = "english" := by
  cases cs with
  | nil => simp [addLangcodeAttributes]
  | cons c rest =>
    cases hv : c.nodeValue with
    | none => simp [addLangcodeAttributes, hv]
    | some s =>
      by_cases he : toLowerCase s = "english"
      · simp [addLangcodeAttributes, hv, he]
      · simp [addLangcodeAttributes, hv, he]

theorem addLangcodeAttributes_error (n : Node) (e : JsError)
    (h : addLangcodeAttributes n = .error e) :
    e = .typeError
      ∨ ∃ s, e = .thrown ("Unrecognized language: " ++ s) ∧ toLowerCase s ≠ "english" := by
  cases n with
  | text s => simp [addLangcodeAttributes] at h
  | comment s => simp [addLangcodeAttributes] at h
  | element i t a cs =>
    cases cs with
    | nil => simp [addLangcodeAttributes] at h; exact Or.inl h.symm
    | cons c rest =>
      cases hv : c.nodeValue with
      | none => simp [addLangcodeAttributes, hv] at h; exact Or.inl h.symm
      | some s =>
        by_cases he : toLowerCase s = "english"
        · simp [addLangcodeAttributes, hv, he] at h
        · simp [addLangcodeAttributes, hv, he] at h
          exact Or.inr ⟨s, h.symm, he⟩

theorem selLanguage_nodeValue (n : Node) (h : selLanguage n = true) : n.nodeValue = none := by
  cases n with
  | element i t a cs => rfl
  | text s => simp [selLanguage] at h
  | comment s => simp [selLanguage] at h

mutual
theorem forEachInPlaceM_error_mem (sel : Node → Bool) (f : Node → Except JsError Node)
    (h1 : ∀ n r, f n = .ok r → r.nodeValue = n.nodeValue)
    (h2 : ∀ i t a cs cs2, cs2.map Node.nodeValue = cs.map Node.nodeValue →
      ((∃ r, f (.element i t a cs) = .ok r) ↔ (∃ r, f (.element i t a cs2) = .ok r))) :
    ∀ (n : Node) (e : JsError), forEachInPlaceM sel f n = .error e →
      ∃ m ∈ n.subtree, sel m = true ∧ f m = .error e
  | .text s, e, h => by simp [forEachInPlaceM] at h
  | .comment s, e, h => by simp [forEachInPlaceM] at h
  | .element i t a cs, e, h => by
    have hsub : ∀ m, m ∈ subtreeList cs → m ∈ (Node.element i t a cs).subtree := by
      intro m hm
      simp only [Node.subtree]
      exact List.mem_cons_of_mem _ hm
    unfold forEachInPlaceM at h
    by_cases hs : sel (.element i t a cs) = true
    · simp only [hs, if_true] at h
      cases hf : f (.element i t a cs) with
      | error e2 =>
        rw [hf] at h
        cases h
        exact ⟨_, mem_subtree_self _, hs, hf⟩
      | ok r0 =>
        rw [hf] at h
        simp only [] at h
        cases hl : forEachInPlaceListM sel f cs with
        | error e2 =>
          rw [hl] at h
          cases h
          obtain ⟨m, hm, hsm, hfm⟩ := forEachInPlaceListM_error_mem sel f h1 h2 cs e hl
          exact ⟨m, hsub m hm, hsm, hfm⟩
        | ok cs2 =>
          rw [hl] at h
          simp only [] at h
          obtain ⟨r, hr⟩ := (h2 i t a cs cs2
            (forEachInPlaceListM_nodeValue sel f h1 cs cs2 hl)).mp ⟨r0, hf⟩
          rw [hr] at h
          cases h
    · simp only [hs, Bool.false_eq_true, if_false] at h
      cases hl : forEachInPlaceListM sel f cs with
      | error e2 =>
        rw [hl] at h
        cases h
        obtain ⟨m, hm, hsm, hfm⟩ := forEachInPlaceListM_error_mem sel f h1 h2 cs e hl
        exact ⟨m, hsub m hm, hsm, hfm⟩
      | ok cs2 =>
        rw [hl] at h
        cases h
theorem forEachInPlaceListM_error_mem (sel : Node → Bool) (f : Node → Except JsError Node)
    (h1 : ∀ n r, f n = .ok r → r.nodeValue = n.nodeValue)
    (h2 : ∀ i t a cs cs2, cs2.map Node.nodeValue = cs.map Node.nodeValue →
      ((∃ r, f (.element i t a cs) = .ok r) ↔ (∃ r, f (.element i t a cs2) = .ok r))) :
    ∀ (cs : List Node) (e : JsError), forEachInPlaceListM sel f cs = .error e →
      ∃ m ∈ subtreeList cs, sel m = true ∧ f m = .error e
  | [], e, h => by simp [forEachInPlaceListM] at h
  | c :: cs, e, h => by
    unfold forEachInPlaceListM at h
    cases hc : forEachInPlaceM sel f c with
    | error e2 =>
      rw [hc] at h
      cases h
      obtain ⟨m, hm, hsm, hfm⟩ := forEachInPlaceM_error_mem sel f h1 h2 c e hc
      exact ⟨m, by simp only [subtreeList]; exact List.mem_append_left _ hm, hsm, hfm⟩
    | ok c2 =>
      rw [hc] at h
      simp only [] at h
      cases hl : forEachInPlaceListM sel f cs with
      | error e2 =>
        rw [hl] at h
        cases h
        obtain ⟨m, hm, hsm, hfm⟩ := forEachInPlaceListM_error_mem sel f h1 h2 cs e hl
        exact ⟨m, by simp only [subtreeList]; exact List.mem_append_right _ hm, hsm, hfm⟩
      | ok cs2 =>
        rw [hl] at h
        cases h
end

/-- Claim C6 as stated fails: the first document has a language element
without langcode reading "French", inside a langusage, and `processEad`
succeeds on it (line 143 turns the langusage content into text before line 150
looks for language elements); on the second, whose language element has no
text at all, the error is a TypeError, not the unrecognized-language
message; in the third the language element reading "French" is in the
namespace of the default namespace declaration, line 150 does not select it
and `processEad` returns the document. -/
theorem processEad_misses_language_in_langusage :
    processEad id [Node.element (some 1) "ead" []
          [.element (some 2) "langusage" [] [.element (some 3) "language" [] [.text "French"]]]]
        = .ok [Node.element (some 1) "ead" [] [.element (some 2) "langusage" [] [.text "French"]]]
      ∧ processEad id [Node.element (some 1) "ead" [] [.element (some 2) "language" [] []]]
        = .error .typeError
      ∧ processEad id [Node.element (some 1) (expandedName (some "urn:isbn:1-931666-22-9") "ead")
          [("xmlns", "urn:isbn:1-931666-22-9")]
          [.element (some 2) (expandedName (some "urn:isbn:1-931666-22-9") "language") []
            [.text "French"]]]
        = .ok [Node.element (some 1) (expandedName (some "urn:isbn:1-931666-22-9") "ead")
          [("xmlns", "urn:isbn:1-931666-22-9")]
          [.element (some 2) (expandedName (some "urn:isbn:1-931666-22-9") "language") []
            [.text "French"]]] := by
  decide

/-- Claim C6, amended: names are names of elements in no namespace; let `d9`
be the document when the language rule runs (line 150; lines 83-144 have run
without failure, and the language elements inside a langusage are gone).  When
`d9` has a language element without langcode whose first child is not a text
or comment reading "english" in some letter case, `processEad` fails, and the
error is the one that `addLangcodeAttributes` throws on such a language element
of `d9`: "Unrecognized language: " followed by the value of the first child of
that element when that value does not read "english", and a TypeError when the
element has no child or an element as first child. -/
theorem language_rule_fails (toStr : String → String) (doc d7 d8 : List Node)
    (h7 : forEachInPlaceListM (Node.isElementNamed "subject") normalizeSubjectTerm
      (structuralRules doc) = .ok d7)
    (h8 : forEachReplaceListM (Node.isElementNamed "descrules")
        (normalizeDescRules (staleFirstChild doc)) d7 = .ok d8) :
    ((∃ n ∈ subtreeList
          (forEachReplaceList (Node.isElementNamed "langusage") (normalizeLangUsage toStr) d8),
        selLanguage n = true ∧ ∀ s, (n.children.map Node.nodeValue).head? = some (some s) →
          toLowerCase s ≠ "english") →
      ∃ e, processEad toStr doc = .error e
        ∧ (∃ m ∈ subtreeList
              (forEachReplaceList (Node.isElementNamed "langusage") (normalizeLangUsage toStr) d8),
            selLanguage m = true ∧ addLangcodeAttributes m = .error e)
        ∧ (e = .typeError
          ∨ ∃ s, e = .thrown ("Unrecognized language: " ++ s) ∧ toLowerCase s ≠ "english"))
      ∧ (∀ (i : Option Nat) (t : String) (a : List (String × String)) (c : Node)
          (cs : List Node) (s : String), c.nodeValue = some s → toLowerCase s ≠ "english" →
        addLangcodeAttributes (.element i t a (c :: cs))
          = .error (.thrown ("Unrecognized language: " ++ s)))
      ∧ (∀ (i : Option Nat) (t : String) (a : List (String × String)),
        addLangcodeAttributes (.element i t a []) = .error .typeError)
      ∧ (∀ (i : Option Nat) (t : String) (a : List (String × String)) (c : Node)
          (cs : List Node), c.nodeValue = none →
        addLangcodeAttributes (.element i t a (c :: cs)) = .error .typeError) := by
  refine ⟨?_, ?_, ?_, ?_⟩
  · rintro ⟨n, hn, hs, hbad⟩
    have h2 : ∀ (i : Option Nat) (t : String) (a : List (String × String))
        (cs cs2 : List Node), cs2.map Node.nodeValue = cs.map Node.nodeValue →
        ((∃ r, addLangcodeAttributes (.element i t a cs) = .ok r)
          ↔ (∃ r, addLangcodeAttributes (.element i t a cs2) = .ok r)) := by
      intro i t a cs cs2 h
      rw [addLangcodeAttributes_ok_iff, addLangcodeAttributes_ok_iff, h]
    cases h10 : forEachInPlaceListM selLanguage addLangcodeAttributes
        (forEachReplaceList (Node.isElementNamed "langusage") (normalizeLangUsage toStr) d8) with
    | ok d10 =>
      exfalso
      have hall := (forEachInPlaceListM_ok_iff selLanguage addLangcodeAttributes
        selLanguage_nodeValue addLangcodeAttributes_nodeValue h2 _).mp ⟨d10, h10⟩ n hn hs
      cases n with
      | text s => simp [selLanguage] at hs
      | comment s => simp [selLanguage] at hs
      | element i t a cs =>
        obtain ⟨s, hs1, hs2⟩ := (addLangcodeAttributes_ok_iff i t a cs).mp hall
        exact hbad s (by simpa [Node.children] using hs1) hs2
    | error e =>
      refine ⟨e, by simp [processEad, normalizeContent, h7, h8, h10],
        forEachInPlaceListM_error_mem selLanguage addLangcodeAttributes
          addLangcodeAttributes_nodeValue h2 _ e h10, ?_⟩
      exact forEachInPlaceListM_error_of selLanguage addLangcodeAttributes
        addLangcodeAttributes_nodeValue h2
        (fun e => e = .typeError
          ∨ ∃ s, e = .thrown ("Unrecognized language: " ++ s) ∧ toLowerCase s ≠ "english")
        (fun n e _ h => addLangcodeAttributes_error n e h) _ e h10
  · intro i t a c cs s hv he
    simp [addLangcodeAttributes, hv, he]
  · intro i t a
    rfl
  · intro i t a c cs hv
    simp [addLangcodeAttributes, hv]

/-- Claim C6, amended, at a document with a French language element outside
langusage. -/
theorem language_rule_fails_witness :
    forEachInPlaceListM (Node.isElementNamed "subject") normalizeSubjectTerm
        (structuralRules [Node.element (some 1) "ead" []
          [.element (some 2) "language" [] [.text "French"]]])
      = .ok [Node.element (some 1) "ead" [] [.element (some 2) "language" [] [.text "French"]]]
      ∧ processEad id [Node.element (some 1) "ead" []
          [.element (some 2) "language" [] [.text "French"]]]
        = .error (.thrown "Unrecognized language: French")
      ∧ ∃ e, processEad id [Node.element (some 1) "ead" []
            [.element (some 2) "language" [] [.text "French"]]] = .error e
          ∧ (∃ m ∈ subtreeList
                (forEachReplaceList (Node.isElementNamed "langusage") (normalizeLangUsage id)
                  [Node.element (some 1) "ead" []
                    [.element (some 2) "language" [] [.text "French"]]]),
              selLanguage m = true ∧ addLangcodeAttributes m = .error e)
          ∧ (e = .typeError
            ∨ ∃ s, e = .thrown ("Unrecognized language: " ++ s) ∧ toLowerCase s ≠ "english") :=
  ⟨by decide, by decide, (language_rule_fails id
    [Node.element (some 1) "ead" [] [.element (some 2) "language" [] [.text "French"]]]
    [Node.element (some 1) "ead" [] [.element (some 2) "language" [] [.text "French"]]]
    [Node.element (some 1) "ead" [] [.element (some 2) "language" [] [.text "French"]]]
    (by decide) (by decide)).1
      ⟨Node.element (some 2) "language" [] [.text "French"], by decide, by decide,
        fun s hs => by
          simp only [Node.children, List.map_cons, List.head?_cons, Node.nodeValue,
            Option.some.injEq] at hs
          rw [← hs]
          decide⟩⟩

/-! ## Claim C1: running the normalizer twice -/

theorem fixNote_id_of_has_paragraph (doc : List Node) (name : String)
    (h : ∀ n ∈ subtreeList doc, Node.isElementNamed name n = true → n.hasChild "p" = true) :
    fixNote doc name = doc := by
  unfold fixNote
  rw [forEachRemoveNodeList_id_of_not_selected, forEachInPlaceList_id_of_not_selected]
  · intro m hm
    cases hn : Node.isElementNamed name m with
    | false => simp [selLacking, hn]
    | true => simp [selLacking, hn, h m hm hn]
  · intro m hm
    cases hn : Node.isElementNamed name m with
    | false => simp [selChildless, hn]
    | true =>
      have hp := h m hm hn
      cases m with
      | text s => simp [Node.isElementNamed] at hn
      | comment s => simp [Node.isElementNamed] at hn
      | element i t a cs =>
        cases cs with
        | nil => simp [Node.hasChild, Node.children] at hp
        | cons c cs => simp [selChildless, Node.childless, Node.children]

theorem foldl_fixNote_id (doc : List Node) :
    ∀ tags : List String,
      (∀ n ∈ subtreeList doc, ∀ name ∈ tags,
        Node.isElementNamed name n = true → n.hasChild "p" = true) →
      tags.foldl fixNote doc = doc
  | [], _ => rfl
  | tag :: tags, h => by
    rw [List.foldl_cons, fixNote_id_of_has_paragraph doc tag
      (fun n hn hnamed => h n hn tag (List.mem_cons_self _ _) hnamed)]
    exact foldl_fixNote_id doc tags (fun n hn name hname => h n hn name (List.mem_cons_of_mem _ hname))

theorem forEachContainerList_nil (k : Nat) (cs : List Node)
    (h : (forEachContainerList k cs).1 = []) : cs = [] := by
  cases cs with
  | nil => rfl
  | cons c cs => simp [forEachContainerList] at h

mutual
theorem not_selected_forEachContainer : ∀ (n : Node) (k : Nat),
    ∀ m ∈ (forEachContainer k n).1.subtree, selChildless "container" m = false
  | .text s, k => by
    intro m hm
    simp only [forEachContainer, Node.subtree, List.mem_singleton] at hm
    rw [hm]
    rfl
  | .comment s, k => by
    intro m hm
    simp only [forEachContainer, Node.subtree, List.mem_singleton] at hm
    rw [hm]
    rfl
  | .element i t a cs, k => by
    have ih := not_selected_forEachContainerList cs k
    intro m hm
    unfold forEachContainer at hm
    by_cases hs : selChildless "container" (.element i t a cs) = true
    · have hcs : cs = [] := by
        simp only [selChildless, Node.childless, Node.children, Bool.and_eq_true,
          List.isEmpty_iff] at hs
        exact hs.2
      subst hcs
      rw [if_pos hs] at hm
      simp only [fixContainersWithoutIds, List.nil_append, Node.subtree,
        subtreeList, List.append_nil, List.mem_cons, List.mem_singleton,
        List.not_mem_nil, or_false] at hm
      rcases hm with hm | hm
      · rw [hm]
        simp [selChildless, Node.childless, Node.children]
      · rw [hm]
        rfl
    · rw [if_neg hs] at hm
      simp only [Node.subtree, List.mem_cons] at hm
      rcases hm with hm | hm
      · rw [hm]
        cases hn : Node.isElementNamed "container" (.element i t a cs) with
        | false =>
          have : Node.isElementNamed "container"
              (.element i t a (forEachContainerList k cs).1) = false := hn
          simp [selChildless, this]
        | true =>
          have hne : cs ≠ [] := by
            intro hc
            apply hs
            subst hc
            simp [selChildless, hn, Node.childless, Node.children]
          have hne2 : (forEachContainerList k cs).1 ≠ [] :=
            fun hc => hne (forEachContainerList_nil k cs hc)
          simp [selChildless, Node.childless, Node.children, hne2]
      · exact ih m hm
theorem not_selected_forEachContainerList : ∀ (cs : List Node) (k : Nat),
    ∀ m ∈ subtreeList (forEachContainerList k cs).1, selChildless "container" m = false
  | [], k => by intro m hm; simp [forEachContainerList, subtreeList] at hm
  | c :: cs, k => by
    intro m hm
    simp only [forEachContainerList, subtreeList, List.mem_append] at hm
    rcases hm with hm | hm
    · exact not_selected_forEachContainer c k m hm
    · exact not_selected_forEachContainerList cs _ m hm
end

/-- Claim C1 as stated fails: the first run turns the langusage content into
the text "English"; the second run finds a langusage with a child and without
language element and replaces that text by the empty text. -/
theorem processEad_twice_differs :
    processEad id [Node.element (some 1) "ead" []
          [.element (some 2) "langusage" [] [.element (some 3) "language" [] [.text "English"]]]]
        = .ok [Node.element (some 1) "ead" []
          [.element (some 2) "langusage" [] [.text "English"]]]
      ∧ processEad id [Node.element (some 1) "ead" []
          [.element (some 2) "langusage" [] [.text "English"]]]
        = .ok [Node.element (some 1) "ead" [] [.element (some 2) "langusage" [] [.text ""]]] := by
  decide

/-- Claim C1, amended: `processEad` as a whole is not idempotent.  Running a
rule on its own result changes nothing for the rules whose selector excludes
what the rule has made: the physdesc rule (line 87), the loop over the note
tags (line 105), the container rule (line 125) and the langcode rule
(line 150). -/
theorem guarded_rules_idempotent (doc : List Node) :
    fixPhysDescs (fixPhysDescs doc) = fixPhysDescs doc
      ∧ fixNotes (fixNotes doc) = fixNotes doc
      ∧ fixContainers (fixContainers doc) = fixContainers doc
      ∧ (∀ d10, forEachInPlaceListM selLanguage addLangcodeAttributes doc = .ok d10 →
        forEachInPlaceListM selLanguage addLangcodeAttributes d10 = .ok d10) := by
  refine ⟨?_, ?_, ?_, ?_⟩
  · apply forEachInPlaceList_id_of_not_selected
    intro m hm
    cases hn : Node.isElementNamed "physdesc" m with
    | false => simp [selLacking, hn]
    | true => simp [selLacking, hn, physdesc_has_extent_after_rule doc m hm hn]
  · apply foldl_fixNote_id
    intro n hn name hname hnamed
    exact notes_have_paragraph_foldl noteTypes [] doc (by decide) (by simp) n hn name
      (by simpa using hname) hnamed
  · unfold fixContainers
    rw [forEachContainerList_id_of_not_selected 0 _
      (not_selected_forEachContainerList doc 0)]
  · intro d10 h
    apply forEachInPlaceListM_id_of_not_selected
    intro m hm
    cases m with
    | text s => rfl
    | comment s => rfl
    | element i t a cs =>
      by_cases ht : t = "language"
      · simp [selLanguage, ht,
          language_has_langcode_forEachInPlaceListM doc d10 h i t a cs hm ht]
      · simp [selLanguage, ht]

/-! ## Claim C10: the date loop when no publication date touches the first creation date -/

theorem head?_append_congr {α : Type} (xs ys zs : List α) (h : xs.head? = ys.head?) :
    (xs ++ zs).head? = (ys ++ zs).head? := by
  cases xs with
  | nil =>
    cases ys with
    | nil => rfl
    | cons y ys => simp at h
  | cons x xs =>
    cases ys with
    | nil => simp at h
    | cons y ys => simpa using h

theorem creationDates_setTextContent (v : String) (l : Nat) (n : Node)
    (h : (creationDates l n).isEmpty = true) :
    creationDates l (setTextContent v n) = [] := by
  rw [List.isEmpty_iff] at h
  cases n with
  | text s => rfl
  | comment s => rfl
  | element i t a cs =>
    simp only [creationDates, List.append_eq_nil] at h
    have hnot : ¬ (l = 2 ∧ t = "date") := by
      intro hc
      have h1 := h.1
      rw [if_pos hc] at h1
      cases h1
    by_cases hv : v = ""
    · simp [setTextContent, creationDates, creationDatesList, hv, hnot]
    · simp [setTextContent, creationDates, creationDatesList, hv, hnot]

mutual
theorem head?_creationDates_modifyNode (v : String) : ∀ (n : Node) (l : Nat) (path : List Nat),
    sparesFirstDateNode l path n = true →
      (creationDates l (modifyNode (setTextContent v) path n)).head? = (creationDates l n).head?
  | n, l, [], h => by
    simp only [sparesFirstDateNode] at h
    simp only [modifyNode]
    rw [creationDates_setTextContent v l n h, List.isEmpty_iff.mp h]
  | .text s, l, k :: rest, h => rfl
  | .comment s, l, k :: rest, h => rfl
  | .element i t a cs, l, k :: rest, h => by
    simp only [sparesFirstDateNode, Bool.and_eq_true, Bool.not_eq_true', decide_eq_false_iff_not]
      at h
    have ih := head?_creationDatesList_modifyNth v cs (creationLevel l t) k rest h.2
    simp only [modifyNode, creationDates, h.1, if_false, List.nil_append]
    exact ih
theorem head?_creationDatesList_modifyNth (v : String) :
    ∀ (cs : List Node) (l k : Nat) (rest : List Nat),
      sparesFirstDateList l k rest cs = true →
        (creationDatesList l (modifyNth (modifyNode (setTextContent v) rest) k cs)).head?
          = (creationDatesList l cs).head?
  | [], l, k, rest, h => by simp [modifyNth]
  | c :: cs, l, 0, rest, h => by
    simp only [sparesFirstDateList] at h
    simp only [modifyNth, creationDatesList]
    exact head?_append_congr _ _ _ (head?_creationDates_modifyNode v c l rest h)
  | c :: cs, l, k + 1, rest, h => by
    simp only [sparesFirstDateList, Bool.or_eq_true, Bool.not_eq_true'] at h
    simp only [modifyNth, creationDatesList]
    cases hc : creationDates l c with
    | nil =>
      rw [hc] at h
      simp only [List.isEmpty_nil, Bool.true_eq_false, false_or] at h
      simp only [List.nil_append]
      exact head?_creationDatesList_modifyNth v cs l k rest h
    | cons x xs => rfl
end

theorem head?_creationDatesList_modifyAt (v : String) (path : List Nat) (doc : List Node)
    (h : sparesFirstDate path doc = true) :
    (creationDatesList 0 (modifyAt (setTextContent v) path doc)).head?
      = (creationDatesList 0 doc).head? := by
  cases path with
  | nil => rfl
  | cons k rest =>
    simp only [modifyAt]
    exact head?_creationDatesList_modifyNth v doc 0 k rest h

theorem sparesFirstDateNode_text (v : String) (l : Nat) (path : List Nat) :
    sparesFirstDateNode l path (.text v) = true := by
  cases path <;> rfl

mutual
theorem sparesFirstDateNode_modifyNode (v : String) :
    ∀ (n : Node) (l : Nat) (q path : List Nat),
      sparesFirstDateNode l q n = true → sparesFirstDateNode l path n = true →
        sparesFirstDateNode l q (modifyNode (setTextContent v) path n) = true
  | n, l, [], path, hq, hp => by
    simp only [sparesFirstDateNode] at hq ⊢
    have h := head?_creationDates_modifyNode v n l path hp
    rw [List.isEmpty_iff.mp hq] at h
    rw [List.isEmpty_iff]
    exact List.head?_eq_none_iff.mp h
  | .text s, l, k :: rest, [], hq, hp => rfl
  | .comment s, l, k :: rest, [], hq, hp => rfl
  | .element i t a cs, l, k :: rest, [], hq, hp => by
    simp only [sparesFirstDateNode, Bool.and_eq_true] at hq
    simp only [modifyNode, setTextContent, sparesFirstDateNode, Bool.and_eq_true, hq.1, true_and]
    by_cases hv : v = ""
    · simp [hv, sparesFirstDateList]
    · simp only [hv, if_false]
      cases k with
      | zero => simp [sparesFirstDateList, sparesFirstDateNode_text]
      | succ k => simp [sparesFirstDateList, creationDates]
  | .text s, l, k :: rest, j :: prest, hq, hp => rfl
  | .comment s, l, k :: rest, j :: prest, hq, hp => rfl
  | .element i t a cs, l, k :: rest, j :: prest, hq, hp => by
    simp only [sparesFirstDateNode, Bool.and_eq_true] at hq hp
    simp only [modifyNode, sparesFirstDateNode, Bool.and_eq_true, hq.1, true_and]
    exact sparesFirstDateList_modifyNth v cs (creationLevel l t) k j rest prest hq.2 hp.2
theorem sparesFirstDateList_modifyNth (v : String) :
    ∀ (cs : List Node) (l k j : Nat) (rest prest : List Nat),
      sparesFirstDateList l k rest cs = true → sparesFirstDateList l j prest cs = true →
        sparesFirstDateList l k rest (modifyNth (modifyNode (setTextContent v) prest) j cs) = true
  | [], l, k, j, rest, prest, hq, hp => by simp [modifyNth, sparesFirstDateList]
  | c :: cs, l, 0, 0, rest, prest, hq, hp => by
    simp only [sparesFirstDateList] at hq hp
    simp only [modifyNth, sparesFirstDateList]
    exact sparesFirstDateNode_modifyNode v c l rest prest hq hp
  | c :: cs, l, 0, j + 1, rest, prest, hq, hp => by
    simp only [sparesFirstDateList] at hq
    simp only [modifyNth, sparesFirstDateList]
    exact hq
  | c :: cs, l, k + 1, 0, rest, prest, hq, hp => by
    simp only [sparesFirstDateList, Bool.or_eq_true, Bool.not_eq_true'] at hq hp
    simp only [modifyNth, sparesFirstDateList, Bool.or_eq_true, Bool.not_eq_true']
    rcases hq with hq | hq
    · left
      have h := head?_creationDates_modifyNode v c l prest hp
      cases hc : creationDates l c with
      | nil => rw [hc] at hq; simp at hq
      | cons x xs =>
        rw [hc] at h
        cases hm : creationDates l (modifyNode (setTextContent v) prest c) with
        | nil => rw [hm] at h; simp at h
        | cons y ys => rfl
    · exact Or.inr hq
  | c :: cs, l, k + 1, j + 1, rest, prest, hq, hp => by
    simp only [sparesFirstDateList, Bool.or_eq_true, Bool.not_eq_true'] at hq hp
    simp only [modifyNth, sparesFirstDateList, Bool.or_eq_true, Bool.not_eq_true']
    rcases hq with hq | hq
    · exact Or.inl hq
    · rcases hp with hp | hp
      · exact Or.inl hp
      · exact Or.inr (sparesFirstDateList_modifyNth v cs l k j rest prest hq hp)
end

theorem sparesFirstDate_modifyAt (v : String) (q path : List Nat) (doc : List Node)
    (hq : sparesFirstDate q doc = true) (hp : sparesFirstDate path doc = true) :
    sparesFirstDate q (modifyAt (setTextContent v) path doc) = true := by
  cases path with
  | nil => exact hq
  | cons j prest =>
    cases q with
    | nil => rfl
    | cons k rest =>
      simp only [modifyAt, sparesFirstDate] at hq hp ⊢
      exact sparesFirstDateList_modifyNth v doc 0 k j rest prest hq hp

theorem forEachPublicationDate_of_apart (D : Node) : ∀ (paths : List (List Nat)) (doc : List Node),
    (creationDatesList 0 doc).head? = some D → (∀ p ∈ paths, sparesFirstDate p doc = true) →
      forEachPublicationDate paths doc
          = .ok (paths.foldl (fun d p => modifyAt (setTextContent (textContent D)) p d) doc)
        ∧ (creationDatesList 0
            (paths.foldl (fun d p => modifyAt (setTextContent (textContent D)) p d) doc)).head?
          = some D
  | [], doc, hD, _ => ⟨rfl, hD⟩
  | path :: paths, doc, hD, hq => by
    have hp := hq path (List.mem_cons_self _ _)
    have hc := head?_creationDatesList_modifyAt (textContent D) path doc hp
    have ih := forEachPublicationDate_of_apart D paths
      (modifyAt (setTextContent (textContent D)) path doc) (by rw [hc]; exact hD)
      (fun p hpm => sparesFirstDate_modifyAt (textContent D) p path doc
        (hq p (List.mem_cons_of_mem _ hpm)) hp)
    simp only [forEachPublicationDate, syncPublicationDate, hD, List.foldl_cons]
    exact ih

theorem modifyNth_append (g : Node → Node) : ∀ (pre : List Node) (c : Node) (cs : List Node),
    modifyNth g pre.length (pre ++ c :: cs) = pre ++ g c :: cs
  | [], c, cs => rfl
  | x :: pre, c, cs => by
    have ih := modifyNth_append g pre c cs
    show x :: modifyNth g pre.length (pre ++ c :: cs) = x :: (pre ++ g c :: cs)
    rw [ih]

theorem foldl_modifyAt_child (f : Node → Node) (pre cs : List Node) :
    ∀ (paths : List (List Nat)) (c : Node),
      (paths.map (List.cons pre.length)).foldl (fun d p => modifyAt f p d) (pre ++ c :: cs)
        = pre ++ paths.foldl (fun n p => modifyNode f p n) c :: cs
  | [], c => rfl
  | p :: paths, c => by
    simp only [List.map_cons, List.foldl_cons, modifyAt, modifyNth_append]
    exact foldl_modifyAt_child f pre cs paths (modifyNode f p c)

theorem foldl_modifyNode_children (f : Node → Node) (i : Option Nat) (t : String)
    (a : List (String × String)) : ∀ (paths : List (List Nat)) (cs : List Node),
      (∀ p ∈ paths, p ≠ []) →
      paths.foldl (fun n p => modifyNode f p n) (.element i t a cs)
        = .element i t a (paths.foldl (fun d p => modifyAt f p d) cs)
  | [], cs, _ => rfl
  | [] :: paths, cs, h => absurd rfl (h [] (List.mem_cons_self _ _))
  | (k :: rest) :: paths, cs, h => by
    simp only [List.foldl_cons, modifyNode, modifyAt]
    exact foldl_modifyNode_children f i t a paths _ (fun p hp => h p (List.mem_cons_of_mem _ hp))

theorem pubDatePathsList_ne_nil : ∀ (cs : List Node) (under : Bool) (k : Nat),
    ∀ p ∈ pubDatePathsList under k cs, p ≠ []
  | [], under, k => by intro p hp; simp [pubDatePathsList] at hp
  | c :: cs, under, k => by
    intro p hp
    simp only [pubDatePathsList, List.mem_append, List.mem_map] at hp
    rcases hp with ⟨q, _, hq⟩ | hp
    · rw [← hq]
      exact List.cons_ne_nil _ _
    · exact pubDatePathsList_ne_nil cs under (k + 1) p hp

theorem foldl_modifyNode_overwritten (v : String) (i : Option Nat) (t : String)
    (a : List (String × String)) : ∀ (paths : List (List Nat)), (∀ p ∈ paths, p ≠ []) →
      paths.foldl (fun n p => modifyNode (setTextContent v) p n)
          (.element i t a (if v = "" then [] else [.text v]))
        = .element i t a (if v = "" then [] else [.text v])
  | [], _ => rfl
  | [] :: paths, h => absurd rfl (h [] (List.mem_cons_self _ _))
  | (k :: rest) :: paths, h => by
    have hstep : modifyNode (setTextContent v) (k :: rest)
        (.element i t a (if v = "" then [] else [.text v]))
        = .element i t a (if v = "" then [] else [.text v]) := by
      by_cases hv : v = ""
      · simp [hv, modifyNode, modifyNth]
      · simp only [hv, if_false, modifyNode]
        cases k with
        | zero =>
          cases rest with
          | nil => simp [modifyNth, modifyNode, setTextContent]
          | cons j rest => simp [modifyNth, modifyNode]
        | succ k => simp [modifyNth]
    simp only [List.foldl_cons, hstep]
    exact foldl_modifyNode_overwritten v i t a paths
      (fun p hp => h p (List.mem_cons_of_mem _ hp))

mutual
theorem foldl_modifyNode_pubDatePaths (v : String) : ∀ (n : Node) (under : Bool),
    (pubDatePaths under n).foldl (fun m p => modifyNode (setTextContent v) p m) n
      = setDates v under n
  | .text s, under => rfl
  | .comment s, under => rfl
  | .element i t a cs, under => by
    have ih := foldl_modifyAt_pubDatePathsList v cs (under || decide (t = "publicationstmt")) []
    simp only [List.nil_append, List.length_nil] at ih
    by_cases hd : (under && decide (t = "date")) = true
    · simp only [pubDatePaths, setDates, hd, if_true, List.singleton_append, List.foldl_cons,
        modifyNode, setTextContent]
      exact foldl_modifyNode_overwritten v i t a _ (pubDatePathsList_ne_nil cs _ 0)
    · simp only [pubDatePaths, setDates, hd, Bool.false_eq_true, if_false, List.nil_append]
      rw [foldl_modifyNode_children _ i t a _ cs (pubDatePathsList_ne_nil cs _ 0), ih]
theorem foldl_modifyAt_pubDatePathsList (v : String) :
    ∀ (cs : List Node) (under : Bool) (pre : List Node),
      (pubDatePathsList under pre.length cs).foldl
          (fun d p => modifyAt (setTextContent v) p d) (pre ++ cs)
        = pre ++ setDatesList v under cs
  | [], under, pre => rfl
  | c :: cs, under, pre => by
    have ih1 := foldl_modifyNode_pubDatePaths v c under
    have ih2 := foldl_modifyAt_pubDatePathsList v cs under (pre ++ [setDates v under c])
    simp only [List.length_append, List.length_singleton, List.append_assoc,
      List.singleton_append] at ih2
    simp only [pubDatePathsList, List.foldl_append, foldl_modifyAt_child, ih1, setDatesList]
    exact ih2
end

mutual
theorem textContent_pubDates_setDates (v : String) : ∀ (n : Node) (under : Bool),
    ∀ P ∈ pubDates under (setDates v under n), textContent P = v
  | .text s, under => by intro P hP; simp [setDates, pubDates] at hP
  | .comment s, under => by intro P hP; simp [setDates, pubDates] at hP
  | .element i t a cs, under => by
    have ih := textContent_pubDatesList_setDatesList v cs (under || decide (t = "publicationstmt"))
    intro P hP
    by_cases hd : (under && decide (t = "date")) = true
    · simp only [setDates, hd, if_true, pubDates, List.singleton_append, List.mem_cons] at hP
      by_cases hv : v = ""
      · simp only [hv, if_true, pubDatesList, List.not_mem_nil, or_false] at hP
        rw [hP, hv]
        rfl
      · simp only [hv, if_false, pubDatesList, pubDates, List.append_nil, List.not_mem_nil,
          or_false] at hP
        rw [hP]
        simp [textContent, textContentList]
    · simp only [setDates, hd, Bool.false_eq_true, if_false, pubDates, List.nil_append] at hP
      exact ih P hP
theorem textContent_pubDatesList_setDatesList (v : String) : ∀ (cs : List Node) (under : Bool),
    ∀ P ∈ pubDatesList under (setDatesList v under cs), textContent P = v
  | [], under => by intro P hP; simp [setDatesList, pubDatesList] at hP
  | c :: cs, under => by
    intro P hP
    simp only [setDatesList, pubDatesList, List.mem_append] at hP
    rcases hP with hP | hP
    · exact textContent_pubDates_setDates v c under P hP
    · exact textContent_pubDatesList_setDatesList v cs under P hP
end

/-- Claim C10 as stated fails: in the first document the first publication date
contains a creation date, the first of the document, reading "B".  Line 170
copies "B" into the first publication date, which detaches that creation date;
for the second publication date the first creation date of the document is the
one reading "C".  The result has publication dates reading "B" and "C".  In the
second document the elements are in the namespace of its default namespace
declaration; line 168 selects nothing and the publication date keeps "TBD". -/
theorem processEad_publication_dates_differ :
    processEad id [Node.element (some 1) "ead" []
          [.element (some 2) "publicationstmt" []
            [.element (some 3) "date" []
              [.text "A", .element (some 4) "profiledesc" []
                [.element (some 5) "creation" [] [.element (some 6) "date" [] [.text "B"]]]],
              .element (some 7) "date" [] [.text "Z"]],
            .element (some 8) "profiledesc" []
              [.element (some 9) "creation" [] [.element (some 10) "date" [] [.text "C"]]]]]
        = .ok [Node.element (some 1) "ead" []
          [.element (some 2) "publicationstmt" []
            [.element (some 3) "date" [] [.text "B"], .element (some 7) "date" [] [.text "C"]],
            .element (some 8) "profiledesc" []
              [.element (some 9) "creation" [] [.element (some 10) "date" [] [.text "C"]]]]]
      ∧ processEad id
          [Node.element (some 1) (expandedName (some "urn:isbn:1-931666-22-9") "ead")
            [("xmlns", "urn:isbn:1-931666-22-9")]
            [.element (some 2) (expandedName (some "urn:isbn:1-931666-22-9") "publicationstmt") []
              [.element (some 3) (expandedName (some "urn:isbn:1-931666-22-9") "date") []
                [.text "TBD"]],
              .element (some 4) (expandedName (some "urn:isbn:1-931666-22-9") "profiledesc") []
                [.element (some 5) (expandedName (some "urn:isbn:1-931666-22-9") "creation") []
                  [.element (some 6) (expandedName (some "urn:isbn:1-931666-22-9") "date") []
                    [.text "2020-05-01"]]]]]
        = .ok
          [Node.element (some 1) (expandedName (some "urn:isbn:1-931666-22-9") "ead")
            [("xmlns", "urn:isbn:1-931666-22-9")]
            [.element (some 2) (expandedName (some "urn:isbn:1-931666-22-9") "publicationstmt") []
              [.element (some 3) (expandedName (some "urn:isbn:1-931666-22-9") "date") []
                [.text "TBD"]],
              .element (some 4) (expandedName (some "urn:isbn:1-931666-22-9") "profiledesc") []
                [.element (some 5) (expandedName (some "urn:isbn:1-931666-22-9") "creation") []
                  [.element (some 6) (expandedName (some "urn:isbn:1-931666-22-9") "date") []
                    [.text "2020-05-01"]]]]] := by
  decide

/-- Claim C10, amended: names are names of elements in no namespace.  Let `d12`
be the document when line 168 runs (lines 83-162 have run without failure), let
`D` be its first date under profiledesc//creation, and let no date under
publicationstmt of `d12` be `D`, lie inside `D` or contain `D`.  Then
`processEad` succeeds; its result is `d12` with the content of every outermost
date under publicationstmt replaced by the text content of `D`; every date
under publicationstmt of the result has the text content of `D`; and `D` is
the first date under profiledesc//creation of the result, as it was. -/
theorem processEad_syncs_publication_dates (toStr : String → String) (doc d12 : List Node)
    (D : Node) (h12 : normalizeContent toStr doc = .ok d12)
    (hD : (creationDatesList 0 d12).head? = some D) (hsep : datesApart d12 = true) :
    processEad toStr doc = .ok (setDatesList (textContent D) false d12)
      ∧ (∀ P ∈ pubDatesList false (setDatesList (textContent D) false d12),
        textContent P = textContent D)
      ∧ (creationDatesList 0 (setDatesList (textContent D) false d12)).head? = some D := by
  have hq : ∀ p ∈ pubDatePathsList false 0 d12, sparesFirstDate p d12 = true := by
    simpa [datesApart] using hsep
  have hfold := forEachPublicationDate_of_apart D (pubDatePathsList false 0 d12) d12 hD hq
  have hset := foldl_modifyAt_pubDatePathsList (textContent D) d12 false []
  simp only [List.nil_append, List.length_nil] at hset
  rw [hset] at hfold
  refine ⟨?_, textContent_pubDatesList_setDatesList (textContent D) d12 false, hfold.2⟩
  simp only [processEad, h12, syncPublicationDates]
  exact hfold.1

/-- Claim C10, amended, at a document with the publication date "TBD" inside
the profiledesc element and the creation date "2020-05-01". -/
theorem processEad_syncs_publication_dates_witness :
    processEad id [Node.element (some 1) "ead" []
          [.element (some 2) "profiledesc" []
            [.element (some 3) "publicationstmt" [] [.element (some 4) "date" [] [.text "TBD"]],
              .element (some 5) "creation" []
                [.text "Made ", .element (some 6) "date" [] [.text "2020-05-01"]]]]]
      = .ok [Node.element (some 1) "ead" []
          [.element (some 2) "profiledesc" []
            [.element (some 3) "publicationstmt" []
              [.element (some 4) "date" [] [.text "2020-05-01"]],
              .element (some 5) "creation" []
                [.text "Made ", .element (some 6) "date" [] [.text "2020-05-01"]]]]] :=
  (processEad_syncs_publication_dates id
    [Node.element (some 1) "ead" []
      [.element (some 2) "profiledesc" []
        [.element (some 3) "publicationstmt" [] [.element (some 4) "date" [] [.text "TBD"]],
          .element (some 5) "creation" []
            [.text "Made ", .element (some 6) "date" [] [.text "2020-05-01"]]]]]
    [Node.element (some 1) "ead" []
      [.element (some 2) "profiledesc" []
        [.element (some 3) "publicationstmt" [] [.element (some 4) "date" [] [.text "TBD"]],
          .element (some 5) "creation" []
            [.text "Made ", .element (some 6) "date" [] [.text "2020-05-01"]]]]]
    (.element (some 6) "date" [] [.text "2020-05-01"])
    (by decide) (by decide) (by decide)).1.trans (by decide)

/-! ## Claim C11: when the date loop fails -/

/-- Claim C11 as stated fails: when line 168 runs, the first document has two
dates under publicationstmt and a date under profiledesc//creation, and
`processEad` fails all the same: the creation date lies inside the first
publication date, whose overwrite detaches it, and the second selected date
(the detached one) finds nothing to copy.  The second document has a
publication date and no creation date, all in the namespace of the default
namespace declaration: line 168 selects nothing and `processEad` returns the
document. -/
theorem processEad_fails_with_creation_date :
    normalizeContent id [Node.element (some 1) "ead" []
          [.element (some 2) "publicationstmt" []
            [.element (some 3) "date" []
              [.element (some 4) "profiledesc" []
                [.element (some 5) "creation" [] [.element (some 6) "date" [] [.text "B"]]]]]]]
        = .ok [Node.element (some 1) "ead" []
          [.element (some 2) "publicationstmt" []
            [.element (some 3) "date" []
              [.element (some 4) "profiledesc" []
                [.element (some 5) "creation" [] [.element (some 6) "date" [] [.text "B"]]]]]]]
      ∧ pubDatePathsList false 0 [Node.element (some 1) "ead" []
          [.element (some 2) "publicationstmt" []
            [.element (some 3) "date" []
              [.element (some 4) "profiledesc" []
                [.element (some 5) "creation" [] [.element (some 6) "date" [] [.text "B"]]]]]]]
        = [[0, 0, 0], [0, 0, 0, 0, 0, 0]]
      ∧ creationDatesList 0 [Node.element (some 1) "ead" []
          [.element (some 2) "publicationstmt" []
            [.element (some 3) "date" []
              [.element (some 4) "profiledesc" []
                [.element (some 5) "creation" [] [.element (some 6) "date" [] [.text "B"]]]]]]]
        = [.element (some 6) "date" [] [.text "B"]]
      ∧ processEad id [Node.element (some 1) "ead" []
          [.element (some 2) "publicationstmt" []
            [.element (some 3) "date" []
              [.element (some 4) "profiledesc" []
                [.element (some 5) "creation" [] [.element (some 6) "date" [] [.text "B"]]]]]]]
        = .error .typeError
      ∧ processEad id
          [Node.element (some 1) (expandedName (some "urn:isbn:1-931666-22-9") "ead")
            [("xmlns", "urn:isbn:1-931666-22-9")]
            [.element (some 2) (expandedName (some "urn:isbn:1-931666-22-9") "publicationstmt") []
              [.element (some 3) (expandedName (some "urn:isbn:1-931666-22-9") "date") []
                [.text "TBD"]]]]
        = .ok
          [Node.element (some 1) (expandedName (some "urn:isbn:1-931666-22-9") "ead")
            [("xmlns", "urn:isbn:1-931666-22-9")]
            [.element (some 2) (expandedName (some "urn:isbn:1-931666-22-9") "publicationstmt") []
              [.element (some 3) (expandedName (some "urn:isbn:1-931666-22-9") "date") []
                [.text "TBD"]]]] := by
  decide

/-- Claim C11, amended: names are names of elements in no namespace; let `d12`
be the document when rule 13 runs.  When it has a date below a publicationstmt
and no date below profiledesc//creation, `processEad` fails (with the
TypeError of reading `textContent` of `undefined`) and returns no document;
when it has no date below a publicationstmt, rule 13 changes nothing and
`processEad` returns `d12`, whether or not a creation date exists.  Each single
overwrite fails exactly when the document then has no creation date to copy
from, which an earlier overwrite may have detached.  When no date below a
publicationstmt is the first creation date, lies in it or contains it,
`processEad` fails at rule 13 exactly when `d12` has a date below a
publicationstmt and no creation date. -/
theorem syncPublicationDates_fails_without_creation_date (toStr : String → String)
    (doc d12 : List Node) (h12 : normalizeContent toStr doc = .ok d12) :
    (pubDatePathsList false 0 d12 ≠ [] → creationDatesList 0 d12 = [] →
        processEad toStr doc = .error .typeError)
      ∧ (pubDatePathsList false 0 d12 = [] →
        syncPublicationDates d12 = .ok d12 ∧ processEad toStr doc = .ok d12)
      ∧ (∀ (d : List Node) (path : List Nat),
        (syncPublicationDate d path = .error .typeError ↔ creationDatesList 0 d = [])
          ∧ (creationDatesList 0 d ≠ [] → ∃ d2, syncPublicationDate d path = .ok d2))
      ∧ (datesApart d12 = true →
        ((∃ e, processEad toStr doc = .error e)
          ↔ (pubDatePathsList false 0 d12 ≠ [] ∧ creationDatesList 0 d12 = []))) := by
  have h1 : pubDatePathsList false 0 d12 ≠ [] → creationDatesList 0 d12 = [] →
      processEad toStr doc = .error .typeError := by
    intro hp hc
    simp only [processEad, h12, syncPublicationDates]
    cases hpaths : pubDatePathsList false 0 d12 with
    | nil => exact absurd hpaths hp
    | cons p ps => simp [forEachPublicationDate, syncPublicationDate, hc]
  have h2 : pubDatePathsList false 0 d12 = [] →
      syncPublicationDates d12 = .ok d12 ∧ processEad toStr doc = .ok d12 := by
    intro hp
    simp [processEad, h12, syncPublicationDates, hp, forEachPublicationDate]
  refine ⟨h1, h2, ?_, ?_⟩
  · intro d path
    unfold syncPublicationDate
    cases hc : creationDatesList 0 d with
    | nil => simp
    | cons c cs => simp
  · intro hsep
    constructor
    · rintro ⟨e, he⟩
      by_cases hp : pubDatePathsList false 0 d12 = []
      · rw [(h2 hp).2] at he
        cases he
      · refine ⟨hp, ?_⟩
        cases hc : creationDatesList 0 d12 with
        | nil => rfl
        | cons D rest =>
          have hq : ∀ p ∈ pubDatePathsList false 0 d12, sparesFirstDate p d12 = true := by
            simpa [datesApart] using hsep
          have hfold := forEachPublicationDate_of_apart D (pubDatePathsList false 0 d12) d12
            (by rw [hc]; rfl) hq
          have hok : processEad toStr doc
              = .ok ((pubDatePathsList false 0 d12).foldl
                (fun d p => modifyAt (setTextContent (textContent D)) p d) d12) := by
            simp only [processEad, h12, syncPublicationDates]
            exact hfold.1
          rw [hok] at he
          cases he
    · rintro ⟨hp, hc⟩
      exact ⟨_, h1 hp hc⟩

/-- Claim C11 at a document with a publication date and no creation date. -/
theorem syncPublicationDates_fails_without_creation_date_witness :
    normalizeContent id [Node.element (some 1) "ead" []
          [.element (some 2) "publicationstmt" [] [.element (some 3) "date" [] [.text "TBD"]]]]
        = .ok [Node.element (some 1) "ead" []
          [.element (some 2) "publicationstmt" [] [.element (some 3) "date" [] [.text "TBD"]]]]
      ∧ processEad id [Node.element (some 1) "ead" []
          [.element (some 2) "publicationstmt" [] [.element (some 3) "date" [] [.text "TBD"]]]]
        = .error .typeError :=
  ⟨by decide, (syncPublicationDates_fails_without_creation_date id
    [Node.element (some 1) "ead" []
      [.element (some 2) "publicationstmt" [] [.element (some 3) "date" [] [.text "TBD"]]]]
    [Node.element (some 1) "ead" []
      [.element (some 2) "publicationstmt" [] [.element (some 3) "date" [] [.text "TBD"]]]]
    (by decide)).1 (by decide) (by decide)⟩

/-! ## Claim C18: `removeNode` -/

theorem removeNodeAt_eq (path : List Nat) (doc : List Node) :
    removeNodeAt path doc = removeAt path doc := by
  cases path with
  | nil => rfl
  | cons k rest => rfl

theorem removeAt_cons_cons (k j : Nat) (rest : List Nat) (doc : List Node) :
    removeAt (k :: j :: rest) doc = modifyNth (removeAtNode (j :: rest)) k doc := by
  have hfun : (fun n : Node =>
      match n with
      | .element i t a cs => Node.element i t a (removeAt (j :: rest) cs)
      | m => m) = removeAtNode (j :: rest) := by
    funext n
    cases n <;> rfl
  rw [removeAt, hfun]

theorem foldr_removeAt_child (pre post : List Node) :
    ∀ (paths : List (List Nat)) (c : Node), (∀ p ∈ paths, p ≠ []) →
      (paths.map (List.cons pre.length)).foldr removeAt (pre ++ c :: post)
        = pre ++ paths.foldr removeAtNode c :: post
  | [], c, _ => rfl
  | [] :: paths, c, h => absurd rfl (h [] (List.mem_cons_self _ _))
  | (j :: rest) :: paths, c, h => by
    simp only [List.map_cons, List.foldr_cons]
    rw [foldr_removeAt_child pre post paths c (fun p hp => h p (List.mem_cons_of_mem _ hp)),
      removeAt_cons_cons, modifyNth_append]

theorem foldr_removeAtNode_children (i : Option Nat) (t : String) (a : List (String × String)) :
    ∀ (paths : List (List Nat)) (cs : List Node),
      paths.foldr removeAtNode (.element i t a cs) = .element i t a (paths.foldr removeAt cs)
  | [], cs => rfl
  | p :: paths, cs => by
    simp only [List.foldr_cons, foldr_removeAtNode_children i t a paths cs, removeAtNode]

theorem selectedPathsList_ne_nil (sel : Node → Bool) : ∀ (cs : List Node) (k : Nat),
    ∀ p ∈ selectedPathsList sel k cs, p ≠ []
  | [], k => by intro p hp; simp [selectedPathsList] at hp
  | c :: cs, k => by
    intro p hp
    simp only [selectedPathsList, List.mem_append, List.mem_map] at hp
    rcases hp with ⟨q, _, hq⟩ | hp
    · rw [← hq]
      exact List.cons_ne_nil _ _
    · exact selectedPathsList_ne_nil sel cs (k + 1) p hp

mutual
theorem foldr_removeAtNode_selectedPaths (sel : Node → Bool) : ∀ (i : Option Nat) (t : String)
    (a : List (String × String)) (cs : List Node),
    (selectedPathsList sel 0 cs).foldr removeAtNode (.element i t a cs)
      = forEachRemoveNode sel (.element i t a cs)
  | i, t, a, cs => by
    have ih := foldr_removeAt_selectedPathsList sel cs []
    simp only [List.nil_append, List.length_nil] at ih
    rw [foldr_removeAtNode_children, ih, forEachRemoveNode]
theorem foldr_removeAt_selectedPathsList (sel : Node → Bool) :
    ∀ (cs : List Node) (pre : List Node),
      (selectedPathsList sel pre.length cs).foldr removeAt (pre ++ cs)
        = pre ++ forEachRemoveNodeList sel cs
  | [], pre => rfl
  | .text s :: cs, pre => by
    have ih := foldr_removeAt_selectedPathsList sel cs (pre ++ [.text s])
    simp only [List.length_append, List.length_singleton, List.append_assoc,
      List.singleton_append] at ih
    by_cases hs : sel (.text s) = true
    · simp only [selectedPathsList, selectedPaths, hs, if_true, List.map_cons, List.map_nil,
        List.singleton_append, List.foldr_cons, ih, forEachRemoveNodeList]
      exact eraseIdx_length_append pre _ _
    · simp only [selectedPathsList, selectedPaths, hs, Bool.false_eq_true, if_false,
        List.map_nil, List.nil_append, ih, forEachRemoveNodeList, forEachRemoveNode]
  | .comment s :: cs, pre => by
    have ih := foldr_removeAt_selectedPathsList sel cs (pre ++ [.comment s])
    simp only [List.length_append, List.length_singleton, List.append_assoc,
      List.singleton_append] at ih
    by_cases hs : sel (.comment s) = true
    · simp only [selectedPathsList, selectedPaths, hs, if_true, List.map_cons, List.map_nil,
        List.singleton_append, List.foldr_cons, ih, forEachRemoveNodeList]
      exact eraseIdx_length_append pre _ _
    · simp only [selectedPathsList, selectedPaths, hs, Bool.false_eq_true, if_false,
        List.map_nil, List.nil_append, ih, forEachRemoveNodeList, forEachRemoveNode]
  | .element i t a ds :: cs, pre => by
    have ih := foldr_removeAt_selectedPathsList sel cs (pre ++ [.element i t a ds])
    simp only [List.length_append, List.length_singleton, List.append_assoc,
      List.singleton_append] at ih
    have ihn := foldr_removeAtNode_selectedPaths sel i t a ds
    have hne := selectedPathsList_ne_nil sel ds 0
    by_cases hs : sel (.element i t a ds) = true
    · simp only [selectedPathsList, selectedPaths, hs, if_true, List.singleton_append,
        List.map_cons, List.foldr_append, List.foldr_cons, ih, forEachRemoveNodeList]
      rw [foldr_removeAt_child pre _ _ _ hne]
      exact eraseIdx_length_append pre _ _
    · simp only [selectedPathsList, selectedPaths, hs, Bool.false_eq_true, if_false,
        List.nil_append, List.foldr_append, ih, forEachRemoveNodeList]
      rw [foldr_removeAt_child pre _ _ _ hne, ihn]
end

/-- Claim C18: `removeNode` on a node without parent does not fail, returns
with the document and the node as they were, and logs the warning; on a node
that hangs in the document it does not fail, logs nothing and takes exactly
that node out of the child list of its parent, the other children staying in
their order, and nothing else of the document changes (stated for a child of
the document node and for a child of an element below it).  The statement
`select(...).forEach(removeNode)` of `processEad` is `removeNode` called on
every selected node (here from the last to the first, so that a path still
leads to its node when its turn comes). -/
theorem removeNode_detaches_exactly_the_node (doc before after : List Node) (node c : Node)
    (i : Option Nat) (t : String) (a : List (String × String)) :
    removeNode doc (.detached node)
        = .ok (doc, some node, ["WARNING: Cannot remove node that has no parent."])
      ∧ removeNode (before ++ c :: after) (.attached [before.length])
        = .ok (before ++ after, some c, [])
      ∧ removeNode (doc ++ [.element i t a (before ++ c :: after)])
          (.attached [doc.length, before.length])
        = .ok (doc ++ [.element i t a (before ++ after)], some c, [])
      ∧ (∀ (path : List Nat) (d : List Node), ∃ r, removeNode d (.attached path) = .ok r)
      ∧ (∀ (sel : Node → Bool) (d : List Node),
        forEachRemoveNodeList sel d = (selectedPathsList sel 0 d).foldr removeNodeAt d) := by
  have hnth : ∀ (pre : List Node) (x : Node) (post : List Node),
      nth pre.length (pre ++ x :: post) = some x := by
    intro pre x post
    induction pre with
    | nil => rfl
    | cons y ys ih => simpa [nth] using ih
  refine ⟨rfl, ?_, ?_, ?_, ?_⟩
  · simp only [removeNode, removeAt, eraseIdx_length_append, nodeAt, hnth, nodeAtNode]
  · simp only [removeNode, removeAt_cons_cons, modifyNth_append, removeAtNode, removeAt,
      eraseIdx_length_append, nodeAt, hnth, nodeAtNode]
  · intro path d
    cases path with
    | nil => exact ⟨_, rfl⟩
    | cons k rest => exact ⟨_, rfl⟩
  · intro sel d
    have h := foldr_removeAt_selectedPathsList sel d []
    simp only [List.nil_append, List.length_nil] at h
    have hfun : removeNodeAt = removeAt := by
      funext path x
      exact removeNodeAt_eq path x
    rw [hfun, h]

end EadConverter
